import Mathlib

/-! DataTransferHX: the transfer engine and its dedup ledger.

A shallow embedding of `core/transfer.go`, `core/history.go` and the `MkdirAll` of
`protocols/ftp.go`.

* The two filesystems, the clock, `io.Copy`, `regexp.Compile` and the ledger file are the
  environment.  A `World` answers every call as a function of the events that happened so far,
  so a backend may change its mind between two calls (a file that appears, a connection that
  drops, a clock that advances).
* Every call made on the environment is appended to a trace of `Event`s together with its
  result; the properties of the engine are statements about that trace and about the ledger.
* `processDirectory` recurses over whatever the source lists, so it takes a recursion budget
  (`fuel`); running out of it is the result `Res.diverge`, never a normal return.
* A Go `error` is `Option String` (`none` is `nil`); a failed run-time check (nil pointer,
  write to a nil map) is the result `Res.panic`.
* `log.Printf` is not part of the trace, and the locks of `core/history.go` are not modelled:
  a run is sequential.
* A Go string is a sequence of bytes: a string of the model holds one character per byte.
  Only `encoding/json` reads the bytes as UTF-8.
* The ledger file holds a JSON text; the model keeps the JSON value that the text denotes.
-/

set_option autoImplicit false

namespace DataTransferHX

/-! ## Data model -/

/-- An instant (Go `time.Time` compared with `Before`): nanoseconds since the Unix epoch. -/
abbrev Time := Int

/-- The record `protocols.FileEntry`. -/
structure FileEntry where
  Name : String
  Size : Int
  ModTime : Time
  IsDir : Bool
  Path : String
deriving DecidableEq, Repr

/-- The record `config.Auth`. -/
structure Auth where
  Host : String
  Port : Int
  User : String
  Password : String
deriving DecidableEq, Repr

/-- The record `config.Task`. -/
structure Task where
  Name : String
  Cron : String
  SourceType : String
  SourcePath : String
  SourceRegex : String
  TargetType : String
  TargetPath : String
  RetentionDays : Int
  SourceNewerDays : Int
  SourceAuth : Option Auth
  TargetAuth : Option Auth
deriving DecidableEq, Repr

/-! ## Go's `path` package (lexical path processing) -/

namespace path

/-- The elements of a path between its slashes (`strings.Split(p, "/")`). -/
def splitSlash : List Char → List (List Char)
  | [] => [[]]
  | c :: cs =>
    match splitSlash cs with
    | [] => [[]]
    | x :: xs => if c = '/' then [] :: x :: xs else (c :: x) :: xs

/-- One element of `path.Clean`, on the stack of kept elements (last kept element first):
empty and `.` elements are dropped, `..` removes the last kept real element, and where there is
none it is dropped on a rooted path and kept on a relative one. -/
def cleanStep (rooted : Bool) (stack : List (List Char)) (elem : List Char) : List (List Char) :=
  if elem = [] ∨ elem = ['.'] then stack
  else if elem = ['.', '.'] then
    match stack with
    | [] => if rooted then [] else [elem]
    | top :: rest => if top = ['.', '.'] then elem :: top :: rest else rest
  else elem :: stack

/-- The elements joined with single slashes. -/
def joinSlash : List (List Char) → List Char
  | [] => []
  | [x] => x
  | x :: y :: rest => x ++ '/' :: joinSlash (y :: rest)

/-- Go `path.Clean`: the shortest path name equivalent to `p` by purely lexical processing. -/
def Clean (p : String) : String :=
  let rooted : Bool := p.data.head? = some '/'
  let body := joinSlash ((splitSlash p.data).foldl (cleanStep rooted) []).reverse
  if rooted then String.mk ('/' :: body)
  else if body = [] then "." else String.mk body

/-- Go `path.Join`: the non-empty elements joined with slashes and cleaned; the empty string
when every element is empty. -/
def Join (elem : List String) : String :=
  match elem.filter (fun e => e ≠ "") with
  | [] => ""
  | es => Clean (String.mk (joinSlash (es.map String.data)))

/-- The part of `p` up to and including its last slash (the first result of `path.Split`). -/
def dirPart : List Char → List Char
  | [] => []
  | c :: cs => if '/' ∈ cs ∨ c = '/' then c :: dirPart cs else []

/-- Go `path.Dir`: all but the last element of the path, cleaned. -/
def Dir (p : String) : String := Clean (String.mk (dirPart p.data))

/-- The length of the elements of a path, each with one slash. -/
def weight (xs : List (List Char)) : Nat := (xs.map (fun x => x.length + 1)).sum

end path

/-! ## Regular expressions -/

/-- A compiled regular expression (Go `*regexp.Regexp`), given by its meaning:
`matchAt s i j` says that the pattern matches the characters of the text `s` from position `i`
up to position `j`.  The whole text is an argument because `^`, `$` and `\b` look at what
surrounds the match. -/
structure Regexp where
  matchAt : List Char → Nat → Nat → Bool

/-- Go `(*Regexp).MatchString`: whether the string contains any match of the expression. -/
def Regexp.MatchString (re : Regexp) (s : String) : Bool :=
  (List.range (s.data.length + 1)).any fun i =>
    (List.range (s.data.length + 1)).any fun j => decide (i ≤ j) && re.matchAt s.data i j

/-- The pattern matches the entire string, first character to last. -/
def Regexp.fullMatch (re : Regexp) (s : String) : Bool :=
  re.matchAt s.data 0 s.data.length

/-! ## Events and the environment -/

/-- Which of the two filesystems of a run a call goes to. -/
inductive Side
  | src
  | dst
deriving DecidableEq, Repr

/-- One call on the environment, with its result. `TransferFile` marks the entry into
`transferFile`; `Copy` is `io.Copy(dstFile, srcFile)`; `Save` is the call of
`HistoryManager.Save`, which rewrites the ledger file. -/
inductive Event
  | Init (side : Side) (ok : Bool)
  | Close (side : Side)
  | ListDir (side : Side) (dir : String) (result : Option (List FileEntry))
  | MkdirAll (side : Side) (dir : String) (ok : Bool)
  | OpenFile (side : Side) (file : String) (ok : Bool)
  | CreateFile (side : Side) (file : String) (ok : Bool)
  | Copy (file : String) (ok : Bool)
  | CloseFile (side : Side) (file : String)
  | Stat (side : Side) (file : String) (ok : Bool)
  | Remove (side : Side) (file : String) (ok : Bool)
  | Now (t : Time)
  | TransferFile (file : String)
  | Save (ok : Bool)
deriving DecidableEq, Repr

/-- The events of a run so far, oldest first. -/
abbrev Trace := List Event

/-- The interface `protocols.FileSystem`, as the answers of a backend after a given past. -/
structure FileSystem where
  Init : Trace → Option String
  Open : Trace → String → Option String
  Create : Trace → String → Option String
  MkdirAll : Trace → String → Option String
  Stat : Trace → String → Except String FileEntry
  Remove : Trace → String → Option String
  List : Trace → String → Except String (List FileEntry)

/-- The struct `core.TaskHistory`: `Records` is a Go map, `none` being the nil map. -/
structure TaskHistory where
  Records : Option (List (String × Time))
deriving DecidableEq, Repr

/-- The struct `core.HistoryManager`: `Tasks` maps a task name to a `*TaskHistory`
(`none` being the nil pointer); the map itself may be nil. -/
structure HistoryManager where
  Tasks : Option (List (String × Option TaskHistory))
  Path : String
deriving DecidableEq, Repr

/-- Everything outside the engine. `rangeOrder` is the order in which a `range` over a map
visits its entries, which Go leaves unspecified: some permutation of the entries.
`WriteLedger` is the `os.WriteFile` of `Save`. `FormatTime` is the text that
`time.Time.MarshalJSON` writes between the quotes (RFC 3339 with nanoseconds; `none` when the
year is outside 0..9999) and `ParseTime` is what `time.Time.UnmarshalJSON` reads from a JSON
string; the text written for an instant reads back as that instant. -/
structure World where
  src : FileSystem
  dst : FileSystem
  Now : Trace → Time
  AddDate : Time → Int → Int → Int → Time
  Copy : Trace → String → Option String
  Compile : String → Except String Regexp
  WriteLedger : Trace → HistoryManager → Option String
  rangeOrder : Trace → List (String × Time) → List (String × Time)
  rangeOrder_perm : ∀ tr l, List.Perm (rangeOrder tr l) l
  FormatTime : Time → Option String
  ParseTime : String → Option Time
  parse_format : ∀ t s, FormatTime t = some s → ParseTime s = some t

/-- The filesystem object of a side. -/
def World.fs (w : World) : Side → FileSystem
  | .src => w.src
  | .dst => w.dst

/-! ## Go maps as association lists -/

/-- The value stored under a key (`v, ok := m[k]`). -/
def mapGet {β : Type} (m : List (String × β)) (k : String) : Option β :=
  match m with
  | [] => none
  | (k', v) :: rest => if k' = k then some v else mapGet rest k

/-- The assignment `m[k] = v`: the entry of `k` is replaced or created. -/
def mapSet {β : Type} (m : List (String × β)) (k : String) (v : β) : List (String × β) :=
  (k, v) :: m.filter (fun e => e.1 ≠ k)

/-! ## State of a traversal -/

/-- The state threaded through a traversal: the events so far and the task history that the
pointer `history` designates (`none` for a nil pointer). -/
structure St where
  trace : Trace
  history : Option TaskHistory
deriving DecidableEq, Repr

/-- Append one event. -/
def St.log (s : St) (e : Event) : St := { s with trace := s.trace ++ [e] }

/-- How a call ends: it returns a value, it panics, or it never returns. -/
inductive Res (α : Type)
  | ret (a : α) (s : St)
  | panic (s : St)
  | diverge (s : St)

/-- The state in which a call ended. -/
def Res.state {α : Type} : Res α → St
  | .ret _ s => s
  | .panic s => s
  | .diverge s => s

/-- The entries of a history as a list; none for a nil pointer or a nil map. -/
def recordsOf : Option TaskHistory → List (String × Time)
  | some ⟨some r⟩ => r
  | _ => []

/-- The timestamp recorded for a path, if any. -/
def ledgerTime (h : Option TaskHistory) (p : String) : Option Time := mapGet (recordsOf h) p

/-! ## `encoding/json` on the ledger -/

/-- A JSON value, as `encoding/json` reads it from a text; a string is held unquoted. -/
inductive Json
  | null
  | bool (b : Bool)
  | number (digits : String)
  | str (s : String)
  | array (items : List Json)
  | object (members : List (String × Json))

/-- What `os.ReadFile` finds at the path of the ledger: no file, an error, or the content of
the file, which is a JSON text (the value it denotes) or not (`none`). -/
inductive FileRead
  | notExist
  | failed (err : String)
  | data (content : Option Json)

/-- The zero `time.Time`: January 1 of the year 1, UTC, as nanoseconds from the Unix epoch. -/
def zeroTime : Time := -62135596800000000000

namespace json

/-- Whether the byte lies within the bounds. -/
def between (lo hi : Nat) (c : Char) : Bool := decide (lo ≤ c.toNat) && decide (c.toNat ≤ hi)

/-- The number of bytes of the UTF-8 encoding that starts at the byte `b`, followed by
`rest` (`utf8.DecodeRuneInString`); 0 when no encoding of a rune starts there. -/
def runeLen (b : Char) (rest : List Char) : Nat :=
  let x := b.toNat
  if x < 0x80 then 1
  else if 0xC2 ≤ x ∧ x ≤ 0xDF then
    match rest with
    | b1 :: _ => if between 0x80 0xBF b1 then 2 else 0
    | _ => 0
  else if 0xE0 ≤ x ∧ x ≤ 0xEF then
    match rest with
    | b1 :: b2 :: _ =>
      if between (if x = 0xE0 then 0xA0 else 0x80) (if x = 0xED then 0x9F else 0xBF) b1 ∧
          between 0x80 0xBF b2 then 3
      else 0
    | _ => 0
  else if 0xF0 ≤ x ∧ x ≤ 0xF4 then
    match rest with
    | b1 :: b2 :: b3 :: _ =>
      if between (if x = 0xF0 then 0x90 else 0x80) (if x = 0xF4 then 0x8F else 0xBF) b1 ∧
          between 0x80 0xBF b2 ∧ between 0x80 0xBF b3 then 4
      else 0
    | _ => 0
  else 0

/-- The bytes of a string as `Marshal` writes them and `Unmarshal` reads them back: each byte
that does not belong to the encoding of a rune becomes U+FFFD (the bytes EF BF BD). The
first argument counts the bytes still to copy of the encoding under way. -/
def coerceFrom : Nat → List Char → List Char
  | _, [] => []
  | pending + 1, b :: rest => b :: coerceFrom pending rest
  | 0, b :: rest =>
    match runeLen b rest with
    | 0 => '\xef' :: '\xbf' :: '\xbd' :: coerceFrom 0 rest
    | n + 1 => b :: coerceFrom n rest

/-- A string after a passage through `Marshal` and `Unmarshal`. -/
def coerce (s : String) : String := String.mk (coerceFrom 0 s.data)

/-- The order of the keys of a map in the text that `Marshal` writes: byte by byte. -/
def keyLe : List Char → List Char → Bool
  | [], _ => true
  | _ :: _, [] => false
  | x :: xs, y :: ys =>
    if x.toNat < y.toNat then true else if y.toNat < x.toNat then false else keyLe xs ys

/-- The entries of the Go map that an association list stands for (for each key, the first
pair that has it), in the order in which `Marshal` writes a map: sorted by key. -/
def mapEntries {β : Type} (m : List (String × β)) : List (String × β) :=
  (m.foldr (fun e acc => mapSet acc e.1 e.2) []).insertionSort
    (fun a b => keyLe a.1.data b.1.data = true)

/-- The members written for the entries of a `map[string]time.Time`. -/
def marshalRecords (w : World) : List (String × Time) → Except String (List (String × Json))
  | [] => .ok []
  | (p, t) :: rest =>
    match w.FormatTime t with
    | none => .error "json: error calling MarshalJSON for type time.Time"
    | some stamp =>
      match marshalRecords w rest with
      | .error e => .error e
      | .ok members => .ok ((coerce p, .str stamp) :: members)

/-- The value written for a `*TaskHistory`: `null` for the nil pointer, else an object with
the one exported field, `records`, which is `null` for the nil map. -/
def marshalTask (w : World) : Option TaskHistory → Except String Json
  | none => .ok .null
  | some ⟨none⟩ => .ok (.object [("records", .null)])
  | some ⟨some r⟩ =>
    match marshalRecords w (mapEntries r) with
    | .error e => .error e
    | .ok members => .ok (.object [("records", .object members)])

/-- The members written for the entries of a `map[string]*TaskHistory`. -/
def marshalTasks (w : World) :
    List (String × Option TaskHistory) → Except String (List (String × Json))
  | [] => .ok []
  | (name, th) :: rest =>
    match marshalTask w th with
    | .error e => .error e
    | .ok v =>
      match marshalTasks w rest with
      | .error e => .error e
      | .ok members => .ok ((coerce name, v) :: members)

/-- `json.MarshalIndent(hm.Tasks, "", "  ")`: the value of the text written. -/
def MarshalIndent (w : World) :
    Option (List (String × Option TaskHistory)) → Except String Json
  | none => .ok .null
  | some tasks =>
    match marshalTasks w (mapEntries tasks) with
    | .error e => .error e
    | .ok members => .ok (.object members)

/-- `time.Time.UnmarshalJSON` on the value of an element of `records`: `null` leaves the
zero time, a string is parsed, anything else is an error. -/
def unmarshalTime (w : World) : Json → Except String Time
  | .null => .ok zeroTime
  | .str s =>
    match w.ParseTime s with
    | some t => .ok t
    | none => .error "parsing time: cannot parse"
  | _ => .error "Time.UnmarshalJSON: input is not a JSON string"

/-- The members of a JSON object stored one after the other into a `map[string]time.Time`. -/
def unmarshalRecordsInto (w : World) :
    List (String × Json) → List (String × Time) → Except String (List (String × Time))
  | [], m => .ok m
  | (p, v) :: rest, m =>
    match unmarshalTime w v with
    | .error e => .error e
    | .ok t => unmarshalRecordsInto w rest (mapSet m p t)

/-- The value of the field `records` decoded into the map that the field holds: `null` makes
the map nil, an object goes into the map, which is made first if it is nil. -/
def unmarshalRecords (w : World) (cur : Option (List (String × Time))) :
    Json → Except String (Option (List (String × Time)))
  | .null => .ok none
  | .object members =>
    match unmarshalRecordsInto w members (cur.getD []) with
    | .error e => .error e
    | .ok m => .ok (some m)
  | _ => .error "json: cannot unmarshal into Go struct field TaskHistory.records"

/-- Whether a key of a JSON object designates the field tagged `records`: it does when it is
that name up to the case of its letters, the long s (bytes C5 BF) counting as an s. -/
def isRecordsField (name : String) : Bool :=
  match name.data.map Char.toLower with
  | ['r', 'e', 'c', 'o', 'r', 'd', 's'] => true
  | ['r', 'e', 'c', 'o', 'r', 'd', '\xc5', '\xbf'] => true
  | _ => false

/-- The members of a JSON object decoded one after the other into a `TaskHistory`; members
that designate no field are skipped. -/
def unmarshalFields (w : World) : List (String × Json) → TaskHistory → Except String TaskHistory
  | [], th => .ok th
  | (name, v) :: rest, th =>
    if isRecordsField name then
      match unmarshalRecords w th.Records v with
      | .error e => .error e
      | .ok r => unmarshalFields w rest ⟨r⟩
    else unmarshalFields w rest th

/-- A JSON value decoded into a fresh `*TaskHistory`: `null` is the nil pointer, an object is
decoded into a new `TaskHistory`, anything else is an error. -/
def unmarshalTask (w : World) : Json → Except String (Option TaskHistory)
  | .null => .ok none
  | .object members =>
    match unmarshalFields w members ⟨none⟩ with
    | .error e => .error e
    | .ok th => .ok (some th)
  | _ => .error "json: cannot unmarshal into Go value of type core.TaskHistory"

/-- The members of a JSON object stored one after the other into a
`map[string]*TaskHistory`. -/
def unmarshalTasksInto (w : World) : List (String × Json) →
    List (String × Option TaskHistory) → Except String (List (String × Option TaskHistory))
  | [], m => .ok m
  | (name, v) :: rest, m =>
    match unmarshalTask w v with
    | .error e => .error e
    | .ok th => unmarshalTasksInto w rest (mapSet m name th)

/-- `json.Unmarshal(data, &hm.Tasks)`, `tasks` being the map before the call: a text that is
not JSON is an error, `null` makes the map nil, an object goes into the map, which is made
first if it is nil and keeps the entries it has otherwise. Where `Unmarshal` returns an
error, what it leaves in the map is not represented. -/
def Unmarshal (w : World) (data : Option Json)
    (tasks : Option (List (String × Option TaskHistory))) :
    Except String (Option (List (String × Option TaskHistory))) :=
  match data with
  | none => .error "invalid character looking for beginning of value"
  | some .null => .ok none
  | some (.object members) =>
    match unmarshalTasksInto w members (tasks.getD []) with
    | .error e => .error e
    | .ok m => .ok (some m)
  | some _ => .error "json: cannot unmarshal into Go value of type map[string]*core.TaskHistory"

end json

/-! ## `core/history.go` -/

/-- `TaskHistory.Has`: whether the path has a record. On a nil receiver the lock panics
(`none`); a nil map reads as empty. -/
def TaskHistory.Has (th : Option TaskHistory) (p : String) : Option Bool :=
  match th with
  | none => none
  | some h =>
    match h.Records with
    | none => some false
    | some r => some (mapGet r p).isSome

/-- `TaskHistory.Add`: `th.Records[path] = time.Now()`. A nil receiver panics at the lock, a
nil map at the assignment, after the clock was read. -/
def TaskHistory.Add (w : World) (p : String) (s : St) : Res Unit :=
  match s.history with
  | none => .panic s
  | some h =>
    let t := w.Now s.trace
    let s1 := s.log (.Now t)
    match h.Records with
    | none => .panic s1
    | some r => .ret () { s1 with history := some ⟨some (mapSet r p t)⟩ }

/-- `HistoryManager.GetTaskHistory`: the history stored under the name, created empty and
inserted on first access. Writing to a nil `Tasks` map panics (`none`). -/
def HistoryManager.GetTaskHistory (hm : HistoryManager) (taskName : String) :
    Option (Option TaskHistory × HistoryManager) :=
  match hm.Tasks with
  | none => none
  | some tasks =>
    match mapGet tasks taskName with
    | some th => some (th, hm)
    | none =>
      let th : Option TaskHistory := some ⟨some []⟩
      some (th, { hm with Tasks := some (mapSet tasks taskName th) })

/-- What a pointer obtained from `GetTaskHistory` designates is the entry stored under the
task name: after mutations through the pointer, the manager holds the new value. -/
def HistoryManager.store (hm : HistoryManager) (taskName : String) (th : Option TaskHistory) :
    HistoryManager :=
  match hm.Tasks with
  | none => hm
  | some tasks => { hm with Tasks := some (mapSet tasks taskName th) }

/-- `NewHistoryManager`: an empty, non-nil map of tasks. -/
def NewHistoryManager (path : String) : HistoryManager := ⟨some [], path⟩

/-- `HistoryManager.Load`, given what `os.ReadFile(hm.Path)` finds: a missing file leaves the
manager as it is, a read error is returned, and the content is decoded into `hm.Tasks`.
Where `Load` returns an error, the state of the manager is not represented. -/
def HistoryManager.Load (w : World) (hm : HistoryManager) (file : FileRead) :
    Except String HistoryManager :=
  match file with
  | .notExist => .ok hm
  | .failed err => .error err
  | .data content =>
    match json.Unmarshal w content hm.Tasks with
    | .error e => .error e
    | .ok tasks => .ok { hm with Tasks := tasks }

/-- The error that `HistoryManager.Save` returns: that of `json.MarshalIndent`, and where
there is none, that of `os.WriteFile`. -/
def HistoryManager.saveError (w : World) (hm : HistoryManager) (tr : Trace) : Option String :=
  match json.MarshalIndent w hm.Tasks with
  | .error e => some e
  | .ok _ => w.WriteLedger tr hm

/-- `HistoryManager.Save`: marshal the tasks and rewrite the ledger file. -/
def HistoryManager.Save (w : World) (hm : HistoryManager) (tr : Trace) :
    Option String × Trace :=
  let r := hm.saveError w tr
  (r, tr ++ [.Save r.isNone])

/-! ## `core/transfer.go` -/

set_option linter.unusedVariables false in
/-- `TransferManager.createFileSystem` for the filesystem of one side: the backend named by
`fsType` is built and initialised; `sftp` and `ftp` need credentials. The result is the error. -/
def createFileSystem (w : World) (side : Side) (fsType rootPath : String) (auth : Option Auth)
    (tr : Trace) : Option String × Trace :=
  let init : Option String × Trace :=
    let r := (w.fs side).Init tr
    (r, tr ++ [.Init side r.isNone])
  if fsType = "local" then init
  else if fsType = "sftp" then
    match auth with
    | none => (some "auth required for sftp", tr)
    | some _ => init
  else if fsType = "ftp" then
    match auth with
    | none => (some "auth required for ftp", tr)
    | some _ => init
  else (some ("unknown fs type: " ++ fsType), tr)

/-- `TransferManager.transferFile`: make the parent directory in the target unless it is the
root, open the source, create the target, copy; the deferred closes run on the way out. -/
def transferFile (w : World) (relPath : String) (s : St) : Option String × St :=
  let s0 := s.log (.TransferFile relPath)
  let parentDir := path.Dir relPath
  let mk : Option String × St :=
    if parentDir ≠ "." ∧ parentDir ≠ "/" then
      match w.dst.MkdirAll s0.trace parentDir with
      | some err =>
        (some ("failed to mkdir " ++ parentDir ++ ": " ++ err),
          s0.log (.MkdirAll .dst parentDir false))
      | none => (none, s0.log (.MkdirAll .dst parentDir true))
    else (none, s0)
  match mk with
  | (some err, s1) => (some err, s1)
  | (none, s1) =>
    match w.src.Open s1.trace relPath with
    | some err => (some err, s1.log (.OpenFile .src relPath false))
    | none =>
      let s2 := s1.log (.OpenFile .src relPath true)
      match w.dst.Create s2.trace relPath with
      | some err =>
        (some err, (s2.log (.CreateFile .dst relPath false)).log (.CloseFile .src relPath))
      | none =>
        let s3 := s2.log (.CreateFile .dst relPath true)
        let r := w.Copy s3.trace relPath
        (r, ((s3.log (.Copy relPath r.isNone)).log (.CloseFile .dst relPath)).log
          (.CloseFile .src relPath))

/-- The body of the loop of `processDirectory` for an entry that is not a directory: the
regex filter, the filter by modification time, the history check, the transfer and the update
of the history. -/
def processFile (w : World) (task : Task) (regex : Regexp) (entryRelPath : String)
    (entry : FileEntry) (s : St) : Res Unit :=
  if regex.MatchString entry.Name = false then .ret () s
  else
    let aged : Bool × St :=
      if task.SourceNewerDays > 0 then
        let now := w.Now s.trace
        let cutoff := w.AddDate now 0 0 (-task.SourceNewerDays)
        (decide (entry.ModTime < cutoff), s.log (.Now now))
      else (false, s)
    match aged with
    | (true, s1) => .ret () s1
    | (false, s1) =>
      match TaskHistory.Has s1.history entryRelPath with
      | none => .panic s1
      | some true => .ret () s1
      | some false =>
        match transferFile w entryRelPath s1 with
        | (some _, s2) => .ret () s2
        | (none, s2) => TaskHistory.Add w entryRelPath s2

/-- The body of the loop of `processDirectory` for one entry; `recurse` is the recursive call
of `processDirectory`, whose error is only logged. -/
def processEntry (w : World) (task : Task) (regex : Regexp)
    (recurse : String → St → Res (Option String)) (relPath : String) (entry : FileEntry)
    (s : St) : Res Unit :=
  let entryRelPath := path.Join [relPath, entry.Name]
  if entry.IsDir then
    match recurse entryRelPath s with
    | .ret _ s1 => .ret () s1
    | .panic s1 => .panic s1
    | .diverge s1 => .diverge s1
  else processFile w task regex entryRelPath entry s

/-- The loop `for _, entry := range entries` over a loop body. -/
def processEntries (body : FileEntry → St → Res Unit) : List FileEntry → St → Res Unit
  | [], s => .ret () s
  | entry :: rest, s =>
    match body entry s with
    | .ret _ s1 => processEntries body rest s1
    | .panic s1 => .panic s1
    | .diverge s1 => .diverge s1

/-- `TransferManager.processDirectory`, with a budget for the depth of the recursion. -/
def processDirectory (w : World) (task : Task) : Nat → String → St → Res (Option String)
  | 0, _, s => .diverge s
  | fuel + 1, relPath, s =>
    match w.src.List s.trace relPath with
    | .error err => .ret (some err) (s.log (.ListDir .src relPath none))
    | .ok entries =>
      let s1 := s.log (.ListDir .src relPath (some entries))
      match w.Compile task.SourceRegex with
      | .error err => .ret (some ("invalid regex: " ++ err)) s1
      | .ok regex =>
        match processEntries (processEntry w task regex (processDirectory w task fuel) relPath)
            entries s1 with
        | .ret _ s2 => .ret none s2
        | .panic s2 => .panic s2
        | .diverge s2 => .diverge s2

/-- The loop of `cleanup` over the snapshot of the records, in the order of the iteration. -/
def cleanupLoop (w : World) (cutoff : Time) : List (String × Time) → St → St
  | [], s => s
  | (relPath, transferTime) :: rest, s =>
    if transferTime < cutoff then
      match w.dst.Stat s.trace relPath with
      | .error _ => cleanupLoop w cutoff rest (s.log (.Stat .dst relPath false))
      | .ok _ =>
        let s1 := s.log (.Stat .dst relPath true)
        let r := w.dst.Remove s1.trace relPath
        cleanupLoop w cutoff rest (s1.log (.Remove .dst relPath r.isNone))
    else cleanupLoop w cutoff rest s

/-- `TransferManager.cleanup`: the cutoff is read first, the records are copied (a nil history
panics at the lock, a nil map is empty), and every copied entry older than the cutoff that
`Stat` finds in the target is removed. -/
def cleanup (w : World) (task : Task) (s : St) : Res Unit :=
  let now := w.Now s.trace
  let s1 := s.log (.Now now)
  let cutoff := w.AddDate now 0 0 (-task.RetentionDays)
  match s1.history with
  | none => .panic s1
  | some h =>
    let records : List (String × Time) :=
      match h.Records with
      | none => []
      | some r => r
    .ret () (cleanupLoop w cutoff (w.rangeOrder s1.trace records) s1)

/-- The state of a whole run: the events so far and the ledger. -/
structure RunState where
  trace : Trace
  hm : HistoryManager
deriving DecidableEq, Repr

/-- How `RunTask` ends: it returns its error, it panics, or it never returns. -/
inductive RunRes
  | ret (err : Option String) (s : RunState)
  | panic (s : RunState)
  | diverge (s : RunState)
deriving DecidableEq, Repr

/-- The state in which a run ended. -/
def RunRes.state : RunRes → RunState
  | .ret _ s => s
  | .panic s => s
  | .diverge s => s

/-- `TransferManager.RunTask`. The deferred `Close` calls run on return and on panic. -/
def RunTask (w : World) (fuel : Nat) (task : Task) (s : RunState) : RunRes :=
  match createFileSystem w .src task.SourceType task.SourcePath task.SourceAuth s.trace with
  | (some err, tr1) => .ret (some ("failed to init source fs: " ++ err)) ⟨tr1, s.hm⟩
  | (none, tr1) =>
    match createFileSystem w .dst task.TargetType task.TargetPath task.TargetAuth tr1 with
    | (some err, tr2) =>
      .ret (some ("failed to init target fs: " ++ err)) ⟨tr2 ++ [.Close .src], s.hm⟩
    | (none, tr2) =>
      match s.hm.GetTaskHistory task.Name with
      | none => .panic ⟨tr2 ++ [.Close .dst, .Close .src], s.hm⟩
      | some (history, hm) =>
        match processDirectory w task fuel "" ⟨tr2, history⟩ with
        | .diverge s1 => .diverge ⟨s1.trace, hm.store task.Name s1.history⟩
        | .panic s1 =>
          .panic ⟨s1.trace ++ [.Close .dst, .Close .src], hm.store task.Name s1.history⟩
        | .ret _ s1 =>
          let cleaned : Res Unit :=
            if task.RetentionDays > 0 then cleanup w task s1 else .ret () s1
          match cleaned with
          | .diverge s2 => .diverge ⟨s2.trace, hm.store task.Name s2.history⟩
          | .panic s2 =>
            .panic ⟨s2.trace ++ [.Close .dst, .Close .src], hm.store task.Name s2.history⟩
          | .ret _ s2 =>
            let hm2 := hm.store task.Name s2.history
            let saved := hm2.Save w s2.trace
            .ret none ⟨saved.2 ++ [.Close .dst, .Close .src], hm2⟩

/-! ## `protocols/ftp.go` -/

/-- The `*ftp.ServerConn` of an `FTPFileSystem`: the error, if any, that `MakeDir` answers
after the `MakeDir` calls made so far. -/
structure ServerConn where
  MakeDir : List (String × Bool) → String → Option String

/-- The struct `protocols.FTPFileSystem`; `conn` is nil until `Init` has succeeded. -/
structure FTPFileSystem where
  RootPath : String
  conn : Option ServerConn

/-- How `FTPFileSystem.MkdirAll` ends, with the `MakeDir` calls it made, oldest first, and
whether each succeeded. -/
inductive MkdirRes
  | ret (err : Option String) (calls : List (String × Bool))
  | panic (calls : List (String × Bool))
  | diverge
deriving DecidableEq, Repr

/-- The first loop of `MkdirAll`: `curr` and its parents are appended to `dirs` until `.`,
`/` or the empty path is reached; `none` when the fuel runs out first. -/
def FTPFileSystem.collect : Nat → String → List String → Option (List String)
  | 0, _, _ => none
  | fuel + 1, curr, dirs =>
    if curr ≠ "." ∧ curr ≠ "/" ∧ curr ≠ "" then
      FTPFileSystem.collect fuel (path.Dir curr) (dirs ++ [curr])
    else some dirs

/-- The second loop of `MkdirAll`, over the directories in the order of the calls: what
`MakeDir` answers is dropped. On a nil connection the call panics. -/
def FTPFileSystem.makeDirs (conn : Option ServerConn) :
    List String → List (String × Bool) → MkdirRes
  | [], calls => .ret none calls
  | d :: rest, calls =>
    match conn with
    | none => .panic calls
    | some c => FTPFileSystem.makeDirs conn rest (calls ++ [(d, (c.MakeDir calls d).isNone)])

/-- `FTPFileSystem.MkdirAll`: the second loop visits `dirs` from its last element to its
first. Running out of fuel in the first loop is the result `diverge`. -/
def FTPFileSystem.MkdirAll (f : FTPFileSystem) (fuel : Nat) (relPath : String) : MkdirRes :=
  let fullPath := path.Join [f.RootPath, relPath]
  match FTPFileSystem.collect fuel fullPath [] with
  | none => .diverge
  | some dirs => FTPFileSystem.makeDirs f.conn dirs.reverse []

/-! ## Notions used in the statements -/

/-- Where the walk up the parents of a path stops in `MkdirAll`: at `.`, `/` or the empty
path. -/
def FTPFileSystem.atTop (curr : String) : Prop := curr = "." ∨ curr = "/" ∨ curr = ""

instance FTPFileSystem.atTop_decidable (curr : String) :
    Decidable (FTPFileSystem.atTop curr) := by
  unfold FTPFileSystem.atTop; infer_instance

/-- What the ledger holds under a task name (`hm.Tasks[name]` with its `ok`): `none` when the
name is not a key, `some none` when the key holds a nil pointer. -/
def HistoryManager.entry (hm : HistoryManager) (taskName : String) :
    Option (Option TaskHistory) :=
  match hm.Tasks with
  | none => none
  | some tasks => mapGet tasks taskName

/-- Every task name and every path of the ledger is valid UTF-8: `Marshal` writes it as it
is. -/
def HistoryManager.validNames (hm : HistoryManager) : Bool :=
  match hm.Tasks with
  | none => true
  | some tasks =>
    tasks.all fun e => decide (json.coerce e.1 = e.1) &&
      (recordsOf e.2).all fun r => decide (json.coerce r.1 = r.1)

/-- The events that `tr1` has after the events of `tr0`. -/
def newEvents (tr0 tr1 : Trace) : Trace := tr1.drop tr0.length

/-- The timestamp that the ledger holds for a path under a task name, if any. -/
def HistoryManager.timeOf (hm : HistoryManager) (taskName p : String) : Option Time :=
  match hm.Tasks with
  | none => none
  | some tasks =>
    match mapGet tasks taskName with
    | none => none
    | some th => ledgerTime th p

/-- The trace `tr1` extends `tr0` by events that all satisfy `Q`. -/
def onlyNew (Q : Event → Prop) (tr0 tr1 : Trace) : Prop :=
  ∃ evs, tr1 = tr0 ++ evs ∧ ∀ ev ∈ evs, Q ev

/-- The event opens or closes a run: `Init`, `Close` or `Save`. -/
def Event.isFrame : Event → Prop
  | .Init _ _ => True
  | .Close _ => True
  | .Save _ => True
  | _ => False

/-- The entry is older than the cutoff of the staleness filter, read on the clock of the
moment: `source_newer_days > 0` and the modification time is before now minus that many
days. -/
def isStale (w : World) (task : Task) (entry : FileEntry) (s : St) : Prop :=
  task.SourceNewerDays > 0 ∧
    entry.ModTime < w.AddDate (w.Now s.trace) 0 0 (-task.SourceNewerDays)

instance (w : World) (task : Task) (entry : FileEntry) (s : St) :
    Decidable (isStale w task entry s) := by
  unfold isStale; infer_instance

/-- The state once the staleness filter is over: the clock was read if the filter is on. -/
def afterClock (w : World) (task : Task) (s : St) : St :=
  if task.SourceNewerDays > 0 then s.log (.Now (w.Now s.trace)) else s

/-- The file that an event starts to transfer or opens for a transfer: the entry into
`transferFile`, `Open` on the source, `Create` on the target. -/
def Event.transferOf : Event → Option String
  | .TransferFile f => some f
  | .OpenFile .src f _ => some f
  | .CreateFile .dst f _ => some f
  | _ => none

/-- The event is a step of the transfer of the file `p` after the entry into `transferFile`. -/
def Event.isTransferStep (p : String) : Event → Prop
  | .MkdirAll .dst d _ => d = path.Dir p
  | .OpenFile .src f _ => f = p
  | .CreateFile .dst f _ => f = p
  | .Copy f _ => f = p
  | .CloseFile _ f => f = p
  | _ => False

/-- The event is one that a traversal can add: a listing of the source, a reading of the
clock, an entry into `transferFile`, or a step of a transfer. -/
def Event.isTraversal : Event → Prop
  | .ListDir .src _ _ => True
  | .Now _ => True
  | .TransferFile _ => True
  | .MkdirAll .dst _ _ => True
  | .OpenFile .src _ _ => True
  | .CreateFile .dst _ _ => True
  | .Copy _ _ => True
  | .CloseFile _ _ => True
  | _ => False

/-- The event is a failed step of a transfer. -/
def Event.transferFailed : Event → Bool
  | .MkdirAll .dst _ ok => !ok
  | .OpenFile .src _ ok => !ok
  | .CreateFile .dst _ ok => !ok
  | .Copy _ ok => !ok
  | _ => false

/-- From `s` to `s1` the trace was only extended, and if `P` was recorded in `s` then it is
recorded in `s1` with the same time and none of the new events transfers `P`. -/
def dedupRel (P : String) (s s1 : St) : Prop :=
  ∃ evs, s1.trace = s.trace ++ evs ∧
    ∀ t, ledgerTime s.history P = some t →
      ledgerTime s1.history P = some t ∧ ∀ ev ∈ evs, ev.transferOf ≠ some P

/-- The path `P` is the relative path of a file (not a directory) that the source listed
after the trace `tr0`, as recorded in the trace `tr`. -/
def listedFile (tr0 tr : Trace) (P : String) : Prop :=
  ∃ d es e, Event.ListDir .src d (some es) ∈ newEvents tr0 tr ∧ e ∈ es ∧ e.IsDir = false ∧
    P = path.Join [d, e.Name]

/-- The events `evs` hold a complete successful transfer of `P`: the entry into
`transferFile`, `MkdirAll` of the parent unless it is the root, `Open`, `Create` and the copy,
each with success. -/
def copiedIn (evs : Trace) (P : String) : Prop :=
  Event.TransferFile P ∈ evs ∧ Event.OpenFile .src P true ∈ evs ∧
    Event.CreateFile .dst P true ∈ evs ∧ Event.Copy P true ∈ evs ∧
    (path.Dir P ≠ "." ∧ path.Dir P ≠ "/" → Event.MkdirAll .dst (path.Dir P) true ∈ evs)

/-- From `s` to `s1` the trace was only extended, and every record is either as it was or
belongs to a path that had no record, was listed as a file since `tr0`, and was transferred
with success by the new events. -/
def grownRel (tr0 : Trace) (s s1 : St) : Prop :=
  ∃ evs, s1.trace = s.trace ++ evs ∧
    ∀ P, ledgerTime s1.history P = ledgerTime s.history P ∨
      (ledgerTime s.history P = none ∧ listedFile tr0 s1.trace P ∧ copiedIn evs P)

/-- The path `P` is the relative path of a file listed by the source since `tr0` whose base
name contains a match of the compiled pattern of the task. -/
def matchedFile (w : World) (task : Task) (tr0 tr : Trace) (P : String) : Prop :=
  ∃ d es e regex, Event.ListDir .src d (some es) ∈ newEvents tr0 tr ∧ e ∈ es ∧
    e.IsDir = false ∧ P = path.Join [d, e.Name] ∧ w.Compile task.SourceRegex = .ok regex ∧
    regex.MatchString e.Name = true

/-- From `s` to `s1` the trace was only extended, and every new entry into `transferFile` is
for a listed file whose base name the pattern matches somewhere. -/
def matchedRel (w : World) (task : Task) (tr0 : Trace) (s s1 : St) : Prop :=
  ∃ evs, s1.trace = s.trace ++ evs ∧
    ∀ P, Event.TransferFile P ∈ evs → matchedFile w task tr0 s1.trace P

/-- The state in which the traversal of a run starts: both filesystems initialised, and
`history` is what `GetTaskHistory` returned. -/
def traversalStart (rs : RunState) (history : Option TaskHistory) : St :=
  ⟨rs.trace ++ [Event.Init .src true, Event.Init .dst true], history⟩

/-- The events that a run adds to the trace. -/
def runEvents (w : World) (fuel : Nat) (task : Task) (rs : RunState) : Trace :=
  newEvents rs.trace (RunTask w fuel task rs).state.trace

/-- The cutoff that `cleanup` computes when it starts in state `s`: now minus
`retention_days` days. -/
def retentionCutoff (w : World) (task : Task) (s : St) : Time :=
  w.AddDate (w.Now s.trace) 0 0 (-task.RetentionDays)

/-- The state `b` comes after the state `a`: its trace extends the trace of `a` and every
path recorded in `a` is recorded in `b`. -/
def laterThan (a b : St) : Prop :=
  (∃ evs, b.trace = a.trace ++ evs) ∧
    ∀ P, (ledgerTime a.history P).isSome = true → (ledgerTime b.history P).isSome = true

/-- From `s` to `s1` the trace was only extended, by events none of which is an entry into
`transferFile`, and the history is the same. -/
def quiet (s s1 : St) : Prop :=
  (∃ evs, s1.trace = s.trace ++ evs ∧ ∀ ev ∈ evs, ∀ P, ev ≠ Event.TransferFile P) ∧
    s1.history = s.history

/-! ## A failing directory seen as an empty one -/

/-- The event as it would read had the listing of `D` failed instead of being empty. -/
def markFailed (D : String) : Event → Event
  | .ListDir .src d (some []) => if d = D then .ListDir .src d none else .ListDir .src d (some [])
  | ev => ev

/-- The trace as it would read had every listing of `D` failed instead of being empty. -/
def seenFailed (D : String) (tr : Trace) : Trace := tr.map (markFailed D)

/-- The state with its trace read through `seenFailed`. -/
def St.seen (D : String) (s : St) : St := ⟨seenFailed D s.trace, s.history⟩

/-- The result with its state read through `seenFailed`. -/
def Res.seen {α : Type} (D : String) : Res α → Res α
  | .ret a s => .ret a (s.seen D)
  | .panic s => .panic (s.seen D)
  | .diverge s => .diverge (s.seen D)

/-- The result without its return value. -/
def Res.forget {α : Type} : Res α → Res Unit
  | .ret _ s => .ret () s
  | .panic s => .panic s
  | .diverge s => .diverge s

/-- A backend that answers as `fs` would after the past read through `seenFailed`. -/
def FileSystem.seeing (D : String) (fs : FileSystem) : FileSystem where
  Init := fun tr => fs.Init (seenFailed D tr)
  Open := fun tr p => fs.Open (seenFailed D tr) p
  Create := fun tr p => fs.Create (seenFailed D tr) p
  MkdirAll := fun tr p => fs.MkdirAll (seenFailed D tr) p
  Stat := fun tr p => fs.Stat (seenFailed D tr) p
  Remove := fun tr p => fs.Remove (seenFailed D tr) p
  List := fun tr p => fs.List (seenFailed D tr) p

/-- The world that differs from `w` only in that the source directory `D` lists as empty:
every other answer is the one `w` gives after the same past with the listings of `D` failed. -/
def World.withEmptyDir (w : World) (D : String) : World where
  src := { w.src.seeing D with
    List := fun tr p => if p = D then .ok [] else w.src.List (seenFailed D tr) p }
  dst := w.dst.seeing D
  Now := fun tr => w.Now (seenFailed D tr)
  AddDate := w.AddDate
  Copy := fun tr p => w.Copy (seenFailed D tr) p
  Compile := w.Compile
  WriteLedger := fun tr hm => w.WriteLedger (seenFailed D tr) hm
  rangeOrder := fun tr l => w.rangeOrder (seenFailed D tr) l
  rangeOrder_perm := fun tr l => w.rangeOrder_perm (seenFailed D tr) l
  FormatTime := w.FormatTime
  ParseTime := w.ParseTime
  parse_format := w.parse_format

/-! ## Concrete environments -/

/-- A backend on which every call succeeds and whose listings are fixed. -/
def quietFS (list : String → Except String (List FileEntry)) : FileSystem where
  Init := fun _ => none
  Open := fun _ _ => none
  Create := fun _ _ => none
  MkdirAll := fun _ _ => none
  Stat := fun _ p => .ok ⟨p, 0, 0, false, p⟩
  Remove := fun _ _ => none
  List := fun _ p => list p

/-- The pattern that matches exactly the given characters, like the Go pattern `csv`. -/
def literal (lit : List Char) : Regexp where
  matchAt := fun s i j => decide (j ≤ s.length) && decide ((s.drop i).take (j - i) = lit)

/-- A notation for the instants from the epoch on: as many strokes as nanoseconds. -/
def strokes (t : Time) : Option String :=
  if 0 ≤ t then some (String.mk (List.replicate t.toNat 'I')) else none

/-- The instant that a text of strokes denotes. -/
def countStrokes (s : String) : Option Time :=
  if s.data.all (fun c => c = 'I') then some (s.data.length : Int) else none

/-- A world with fixed listings on the source and an empty target, where every call succeeds,
a day has 86400 seconds, the clock advances by one nanosecond per event, a map is ranged
over in the order of the list that holds it, and timestamps are written in strokes. -/
def staticWorld (list : String → Except String (List FileEntry))
    (compile : String → Except String Regexp) : World where
  src := quietFS list
  dst := quietFS fun _ => .ok []
  Now := fun tr => tr.length
  AddDate := fun t _ _ d => t + d * 86400000000000
  Copy := fun _ _ => none
  Compile := compile
  WriteLedger := fun _ _ => none
  rangeOrder := fun _ l => l
  rangeOrder_perm := fun _ l => List.Perm.refl l
  FormatTime := strokes
  ParseTime := countStrokes
  parse_format := by
    intro t s h
    unfold strokes at h
    split at h
    · rename_i ht
      injection h with h
      subst h
      simp [countStrokes, Int.toNat_of_nonneg ht]
    · cases h

/-- A source with `a.csv.bak` at the root and `x.csv` in the directory `sub`. -/
def demoList (p : String) : Except String (List FileEntry) :=
  if p = "" then .ok [⟨"a.csv.bak", 1, 0, false, "a.csv.bak"⟩, ⟨"sub", 0, 0, true, "sub"⟩]
  else if p = "sub" then .ok [⟨"x.csv", 1, 0, false, "sub/x.csv"⟩]
  else .error "no such directory"

/-- A regex engine that knows the pattern `csv` and rejects every other pattern. -/
def demoCompile (pattern : String) : Except String Regexp :=
  if pattern = "csv" then .ok (literal ['c', 's', 'v'])
  else .error "error parsing regexp"

/-- The world of the examples. -/
def demoWorld : World := staticWorld demoList demoCompile

/-- A local-to-local task with the pattern `csv`, no retention and no staleness filter. -/
def demoTask : Task :=
  ⟨"t", "* * * * *", "local", "/src", "csv", "local", "/dst", 0, 0, none, none⟩

/-- A traversal state whose history records `a.csv.bak`. -/
def demoSt : St := ⟨[], some ⟨some [("a.csv.bak", 5)]⟩⟩

/-- A run state whose ledger records `a.csv.bak` under the task `t`. -/
def demoRun : RunState := ⟨[], ⟨some [("t", some ⟨some [("a.csv.bak", 5)]⟩)], "history.json"⟩⟩

/-- The task of the examples with a retention of one day. -/
def retainTask : Task := { demoTask with RetentionDays := 1 }

/-- The history of a file transferred more than one day before the epoch. -/
def oldHistory : Option TaskHistory := some ⟨some [("old", -86400000000001)]⟩

/-- A run state whose ledger holds `oldHistory` under the task `t`. -/
def oldRun : RunState := ⟨[], ⟨some [("t", oldHistory)], "history.json"⟩⟩

/-- The task of the examples with a staleness filter of one day. -/
def newerTask : Task := { demoTask with SourceNewerDays := 1 }

/-- A file modified exactly at the cutoff of `newerTask` when the clock reads 0. -/
def boundaryEntry : FileEntry := ⟨"b.csv", 1, -86400000000000, false, "b.csv"⟩

/-- A source whose root holds the file `a.csv`, the directory `bad` and the file `z.csv`,
in that order, and where `bad` cannot be listed. -/
def failList (p : String) : Except String (List FileEntry) :=
  if p = "" then
    .ok [⟨"a.csv", 1, 0, false, "a.csv"⟩, ⟨"bad", 0, 0, true, "bad"⟩,
      ⟨"z.csv", 1, 0, false, "z.csv"⟩]
  else .error "permission denied"

/-- The world of `failList`. -/
def failWorld : World := staticWorld failList demoCompile

/-- The task of the examples with a pattern that does not compile. -/
def badTask : Task := { demoTask with SourceRegex := "(" }

/-- The task `badTask` with a retention of one day. -/
def badRetainTask : Task := { retainTask with SourceRegex := "(" }

/-- A run state with an empty ledger. -/
def emptyRun : RunState := ⟨[], ⟨some [], "history.json"⟩⟩

/-- The state in which a first run of the task of the examples, from an empty ledger, ends. -/
def afterFirstRun : RunState := (RunTask demoWorld 5 demoTask emptyRun).state

/-- A connection on which every `MakeDir` fails. -/
def refusingConn : ServerConn := ⟨fun _ _ => some "550 Create directory operation failed."⟩

/-- The ledger after `GetTaskHistory("t")` on a new manager and an `Add` through its result
of a path whose first byte, FF, belongs to no UTF-8 encoding. -/
def binaryLedger : HistoryManager :=
  match (NewHistoryManager "history.json").GetTaskHistory "t" with
  | some (th, hm) => hm.store "t" (TaskHistory.Add demoWorld "\xff.csv" ⟨[], th⟩).state.history
  | none => NewHistoryManager "history.json"

/-- A ledger file that holds `null` under the task `t`. -/
def nullTaskFile : FileRead := .data (some (.object [("t", .null)]))

/-- A ledger file that holds an object without `records` under the task `t`. -/
def bareTaskFile : FileRead := .data (some (.object [("t", .object [])]))

/-- A ledger file whose content is `null`. -/
def nullFile : FileRead := .data (some .null)

/-- A source whose root holds the one file `a.csv`, last modified ten nanoseconds more than
a day before the epoch. -/
def dstList (p : String) : Except String (List FileEntry) :=
  if p = "" then .ok [⟨"a.csv", 1, -86400000000010, false, "a.csv"⟩]
  else .error "no such directory"

/-- A world whose local clock is set back by one hour at the instant 6 (the end of daylight
saving time): from then on, the same wall-clock time one day earlier lies 25 hours back. The
clock itself, which counts the events, never goes backwards. -/
def dstWorld : World :=
  { staticWorld dstList demoCompile with
    AddDate := fun t _ _ d =>
      if t < 6 then t + d * 86400000000000 else t + d * 86400000000000 - 3600000000000 }

/-- The state in which a first run of `newerTask` in `dstWorld`, from an empty ledger, ends. -/
def dstAfter : RunState := (RunTask dstWorld 5 newerTask emptyRun).state

/-! ## Basic facts -/

@[simp] theorem St.log_trace (s : St) (e : Event) : (s.log e).trace = s.trace ++ [e] := rfl

@[simp] theorem St.log_history (s : St) (e : Event) : (s.log e).history = s.history := rfl

@[simp] theorem Res.state_ret {α : Type} (a : α) (s : St) : (Res.ret a s).state = s := rfl

@[simp] theorem Res.state_panic {α : Type} (s : St) : (Res.panic s : Res α).state = s := rfl

@[simp] theorem Res.state_diverge {α : Type} (s : St) : (Res.diverge s : Res α).state = s := rfl

theorem newEvents_append (tr evs : Trace) : newEvents tr (tr ++ evs) = evs := by
  simp [newEvents]

theorem mapGet_filter_ne {β : Type} (m : List (String × β)) (k k' : String) (h : k ≠ k') :
    mapGet (m.filter (fun e => !decide (e.1 = k))) k' = mapGet m k' := by
  induction m with
  | nil => rfl
  | cons hd tl ih =>
    obtain ⟨a, b⟩ := hd
    by_cases ha : a = k
    · subst ha
      simp [List.filter, mapGet, h, ih]
    · simp [List.filter, mapGet, ha, ih]

theorem mapGet_mapSet {β : Type} (m : List (String × β)) (k k' : String) (v : β) :
    mapGet (mapSet m k v) k' = if k = k' then some v else mapGet m k' := by
  by_cases h : k = k'
  · simp [mapSet, mapGet, h]
  · simp [mapSet, mapGet, h, mapGet_filter_ne m k k' h]

theorem mapGet_isSome_of_mem {β : Type} (m : List (String × β)) (k : String) (v : β)
    (h : (k, v) ∈ m) : (mapGet m k).isSome = true := by
  induction m with
  | nil => simp at h
  | cons hd tl ih =>
    obtain ⟨a, b⟩ := hd
    by_cases ha : a = k
    · simp [mapGet, ha]
    · have : (k, v) ∈ tl := by
        rcases List.mem_cons.1 h with h1 | h1
        · exact absurd (congrArg Prod.fst h1).symm ha
        · exact h1
      simp [mapGet, ha, ih this]

theorem mapGet_mem {β : Type} (m : List (String × β)) (k : String) (v : β)
    (h : mapGet m k = some v) : (k, v) ∈ m := by
  induction m with
  | nil => simp [mapGet] at h
  | cons hd tl ih =>
    obtain ⟨a, b⟩ := hd
    by_cases ha : a = k
    · simp [mapGet, ha] at h
      simp [ha, h]
    · simp [mapGet, ha] at h
      exact List.mem_cons_of_mem _ (ih h)

/-! ## Relations kept by every step of a traversal -/

theorem processEntries_rel (R : St → St → Prop) (hrefl : ∀ s, R s s)
    (htrans : ∀ a b c, R a b → R b c → R a c) (I : St → Prop)
    (hI : ∀ s s1, R s s1 → I s → I s1) (body : FileEntry → St → Res Unit)
    (entries : List FileEntry)
    (hbody : ∀ e ∈ entries, ∀ s, I s → R s (body e s).state) :
    ∀ s, I s → R s (processEntries body entries s).state := by
  induction entries with
  | nil => intro s _; exact hrefl s
  | cons e rest ih =>
    intro s hs
    have h1 := hbody e (List.mem_cons_self _ _) s hs
    have ih1 := ih (fun e1 he1 => hbody e1 (List.mem_cons_of_mem _ he1))
    unfold processEntries
    cases hb : body e s with
    | ret a s1 =>
      rw [hb] at h1
      exact htrans _ _ _ h1 (ih1 s1 (hI _ _ h1 hs))
    | panic s1 => rw [hb] at h1; exact h1
    | diverge s1 => rw [hb] at h1; exact h1

theorem mem_newEvents_append (tr0 tr evs : Trace) (ev : Event) (h : ev ∈ newEvents tr0 tr) :
    ev ∈ newEvents tr0 (tr ++ evs) := by
  unfold newEvents at *
  rw [List.drop_append_eq_append_drop]
  exact List.mem_append_left _ h

theorem mem_newEvents_log (tr0 tr : Trace) (ev : Event) (h : tr0.length ≤ tr.length) :
    ev ∈ newEvents tr0 (tr ++ [ev]) := by
  unfold newEvents
  rw [List.drop_append_of_le_length h]
  simp

/-- A relation between states that is reflexive and transitive, only extends the trace, and
is kept by every listing and by the handling of every file listed since the trace `tr0`, is
kept by a traversal that starts after `tr0`. -/
theorem processDirectory_rel (w : World) (task : Task) (tr0 : Trace) (R : St → St → Prop)
    (hrefl : ∀ s, R s s) (htrans : ∀ a b c, R a b → R b c → R a c)
    (hext : ∀ s s1, R s s1 → ∃ evs, s1.trace = s.trace ++ evs)
    (hlist : ∀ s d r, R s (s.log (.ListDir .src d r)))
    (hfile : ∀ regex, w.Compile task.SourceRegex = .ok regex → ∀ s d es e,
      Event.ListDir .src d (some es) ∈ newEvents tr0 s.trace → e ∈ es → e.IsDir = false →
      R s (processFile w task regex (path.Join [d, e.Name]) e s).state) :
    ∀ fuel relPath s, tr0.length ≤ s.trace.length →
      R s (processDirectory w task fuel relPath s).state := by
  intro fuel
  induction fuel with
  | zero => intro relPath s _; exact hrefl s
  | succ fuel ih =>
    intro relPath s hlen
    unfold processDirectory
    cases hl : w.src.List s.trace relPath with
    | error err => exact hlist s relPath none
    | ok entries =>
      have h1 := hlist s relPath (some entries)
      cases hc : w.Compile task.SourceRegex with
      | error err => exact h1
      | ok regex =>
        have h2 := processEntries_rel R hrefl htrans
          (fun t => tr0.length ≤ t.trace.length ∧
            Event.ListDir .src relPath (some entries) ∈ newEvents tr0 t.trace)
          (fun a b hab ha => by
            obtain ⟨evs, hevs⟩ := hext a b hab
            rw [hevs]
            exact ⟨by simp only [List.length_append]; omega,
              mem_newEvents_append _ _ _ _ ha.2⟩)
          (processEntry w task regex (processDirectory w task fuel) relPath) entries
          (by
            intro e he t ht
            unfold processEntry
            by_cases hd : e.IsDir = true
            · have := ih (path.Join [relPath, e.Name]) t ht.1
              simp only [hd, if_true]
              cases hr : processDirectory w task fuel (path.Join [relPath, e.Name]) t <;>
                simpa [hr] using this
            · simp only [hd]
              exact hfile regex hc t relPath entries e ht.2 he (by simpa using hd))
          (s.log (.ListDir .src relPath (some entries)))
          ⟨by simp only [St.log_trace, List.length_append]; omega,
            mem_newEvents_log _ _ _ hlen⟩
        simp only []
        cases hp : processEntries (processEntry w task regex (processDirectory w task fuel)
            relPath) entries (s.log (.ListDir .src relPath (some entries))) with
        | ret a s2 => rw [hp] at h2; exact htrans _ _ _ h1 h2
        | panic s2 => rw [hp] at h2; exact htrans _ _ _ h1 h2
        | diverge s2 => rw [hp] at h2; exact htrans _ _ _ h1 h2

/-! ## One transfer -/

/-- What `transferFile` does: the history is untouched; the trace gains the entry marker and
then only steps of this file; success means that every step succeeded, failure that one
failed. -/
theorem transferFile_spec (w : World) (p : String) (s : St) :
    (transferFile w p s).2.history = s.history ∧
    ∃ evs, (transferFile w p s).2.trace = s.trace ++ Event.TransferFile p :: evs ∧
      (∀ ev ∈ evs, ev.isTransferStep p) ∧
      ((transferFile w p s).1 = none →
        Event.OpenFile .src p true ∈ evs ∧ Event.CreateFile .dst p true ∈ evs ∧
        Event.Copy p true ∈ evs ∧ (∀ ev ∈ evs, ev.transferFailed = false) ∧
        (path.Dir p ≠ "." ∧ path.Dir p ≠ "/" → Event.MkdirAll .dst (path.Dir p) true ∈ evs)) ∧
      ((transferFile w p s).1 ≠ none → ∃ ev ∈ evs, ev.transferFailed = true) := by
  unfold transferFile
  simp only []
  split_ifs with hp
  · cases hm : w.dst.MkdirAll (s.log (Event.TransferFile p)).trace (path.Dir p) with
    | some err =>
      refine ⟨rfl, _, by simp only [St.log_trace, List.append_assoc, List.singleton_append,
          List.cons_append, List.nil_append]; rfl, ?_⟩
      simp [Event.isTransferStep, Event.transferFailed]
    | none =>
      simp only []
      cases ho : w.src.Open
          ((s.log (Event.TransferFile p)).log (Event.MkdirAll .dst (path.Dir p) true)).trace p with
      | some err =>
        refine ⟨rfl, _, by simp only [St.log_trace, List.append_assoc, List.singleton_append,
          List.cons_append, List.nil_append]; rfl, ?_⟩
        simp [Event.isTransferStep, Event.transferFailed]
      | none =>
        simp only []
        cases hc : w.dst.Create (((s.log (Event.TransferFile p)).log
            (Event.MkdirAll .dst (path.Dir p) true)).log (Event.OpenFile .src p true)).trace p with
        | some err =>
          refine ⟨rfl, _, by simp only [St.log_trace, List.append_assoc, List.singleton_append,
          List.cons_append, List.nil_append]; rfl, ?_⟩
          simp [Event.isTransferStep, Event.transferFailed]
        | none =>
          simp only []
          refine ⟨rfl, _, by simp only [St.log_trace, List.append_assoc, List.singleton_append,
          List.cons_append, List.nil_append]; rfl, ?_⟩
          cases hcp : w.Copy ((((s.log (Event.TransferFile p)).log
            (Event.MkdirAll .dst (path.Dir p) true)).log (Event.OpenFile .src p true)).log
            (Event.CreateFile .dst p true)).trace p <;>
            simp_all [Event.isTransferStep, Event.transferFailed]
  · simp only []
    cases ho : w.src.Open (s.log (Event.TransferFile p)).trace p with
    | some err =>
      refine ⟨rfl, _, by simp only [St.log_trace, List.append_assoc, List.singleton_append,
          List.cons_append, List.nil_append]; rfl, ?_⟩
      simp [Event.isTransferStep, Event.transferFailed]
    | none =>
      simp only []
      cases hc : w.dst.Create ((s.log (Event.TransferFile p)).log
          (Event.OpenFile .src p true)).trace p with
      | some err =>
        refine ⟨rfl, _, by simp only [St.log_trace, List.append_assoc, List.singleton_append,
          List.cons_append, List.nil_append]; rfl, ?_⟩
        simp [Event.isTransferStep, Event.transferFailed]
      | none =>
        simp only []
        refine ⟨rfl, _, by simp only [St.log_trace, List.append_assoc, List.singleton_append,
          List.cons_append, List.nil_append]; rfl, ?_⟩
        cases hcp : w.Copy (((s.log (Event.TransferFile p)).log
          (Event.OpenFile .src p true)).log (Event.CreateFile .dst p true)).trace p <;>
          simp_all [Event.isTransferStep, Event.transferFailed]

theorem isTransferStep_transferOf (p q : String) (ev : Event) (h : ev.isTransferStep p)
    (hq : ev.transferOf = some q) : q = p := by
  cases ev with
  | OpenFile side f ok => cases side <;> simp_all [Event.isTransferStep, Event.transferOf]
  | CreateFile side f ok => cases side <;> simp_all [Event.isTransferStep, Event.transferOf]
  | _ => simp_all [Event.isTransferStep, Event.transferOf]

theorem isTransferStep_isTraversal (p : String) (ev : Event) (h : ev.isTransferStep p) :
    ev.isTraversal := by
  cases ev with
  | MkdirAll side f ok => cases side <;> simp_all [Event.isTransferStep, Event.isTraversal]
  | OpenFile side f ok => cases side <;> simp_all [Event.isTransferStep, Event.isTraversal]
  | CreateFile side f ok => cases side <;> simp_all [Event.isTransferStep, Event.isTraversal]
  | _ => simp_all [Event.isTransferStep, Event.isTraversal]

/-! ## One file -/

@[simp] theorem afterClock_history (w : World) (task : Task) (s : St) :
    (afterClock w task s).history = s.history := by
  unfold afterClock; split_ifs <;> rfl

theorem afterClock_trace (w : World) (task : Task) (s : St) :
    ∃ evs, (afterClock w task s).trace = s.trace ++ evs ∧
      (evs = [] ∨ (task.SourceNewerDays > 0 ∧ evs = [Event.Now (w.Now s.trace)])) := by
  unfold afterClock
  split_ifs with h
  · exact ⟨[_], rfl, Or.inr ⟨h, rfl⟩⟩
  · exact ⟨[], by simp, Or.inl rfl⟩

/-- The loop body for a file, filter by filter. -/
theorem processFile_eq (w : World) (task : Task) (regex : Regexp) (p : String) (e : FileEntry)
    (s : St) :
    processFile w task regex p e s =
      if regex.MatchString e.Name = false then .ret () s
      else if isStale w task e s then .ret () (afterClock w task s)
      else
        match TaskHistory.Has s.history p with
        | none => .panic (afterClock w task s)
        | some true => .ret () (afterClock w task s)
        | some false =>
          match transferFile w p (afterClock w task s) with
          | (some _, s2) => .ret () s2
          | (none, s2) => TaskHistory.Add w p s2 := by
  unfold processFile isStale afterClock
  by_cases hm : regex.MatchString e.Name = false
  · simp [hm]
  · by_cases hn : task.SourceNewerDays > 0
    · by_cases hc : e.ModTime < w.AddDate (w.Now s.trace) 0 0 (-task.SourceNewerDays)
      · simp [hm, hn, hc]
      · simp [hm, hn, hc]
    · simp [hm, hn]

/-- What `Add` does: it reads the clock once and, unless it panics, records the path with the
time read, leaving every other record as it was. -/
theorem Add_spec (w : World) (p : String) (s : St) :
    (TaskHistory.Add w p s).state.trace = s.trace ∨
      (TaskHistory.Add w p s).state.trace = s.trace ++ [Event.Now (w.Now s.trace)] := by
  unfold TaskHistory.Add
  cases hh : s.history with
  | none => simp
  | some h => cases hr : h.Records <;> simp [hr]

theorem ledgerTime_Add (w : World) (p q : String) (s : St) :
    ledgerTime (TaskHistory.Add w p s).state.history q = ledgerTime s.history q ∨
      (q = p ∧ ∃ s1, TaskHistory.Add w p s = .ret () s1 ∧
        ledgerTime s1.history q = some (w.Now s.trace)) := by
  unfold TaskHistory.Add
  cases hh : s.history with
  | none => simp [hh]
  | some h =>
    obtain ⟨recs⟩ := h
    cases recs with
    | none => simp [hh]
    | some r =>
      by_cases hq : p = q
      · right
        simp [ledgerTime, recordsOf, mapGet_mapSet, hq]
      · left
        simp [ledgerTime, recordsOf, mapGet_mapSet, hq, hh]

theorem Has_eq_ledgerTime (h : Option TaskHistory) (p : String) :
    TaskHistory.Has h p = some true ↔ (ledgerTime h p).isSome = true := by
  unfold TaskHistory.Has ledgerTime recordsOf
  cases h with
  | none => simp [mapGet]
  | some th =>
    obtain ⟨recs⟩ := th
    cases recs <;> simp [mapGet]

theorem Add_ret (w : World) (p : String) (s s1 : St) (a : Unit)
    (h : TaskHistory.Add w p s = .ret a s1) :
    ledgerTime s1.history p = some (w.Now s.trace) ∧
      s1.trace = s.trace ++ [Event.Now (w.Now s.trace)] := by
  unfold TaskHistory.Add at h
  cases hh : s.history with
  | none => simp [hh] at h
  | some th =>
    obtain ⟨recs⟩ := th
    cases recs with
    | none => simp [hh] at h
    | some r =>
      simp [hh] at h
      subst h
      simp [ledgerTime, recordsOf, mapGet_mapSet]

theorem Add_other (w : World) (p q : String) (s : St) (hq : q ≠ p) :
    ledgerTime (TaskHistory.Add w p s).state.history q = ledgerTime s.history q := by
  rcases ledgerTime_Add w p q s with h | ⟨h, -⟩
  · exact h
  · exact absurd h hq

theorem Add_events (w : World) (p : String) (s : St) :
    ∃ evs, (TaskHistory.Add w p s).state.trace = s.trace ++ evs ∧
      ∀ ev ∈ evs, ∃ t, ev = Event.Now t := by
  rcases Add_spec w p s with h | h
  · exact ⟨[], by simp [h], by simp⟩
  · exact ⟨_, h, by simp⟩

/-- Everything the loop body does for a file. Either no transfer is attempted: only the clock
may be read and the history is untouched; this is the case exactly when the name does not
match, or the file is stale, or the history check does not answer "absent". Or the name
matches, the file is not stale and the path is not recorded: then the new events are clock
readings, the entry into `transferFile` and the steps of this one transfer, then clock
readings; if a step failed the history is untouched; if all succeeded only the record of this
path can change, and it is set when the body returns. -/
theorem processFile_spec (w : World) (task : Task) (regex : Regexp) (p : String)
    (e : FileEntry) (s : St) :
    ∃ evs, (processFile w task regex p e s).state.trace = s.trace ++ evs ∧
      (((∀ ev ∈ evs, ∃ t, ev = Event.Now t) ∧
          (processFile w task regex p e s).state.history = s.history ∧
          (regex.MatchString e.Name = false ∨ isStale w task e s ∨
            TaskHistory.Has s.history p ≠ some false)) ∨
        (regex.MatchString e.Name = true ∧ ¬ isStale w task e s ∧
          TaskHistory.Has s.history p = some false ∧
          ∃ pre tevs post, evs = pre ++ Event.TransferFile p :: tevs ++ post ∧
            (∀ ev ∈ pre, ∃ t, ev = Event.Now t) ∧ (∀ ev ∈ post, ∃ t, ev = Event.Now t) ∧
            (∀ ev ∈ tevs, ev.isTransferStep p) ∧
            (((∃ ev ∈ tevs, ev.transferFailed = true) ∧
                (processFile w task regex p e s).state.history = s.history) ∨
              (Event.OpenFile .src p true ∈ tevs ∧ Event.CreateFile .dst p true ∈ tevs ∧
                Event.Copy p true ∈ tevs ∧ (∀ ev ∈ tevs, ev.transferFailed = false) ∧
                (path.Dir p ≠ "." ∧ path.Dir p ≠ "/" →
                  Event.MkdirAll .dst (path.Dir p) true ∈ tevs) ∧
                (∀ q, q ≠ p → ledgerTime (processFile w task regex p e s).state.history q =
                  ledgerTime s.history q) ∧
                (∀ a s1, processFile w task regex p e s = .ret a s1 →
                  ∃ t, ledgerTime s1.history p = some t ∧ Event.Now t ∈ post))))) := by
  rw [processFile_eq]
  obtain ⟨pre, hpre, hpre2⟩ := afterClock_trace w task s
  have hprenow : ∀ ev ∈ pre, ∃ t, ev = Event.Now t := by
    rcases hpre2 with h | ⟨-, h⟩ <;> simp [h]
  split_ifs with hm hst
  · exact ⟨[], by simp, Or.inl ⟨by simp, rfl, Or.inl hm⟩⟩
  · exact ⟨pre, hpre, Or.inl ⟨hprenow, by simp, Or.inr (Or.inl hst)⟩⟩
  · cases hH : TaskHistory.Has s.history p with
    | none => exact ⟨pre, hpre, Or.inl ⟨hprenow, by simp, Or.inr (Or.inr (by simp))⟩⟩
    | some b =>
      cases b with
      | true => exact ⟨pre, hpre, Or.inl ⟨hprenow, by simp, Or.inr (Or.inr (by simp))⟩⟩
      | false =>
        simp only []
        obtain ⟨hhist, tevs, htr, hof, hok, hfail⟩ :=
          transferFile_spec w p (afterClock w task s)
        rcases htrans : transferFile w p (afterClock w task s) with ⟨r, s2⟩
        rw [htrans] at hhist htr hok hfail
        simp only at hhist htr hok hfail
        have hm1 : regex.MatchString e.Name = true := by simpa using hm
        cases r with
        | some err =>
          simp only []
          refine ⟨pre ++ Event.TransferFile p :: tevs ++ [], ?_, Or.inr ⟨hm1, hst, by simp, pre,
            tevs, [], rfl, hprenow, by simp, hof,
            Or.inl ⟨hfail (by simp), by simpa using hhist⟩⟩⟩
          simp only [Res.state_ret, htr, hpre, List.append_assoc, List.append_nil,
            List.cons_append]
        | none =>
          obtain ⟨post, hpost, hpostnow⟩ := Add_events w p s2
          obtain ⟨h1, h2, h3, h4, h5⟩ := hok rfl
          simp only []
          refine ⟨pre ++ Event.TransferFile p :: tevs ++ post, ?_, Or.inr ⟨hm1, hst, by simp, pre,
            tevs, post, rfl, hprenow, hpostnow, hof,
            Or.inr ⟨h1, h2, h3, h4, h5, ?_, ?_⟩⟩⟩
          · simp only [hpost, htr, hpre, List.append_assoc, List.cons_append]
          · intro q hq
            rw [Add_other w p q s2 hq, hhist]
            simp
          · intro a s1 hret
            obtain ⟨hl, ht⟩ := Add_ret w p s2 s1 a hret
            refine ⟨_, hl, ?_⟩
            have : (TaskHistory.Add w p s2).state.trace = s2.trace ++ post := hpost
            rw [hret] at this
            simp only [Res.state_ret] at this
            rw [ht] at this
            have := List.append_cancel_left this
            rw [← this]
            simp

/-! ## Dedup -/

theorem dedupRel_refl (P : String) (s : St) : dedupRel P s s :=
  ⟨[], by simp, fun t ht => ⟨ht, by simp⟩⟩

theorem dedupRel_trans (P : String) (a b c : St) (h1 : dedupRel P a b) (h2 : dedupRel P b c) :
    dedupRel P a c := by
  obtain ⟨e1, ht1, hk1⟩ := h1
  obtain ⟨e2, ht2, hk2⟩ := h2
  refine ⟨e1 ++ e2, by rw [ht2, ht1, List.append_assoc], ?_⟩
  intro t ht
  obtain ⟨hb, hc1⟩ := hk1 t ht
  obtain ⟨hc, hc2⟩ := hk2 t hb
  refine ⟨hc, ?_⟩
  intro ev hev
  rcases List.mem_append.1 hev with h | h
  · exact hc1 ev h
  · exact hc2 ev h

theorem dedupRel_ext (P : String) (s s1 : St) (h : dedupRel P s s1) :
    ∃ evs, s1.trace = s.trace ++ evs := by
  obtain ⟨evs, ht, _⟩ := h
  exact ⟨evs, ht⟩

theorem dedupRel_log (P : String) (s : St) (ev : Event) (h : ev.transferOf = none) :
    dedupRel P s (s.log ev) :=
  ⟨[ev], rfl, fun t ht => ⟨ht, by simp [h]⟩⟩

theorem dedupRel_afterClock (P : String) (w : World) (task : Task) (s : St) :
    dedupRel P s (afterClock w task s) := by
  unfold afterClock
  split_ifs
  · exact dedupRel_log P s _ rfl
  · exact dedupRel_refl P s

theorem dedupRel_processFile (P : String) (w : World) (task : Task) (regex : Regexp)
    (p : String) (e : FileEntry) (s : St) :
    dedupRel P s (processFile w task regex p e s).state := by
  rw [processFile_eq]
  have hclock := dedupRel_afterClock P w task s
  split_ifs with hm hst
  · exact dedupRel_refl P s
  · exact hclock
  · cases hH : TaskHistory.Has s.history p with
    | none => exact hclock
    | some b =>
      cases b with
      | true => exact hclock
      | false =>
        simp only []
        refine dedupRel_trans P _ _ _ hclock ?_
        have hne : ∀ t, ledgerTime (afterClock w task s).history P = some t → p ≠ P := by
          intro t ht hpP
          subst hpP
          have := (Has_eq_ledgerTime s.history p).2 (by simp at ht; simp [ht])
          rw [hH] at this
          simp at this
        obtain ⟨hhist, evs, htr, hof, -, -⟩ := transferFile_spec w p (afterClock w task s)
        have htf : dedupRel P (afterClock w task s) (transferFile w p (afterClock w task s)).2 := by
          refine ⟨_, htr, fun t ht => ⟨by rw [hhist]; exact ht, ?_⟩⟩
          intro ev hev hP
          rcases List.mem_cons.1 hev with h | h
          · subst h
            simp [Event.transferOf] at hP
            exact hne t ht hP
          · exact hne t ht (isTransferStep_transferOf p P ev (hof ev h) hP).symm
        rcases htrans : transferFile w p (afterClock w task s) with ⟨r, s2⟩
        rw [htrans] at htf
        cases r with
        | some err => exact htf
        | none =>
          simp only []
          refine dedupRel_trans P _ _ _ htf ?_
          have hs2 : s2.history = s.history := by
            have := hhist; rw [htrans] at this; simpa using this
          rcases Add_spec w p s2 with h | h
          · refine ⟨[], by simp [h], fun t ht => ⟨?_, by simp⟩⟩
            rcases ledgerTime_Add w p P s2 with h1 | ⟨h1, -⟩
            · rw [h1]; exact ht
            · exact absurd h1.symm (hne t (by simpa [hs2] using ht))
          · refine ⟨_, h, fun t ht => ⟨?_, by simp [Event.transferOf]⟩⟩
            rcases ledgerTime_Add w p P s2 with h1 | ⟨h1, -⟩
            · rw [h1]; exact ht
            · exact absurd h1.symm (hne t (by simpa [hs2] using ht))

/-- A traversal keeps every record it finds and transfers none of the recorded paths. -/
theorem dedupRel_processDirectory (P : String) (w : World) (task : Task) (fuel : Nat)
    (relPath : String) (s : St) : dedupRel P s (processDirectory w task fuel relPath s).state :=
  processDirectory_rel w task [] (dedupRel P) (dedupRel_refl P) (dedupRel_trans P)
    (dedupRel_ext P) (fun s _ _ => dedupRel_log P s _ rfl)
    (fun regex _ s _ _ e _ _ _ => dedupRel_processFile P w task regex _ e s) fuel relPath s
    (Nat.zero_le _)

/-! ## Extensions of the trace -/

theorem onlyNew_refl (Q : Event → Prop) (tr : Trace) : onlyNew Q tr tr :=
  ⟨[], by simp, by simp⟩

theorem onlyNew_trans (Q : Event → Prop) (a b c : Trace) (h1 : onlyNew Q a b)
    (h2 : onlyNew Q b c) : onlyNew Q a c := by
  obtain ⟨e1, ht1, hq1⟩ := h1
  obtain ⟨e2, ht2, hq2⟩ := h2
  refine ⟨e1 ++ e2, by rw [ht2, ht1, List.append_assoc], ?_⟩
  intro ev hev
  rcases List.mem_append.1 hev with h | h
  · exact hq1 ev h
  · exact hq2 ev h

theorem onlyNew_append (Q : Event → Prop) (tr evs : Trace) (h : ∀ ev ∈ evs, Q ev) :
    onlyNew Q tr (tr ++ evs) := ⟨evs, rfl, h⟩

theorem onlyNew_newEvents (Q : Event → Prop) (tr0 tr1 : Trace) (h : onlyNew Q tr0 tr1) :
    ∀ ev ∈ newEvents tr0 tr1, Q ev := by
  obtain ⟨evs, ht, hq⟩ := h
  rw [ht, newEvents_append]
  exact hq

theorem onlyNew_mono (Q Q1 : Event → Prop) (tr0 tr1 : Trace) (hQ : ∀ ev, Q ev → Q1 ev)
    (h : onlyNew Q tr0 tr1) : onlyNew Q1 tr0 tr1 := by
  obtain ⟨evs, ht, hq⟩ := h
  exact ⟨evs, ht, fun ev hev => hQ ev (hq ev hev)⟩

/-! ## The pieces of a run -/

/-- `createFileSystem` adds at most the `Init` call of its side, and succeeds only when that
call was made and succeeded. -/
theorem createFileSystem_spec (w : World) (side : Side) (fsType rootPath : String)
    (auth : Option Auth) (tr : Trace) :
    ((createFileSystem w side fsType rootPath auth tr).1 = none →
      (w.fs side).Init tr = none ∧
      (createFileSystem w side fsType rootPath auth tr).2 = tr ++ [Event.Init side true]) ∧
    ((createFileSystem w side fsType rootPath auth tr).1 ≠ none →
      (createFileSystem w side fsType rootPath auth tr).2 = tr ∨
      (createFileSystem w side fsType rootPath auth tr).2 = tr ++ [Event.Init side false]) := by
  unfold createFileSystem
  simp only []
  cases hi : (w.fs side).Init tr <;> cases auth <;> split_ifs <;> simp [hi]

/-- The loop of `cleanup` issues only `Stat` and `Remove` on the target and leaves the history
alone. -/
theorem cleanupLoop_spec (w : World) (cutoff : Time) (records : List (String × Time)) :
    ∀ s, (cleanupLoop w cutoff records s).history = s.history ∧
      onlyNew (fun ev => ∃ p ok, ev = Event.Stat .dst p ok ∨ ev = Event.Remove .dst p ok)
        s.trace (cleanupLoop w cutoff records s).trace := by
  induction records with
  | nil => intro s; exact ⟨rfl, onlyNew_refl _ _⟩
  | cons hd tl ih =>
    intro s
    obtain ⟨p, t⟩ := hd
    unfold cleanupLoop
    split_ifs with hlt
    · cases hs : w.dst.Stat s.trace p with
      | error err =>
        obtain ⟨h1, h2⟩ := ih (s.log (.Stat .dst p false))
        refine ⟨by simpa using h1, onlyNew_trans _ _ _ _ (onlyNew_append _ _ [_] ?_) h2⟩
        intro ev hev
        exact ⟨p, false, Or.inl (by simpa using hev)⟩
      | ok fe =>
        simp only []
        obtain ⟨h1, h2⟩ := ih ((s.log (.Stat .dst p true)).log
          (.Remove .dst p (w.dst.Remove (s.log (.Stat .dst p true)).trace p).isNone))
        refine ⟨by simpa using h1, onlyNew_trans _ _ _ _ (onlyNew_append _ _ [_, _] ?_)
          (by simpa using h2)⟩
        intro ev hev
        simp only [List.mem_cons, List.mem_singleton, List.not_mem_nil, or_false] at hev
        rcases hev with h | h
        · exact ⟨p, true, Or.inl h⟩
        · exact ⟨p, _, Or.inr h⟩
    · exact ih s

/-- The run `cleanup` reads the clock, then issues only `Stat` and `Remove` on the target;
it never changes the history. -/
theorem cleanup_spec (w : World) (task : Task) (s : St) :
    (cleanup w task s).state.history = s.history ∧
      onlyNew (fun ev => (∃ t, ev = Event.Now t) ∨
          ∃ p ok, ev = Event.Stat .dst p ok ∨ ev = Event.Remove .dst p ok)
        s.trace (cleanup w task s).state.trace := by
  have hnow : onlyNew (fun ev => (∃ t, ev = Event.Now t) ∨
      ∃ p ok, ev = Event.Stat .dst p ok ∨ ev = Event.Remove .dst p ok)
      s.trace (s.log (.Now (w.Now s.trace))).trace :=
    onlyNew_append _ _ [_] (fun ev hev => Or.inl ⟨_, by simpa using hev⟩)
  unfold cleanup
  simp only []
  cases hh : (s.log (Event.Now (w.Now s.trace))).history with
  | none => exact ⟨by simp, hnow⟩
  | some h =>
    simp only []
    obtain ⟨h1, h2⟩ := cleanupLoop_spec w (w.AddDate (w.Now s.trace) 0 0 (-task.RetentionDays))
      (w.rangeOrder (s.log (Event.Now (w.Now s.trace))).trace
        (match h.Records with
          | none => []
          | some r => r)) (s.log (.Now (w.Now s.trace)))
    exact ⟨by simpa using h1, onlyNew_trans _ _ _ _ hnow (onlyNew_mono _ _ _ _ (fun ev h => Or.inr h) h2)⟩

theorem GetTaskHistory_of_timeOf (hm : HistoryManager) (taskName p : String) (t : Time)
    (h : hm.timeOf taskName p = some t) :
    ∃ history, hm.GetTaskHistory taskName = some (history, hm) ∧
      ledgerTime history p = some t := by
  unfold HistoryManager.timeOf at h
  unfold HistoryManager.GetTaskHistory
  cases ht : hm.Tasks with
  | none => simp [ht] at h
  | some tasks =>
    cases hg : mapGet tasks taskName with
    | none => simp [ht, hg] at h
    | some th => exact ⟨th, by simp [hg], by simpa [ht, hg] using h⟩

theorem timeOf_store (hm : HistoryManager) (taskName p : String) (th : Option TaskHistory)
    (h : hm.Tasks ≠ none) : (hm.store taskName th).timeOf taskName p = ledgerTime th p := by
  unfold HistoryManager.store HistoryManager.timeOf
  cases ht : hm.Tasks with
  | none => exact absurd ht h
  | some tasks => simp [mapGet_mapSet]

theorem GetTaskHistory_tasks (hm hm1 : HistoryManager) (taskName : String)
    (history : Option TaskHistory) (h : hm.GetTaskHistory taskName = some (history, hm1)) :
    hm1.Tasks ≠ none ∧ ∀ p, hm.timeOf taskName p = ledgerTime history p := by
  unfold HistoryManager.GetTaskHistory at h
  unfold HistoryManager.timeOf
  cases ht : hm.Tasks with
  | none => simp [ht] at h
  | some tasks =>
    cases hg : mapGet tasks taskName with
    | none =>
      simp [ht, hg] at h
      obtain ⟨h1, h2⟩ := h
      subst h1 h2
      simp [ledgerTime, recordsOf, mapGet, hg]
    | some th =>
      simp [ht, hg] at h
      obtain ⟨h1, h2⟩ := h
      subst h1 h2
      simp [ht, hg]

/-- The shape of every run. Either nothing was traversed: the ledger is unchanged and only
`Init` and `Close` calls were made. Or both filesystems initialised and the history was
obtained: the traversal ran from state `s0` to `s1`, then `cleanup` ran to `s2` if the
traversal returned and `retention_days > 0` (otherwise `s2 = s1`), and the run ended with
`Save` and `Close` calls only, the ledger holding the history of `s2`. -/
theorem RunTask_shape (w : World) (fuel : Nat) (task : Task) (rs : RunState) :
    (((createFileSystem w .src task.SourceType task.SourcePath task.SourceAuth
          rs.trace).1 ≠ none ∨
        (createFileSystem w .dst task.TargetType task.TargetPath task.TargetAuth
          (rs.trace ++ [Event.Init .src true])).1 ≠ none ∨
        rs.hm.GetTaskHistory task.Name = none) ∧
      (RunTask w fuel task rs).state.hm = rs.hm ∧
      onlyNew Event.isFrame rs.trace (RunTask w fuel task rs).state.trace) ∨
    ∃ history hm1 s1 s2,
      rs.hm.GetTaskHistory task.Name = some (history, hm1) ∧
      (createFileSystem w .src task.SourceType task.SourcePath task.SourceAuth
        rs.trace).1 = none ∧
      (createFileSystem w .dst task.TargetType task.TargetPath task.TargetAuth
        (rs.trace ++ [Event.Init .src true])).1 = none ∧
      s1 = (processDirectory w task fuel "" (traversalStart rs history)).state ∧
      (((¬ (∃ a, processDirectory w task fuel "" (traversalStart rs history) = .ret a s1) ∨
          ¬ task.RetentionDays > 0) ∧ s2 = s1) ∨
        ((∃ a, processDirectory w task fuel "" (traversalStart rs history) = .ret a s1) ∧
        task.RetentionDays > 0 ∧ s2 = (cleanup w task s1).state)) ∧
      (RunTask w fuel task rs).state.hm = hm1.store task.Name s2.history ∧
      onlyNew Event.isFrame s2.trace (RunTask w fuel task rs).state.trace := by
  unfold traversalStart
  have hsrc := createFileSystem_spec w .src task.SourceType task.SourcePath task.SourceAuth
    rs.trace
  rcases hc1 : createFileSystem w .src task.SourceType task.SourcePath task.SourceAuth
    rs.trace with ⟨r1, tr1⟩
  rw [hc1] at hsrc
  cases r1 with
  | some err =>
    left
    have hrun : RunTask w fuel task rs =
        .ret (some ("failed to init source fs: " ++ err)) ⟨tr1, rs.hm⟩ := by
      simp only [RunTask, hc1]
    rw [hrun]
    refine ⟨Or.inl (by simp), rfl, ?_⟩
    rcases hsrc.2 (by simp) with h | h
    · simp only [RunRes.state]; simp only at h; rw [h]; exact onlyNew_refl _ _
    · simp only [RunRes.state]; simp only at h; rw [h]
      exact onlyNew_append _ _ _ (by simp [Event.isFrame])
  | none =>
    obtain ⟨hi1, ht1⟩ := hsrc.1 rfl
    simp only at ht1
    subst ht1
    have hdst := createFileSystem_spec w .dst task.TargetType task.TargetPath task.TargetAuth
      (rs.trace ++ [Event.Init .src true])
    rcases hc2 : createFileSystem w .dst task.TargetType task.TargetPath task.TargetAuth
      (rs.trace ++ [Event.Init .src true]) with ⟨r2, tr2⟩
    rw [hc2] at hdst
    cases r2 with
    | some err =>
      left
      have hrun : RunTask w fuel task rs =
          .ret (some ("failed to init target fs: " ++ err))
            ⟨tr2 ++ [Event.Close .src], rs.hm⟩ := by
        simp only [RunTask, hc1, hc2]
      rw [hrun]
      refine ⟨Or.inr (Or.inl (by simp)), rfl, ?_⟩
      rcases hdst.2 (by simp) with h | h
      · simp only [RunRes.state]; simp only at h; rw [h, List.append_assoc]
        exact onlyNew_append _ _ _ (by simp [Event.isFrame])
      · simp only [RunRes.state]; simp only at h; rw [h]
        simp only [List.append_assoc]
        exact onlyNew_append _ _ _ (by simp [Event.isFrame])
    | none =>
      obtain ⟨hi2, ht2⟩ := hdst.1 rfl
      simp only at ht2
      subst ht2
      simp only [List.append_assoc, List.singleton_append] at hc2
      cases hg : rs.hm.GetTaskHistory task.Name with
      | none =>
        left
        have hrun : RunTask w fuel task rs =
            .panic ⟨(rs.trace ++ [Event.Init .src true, Event.Init .dst true]) ++
              [Event.Close .dst, Event.Close .src], rs.hm⟩ := by
          simp only [RunTask, hc1, hc2, hg]
        rw [hrun]
        refine ⟨Or.inr (Or.inr rfl), rfl, ?_⟩
        simp only [RunRes.state, List.append_assoc]
        exact onlyNew_append _ _ _ (by simp [Event.isFrame])
      | some pr =>
        obtain ⟨history, hm1⟩ := pr
        right
        cases hp : processDirectory w task fuel ""
            ⟨rs.trace ++ [Event.Init .src true, Event.Init .dst true], history⟩ with
        | diverge s1 =>
          have hrun : RunTask w fuel task rs =
              .diverge ⟨s1.trace, hm1.store task.Name s1.history⟩ := by
            simp only [RunTask, hc1, hc2, hg, hp]
          rw [hrun]
          exact ⟨history, hm1, s1, s1, rfl, rfl, rfl, by rw [hp]; rfl,
            Or.inl ⟨Or.inl (by simp [hp]), rfl⟩, rfl, onlyNew_refl _ _⟩
        | panic s1 =>
          have hrun : RunTask w fuel task rs =
              .panic ⟨s1.trace ++ [Event.Close .dst, Event.Close .src],
                hm1.store task.Name s1.history⟩ := by
            simp only [RunTask, hc1, hc2, hg, hp]
          rw [hrun]
          exact ⟨history, hm1, s1, s1, rfl, rfl, rfl, by rw [hp]; rfl,
            Or.inl ⟨Or.inl (by simp [hp]), rfl⟩, rfl,
            onlyNew_append _ _ _ (by simp [Event.isFrame])⟩
        | ret a s1 =>
          by_cases hr : task.RetentionDays > 0
          · cases hcl : cleanup w task s1 with
            | diverge s2 =>
              have hrun : RunTask w fuel task rs =
                  .diverge ⟨s2.trace, hm1.store task.Name s2.history⟩ := by
                simp only [RunTask, hc1, hc2, hg, hp, hr, if_true, hcl]
              rw [hrun]
              exact ⟨history, hm1, s1, s2, rfl, rfl, rfl, by rw [hp]; rfl,
                Or.inr ⟨⟨a, hp⟩, hr, by simp [hcl]⟩, rfl, onlyNew_refl _ _⟩
            | panic s2 =>
              have hrun : RunTask w fuel task rs =
                  .panic ⟨s2.trace ++ [Event.Close .dst, Event.Close .src],
                    hm1.store task.Name s2.history⟩ := by
                simp only [RunTask, hc1, hc2, hg, hp, hr, if_true, hcl]
              rw [hrun]
              exact ⟨history, hm1, s1, s2, rfl, rfl, rfl, by rw [hp]; rfl,
                Or.inr ⟨⟨a, hp⟩, hr, by simp [hcl]⟩, rfl,
                onlyNew_append _ _ _ (by simp [Event.isFrame])⟩
            | ret u s2 =>
              have hrun : RunTask w fuel task rs =
                  .ret none ⟨(s2.trace ++ [Event.Save
                    ((hm1.store task.Name s2.history).saveError w s2.trace).isNone]) ++
                    [Event.Close .dst, Event.Close .src],
                    hm1.store task.Name s2.history⟩ := by
                simp only [RunTask, hc1, hc2, hg, hp, hr, if_true, hcl, HistoryManager.Save]
              rw [hrun]
              refine ⟨history, hm1, s1, s2, rfl, rfl, rfl, by rw [hp]; rfl,
                Or.inr ⟨⟨a, hp⟩, hr, by simp [hcl]⟩, rfl, ?_⟩
              simp only [RunRes.state, List.append_assoc]
              exact onlyNew_append _ _ _ (by simp [Event.isFrame])
          · have hrun : RunTask w fuel task rs =
                .ret none ⟨(s1.trace ++ [Event.Save
                  ((hm1.store task.Name s1.history).saveError w s1.trace).isNone]) ++
                  [Event.Close .dst, Event.Close .src],
                  hm1.store task.Name s1.history⟩ := by
              simp only [RunTask, hc1, hc2, hg, hp, hr, if_false, HistoryManager.Save]
            rw [hrun]
            refine ⟨history, hm1, s1, s1, rfl, rfl, rfl, by rw [hp]; rfl,
              Or.inl ⟨Or.inr hr, rfl⟩, rfl, ?_⟩
            simp only [RunRes.state, List.append_assoc]
            exact onlyNew_append _ _ _ (by simp [Event.isFrame])

/-- A property of events that holds of the calls that frame a run, of the calls of `cleanup`
and of every new event of the traversal holds of every new event of the run. -/
theorem RunTask_onlyNew (Q : Event → Prop) (w : World) (fuel : Nat) (task : Task)
    (rs : RunState) (hframe : ∀ ev, ev.isFrame → Q ev) (hnow : ∀ t, Q (.Now t))
    (hstat : ∀ p ok, Q (.Stat .dst p ok)) (hrem : ∀ p ok, Q (.Remove .dst p ok))
    (hpd : ∀ history hm1, rs.hm.GetTaskHistory task.Name = some (history, hm1) →
      onlyNew Q (traversalStart rs history).trace
        (processDirectory w task fuel "" (traversalStart rs history)).state.trace) :
    onlyNew Q rs.trace (RunTask w fuel task rs).state.trace := by
  rcases RunTask_shape w fuel task rs with
    ⟨-, -, h⟩ | ⟨history, hm1, s1, s2, hg, -, -, hs1, hs2, -, htail⟩
  · exact onlyNew_mono _ _ _ _ hframe h
  · have h0 : onlyNew Q rs.trace (rs.trace ++ [Event.Init .src true, Event.Init .dst true]) :=
      onlyNew_append _ _ _ (fun ev hev => hframe ev (by
        simp only [List.mem_cons, List.mem_singleton, List.not_mem_nil, or_false] at hev
        rcases hev with h | h <;> simp [h, Event.isFrame]))
    have h1 : onlyNew Q (rs.trace ++ [Event.Init .src true, Event.Init .dst true]) s1.trace := by
      rw [hs1]
      exact hpd history hm1 hg
    have h2 : onlyNew Q s1.trace s2.trace := by
      rcases hs2 with ⟨-, h⟩ | ⟨-, -, h⟩
      · rw [h]; exact onlyNew_refl _ _
      · rw [h]
        refine onlyNew_mono _ _ _ _ ?_ (cleanup_spec w task s1).2
        rintro ev (⟨t, rfl⟩ | ⟨p, ok, rfl | rfl⟩)
        · exact hnow t
        · exact hstat p ok
        · exact hrem p ok
    exact onlyNew_trans _ _ _ _ h0 (onlyNew_trans _ _ _ _ h1 (onlyNew_trans _ _ _ _ h2
      (onlyNew_mono _ _ _ _ hframe htail)))

theorem transferOf_ne_iff (ev : Event) (P : String) :
    ev.transferOf ≠ some P ↔
      (ev ≠ Event.TransferFile P ∧ (∀ ok, ev ≠ Event.OpenFile .src P ok) ∧
        ∀ ok, ev ≠ Event.CreateFile .dst P ok) := by
  cases ev with
  | OpenFile side f ok => cases side <;> simp [Event.transferOf]
  | CreateFile side f ok => cases side <;> simp [Event.transferOf]
  | TransferFile f => simp [Event.transferOf]
  | _ => simp [Event.transferOf]

theorem dedup_onlyNew (w : World) (task : Task) (fuel : Nat) (P relPath : String) (s : St)
    (hP : (ledgerTime s.history P).isSome = true) :
    onlyNew (fun ev => ev.transferOf ≠ some P) s.trace
      (processDirectory w task fuel relPath s).state.trace := by
  obtain ⟨evs, htr, hk⟩ := dedupRel_processDirectory P w task fuel relPath s
  obtain ⟨t, ht⟩ := Option.isSome_iff_exists.1 hP
  exact ⟨evs, htr, (hk t ht).2⟩

/-! ## Growth of the ledger -/

theorem listedFile_append (tr0 tr evs : Trace) (P : String) (h : listedFile tr0 tr P) :
    listedFile tr0 (tr ++ evs) P := by
  obtain ⟨d, es, e, h1, h2⟩ := h
  exact ⟨d, es, e, mem_newEvents_append _ _ _ _ h1, h2⟩

theorem copiedIn_mono (evs evs1 : Trace) (P : String) (hsub : ∀ ev ∈ evs, ev ∈ evs1)
    (h : copiedIn evs P) : copiedIn evs1 P := by
  obtain ⟨h1, h2, h3, h4, h5⟩ := h
  exact ⟨hsub _ h1, hsub _ h2, hsub _ h3, hsub _ h4, fun hp => hsub _ (h5 hp)⟩

theorem grownRel_refl (tr0 : Trace) (s : St) : grownRel tr0 s s :=
  ⟨[], by simp, fun _ => Or.inl rfl⟩

theorem grownRel_trans (tr0 : Trace) (a b c : St) (h1 : grownRel tr0 a b)
    (h2 : grownRel tr0 b c) : grownRel tr0 a c := by
  obtain ⟨e1, ht1, hk1⟩ := h1
  obtain ⟨e2, ht2, hk2⟩ := h2
  refine ⟨e1 ++ e2, by rw [ht2, ht1, List.append_assoc], ?_⟩
  intro P
  rcases hk2 P with hc | ⟨hb, hl, hcp⟩
  · rcases hk1 P with hb | ⟨ha, hl, hcp⟩
    · exact Or.inl (hc.trans hb)
    · right
      refine ⟨ha, ?_, copiedIn_mono _ _ _ (fun ev h => List.mem_append_left _ h) hcp⟩
      rw [ht2]
      exact listedFile_append _ _ _ _ hl
  · right
    refine ⟨?_, hl, copiedIn_mono _ _ _ (fun ev h => List.mem_append_right _ h) hcp⟩
    rcases hk1 P with h | ⟨h, -, -⟩
    · rw [← h]; exact hb
    · exact h

theorem grownRel_ext (tr0 : Trace) (s s1 : St) (h : grownRel tr0 s s1) :
    ∃ evs, s1.trace = s.trace ++ evs := by
  obtain ⟨evs, ht, _⟩ := h
  exact ⟨evs, ht⟩

theorem Has_false_ledgerTime (h : Option TaskHistory) (p : String)
    (hH : TaskHistory.Has h p = some false) : ledgerTime h p = none := by
  unfold TaskHistory.Has at hH
  unfold ledgerTime recordsOf
  cases h with
  | none => simp at hH
  | some th =>
    obtain ⟨recs⟩ := th
    cases recs with
    | none => simp [mapGet]
    | some r =>
      simp only [Option.some.injEq] at hH
      cases hg : mapGet r p with
      | none => rfl
      | some t => simp [hg] at hH

theorem grownRel_processFile (tr0 : Trace) (w : World) (task : Task) (regex : Regexp)
    (d : String) (es : List FileEntry) (e : FileEntry) (s : St)
    (hl : Event.ListDir .src d (some es) ∈ newEvents tr0 s.trace) (he : e ∈ es)
    (hd : e.IsDir = false) :
    grownRel tr0 s (processFile w task regex (path.Join [d, e.Name]) e s).state := by
  obtain ⟨evs, htr, hcase⟩ := processFile_spec w task regex (path.Join [d, e.Name]) e s
  refine ⟨evs, htr, ?_⟩
  intro P
  rcases hcase with ⟨-, hh, -⟩ | ⟨-, -, hH, pre, tevs, post, hevs, -, -, -, hres⟩
  · exact Or.inl (by rw [hh])
  · rcases hres with ⟨-, hh⟩ | ⟨h1, h2, h3, -, h5, hother, -⟩
    · exact Or.inl (by rw [hh])
    · by_cases hP : P = path.Join [d, e.Name]
      · right
        subst hP
        refine ⟨Has_false_ledgerTime _ _ hH, ⟨d, es, e, ?_, he, hd, rfl⟩, ?_⟩
        · rw [htr]
          exact mem_newEvents_append _ _ _ _ hl
        · have hsub : ∀ ev ∈ tevs, ev ∈ evs := by
            intro ev hev
            rw [hevs]
            simp [hev]
          refine ⟨by rw [hevs]; simp, hsub _ h1, hsub _ h2, hsub _ h3, fun hp => hsub _ (h5 hp)⟩
      · exact Or.inl (hother P hP)

/-- A traversal only adds records, each for a listed file that it transferred with success. -/
theorem grownRel_processDirectory (w : World) (task : Task) (fuel : Nat) (relPath : String)
    (s : St) : grownRel s.trace s (processDirectory w task fuel relPath s).state :=
  processDirectory_rel w task s.trace (grownRel s.trace) (grownRel_refl _) (grownRel_trans _)
    (grownRel_ext _) (fun _ _ _ => ⟨[_], rfl, fun _ => Or.inl rfl⟩)
    (fun regex _ t d es e hl he hd => grownRel_processFile _ w task regex d es e t hl he hd)
    fuel relPath s (Nat.le_refl _)

/-! ## The regex filter -/

theorem matchedFile_append (w : World) (task : Task) (tr0 tr evs : Trace) (P : String)
    (h : matchedFile w task tr0 tr P) : matchedFile w task tr0 (tr ++ evs) P := by
  obtain ⟨d, es, e, regex, h1, h2⟩ := h
  exact ⟨d, es, e, regex, mem_newEvents_append _ _ _ _ h1, h2⟩

theorem matchedRel_refl (w : World) (task : Task) (tr0 : Trace) (s : St) :
    matchedRel w task tr0 s s :=
  ⟨[], by simp, by simp⟩

theorem matchedRel_trans (w : World) (task : Task) (tr0 : Trace) (a b c : St)
    (h1 : matchedRel w task tr0 a b) (h2 : matchedRel w task tr0 b c) :
    matchedRel w task tr0 a c := by
  obtain ⟨e1, ht1, hk1⟩ := h1
  obtain ⟨e2, ht2, hk2⟩ := h2
  refine ⟨e1 ++ e2, by rw [ht2, ht1, List.append_assoc], ?_⟩
  intro P hP
  rcases List.mem_append.1 hP with h | h
  · rw [ht2]
    exact matchedFile_append _ _ _ _ _ _ (hk1 P h)
  · exact hk2 P h

theorem matchedRel_ext (w : World) (task : Task) (tr0 : Trace) (s s1 : St)
    (h : matchedRel w task tr0 s s1) : ∃ evs, s1.trace = s.trace ++ evs := by
  obtain ⟨evs, ht, _⟩ := h
  exact ⟨evs, ht⟩

theorem transferFile_mem_tevs (tevs : Trace) (p P : String)
    (hof : ∀ ev ∈ tevs, ev.isTransferStep p)
    (h : Event.TransferFile P ∈ tevs) : P = p :=
  isTransferStep_transferOf p P _ (hof _ h) rfl

/-- The entries into `transferFile` among the new events of the loop body for a file. -/
theorem processFile_transferFile_mem (w : World) (task : Task) (regex : Regexp) (p : String)
    (e : FileEntry) (s : St) (P : String) :
    Event.TransferFile P ∈ newEvents s.trace (processFile w task regex p e s).state.trace ↔
      (P = p ∧ regex.MatchString e.Name = true ∧ ¬ isStale w task e s ∧
        TaskHistory.Has s.history p = some false) := by
  obtain ⟨evs, htr, hcase⟩ := processFile_spec w task regex p e s
  rw [htr, newEvents_append]
  rcases hcase with ⟨hnow, -, hwhy⟩ | ⟨hm, hst, hH, pre, tevs, post, hevs, hpre, hpost, hof, -⟩
  · constructor
    · intro h
      obtain ⟨t, ht⟩ := hnow _ h
      simp at ht
    · rintro ⟨-, hm, hst, hH⟩
      rcases hwhy with h | h | h
      · rw [hm] at h; simp at h
      · exact absurd h hst
      · exact absurd hH h
  · constructor
    · intro h
      rw [hevs] at h
      simp only [List.mem_append, List.mem_cons] at h
      rcases h with (h | h | h) | h
      · obtain ⟨t, ht⟩ := hpre _ h
        simp at ht
      · simp only [Event.TransferFile.injEq] at h
        exact ⟨h, hm, hst, hH⟩
      · exact ⟨transferFile_mem_tevs tevs p P hof h, hm, hst, hH⟩
      · obtain ⟨t, ht⟩ := hpost _ h
        simp at ht
    · rintro ⟨hP, -⟩
      rw [hevs, hP]
      simp

theorem matchedRel_processFile (w : World) (task : Task) (tr0 : Trace) (regex : Regexp)
    (hc : w.Compile task.SourceRegex = .ok regex)
    (d : String) (es : List FileEntry) (e : FileEntry) (s : St)
    (hl : Event.ListDir .src d (some es) ∈ newEvents tr0 s.trace) (he : e ∈ es)
    (hd : e.IsDir = false) :
    matchedRel w task tr0 s (processFile w task regex (path.Join [d, e.Name]) e s).state := by
  obtain ⟨evs, htr, -⟩ := processFile_spec w task regex (path.Join [d, e.Name]) e s
  refine ⟨evs, htr, ?_⟩
  intro P hP
  have hmem : Event.TransferFile P ∈ newEvents s.trace
      (processFile w task regex (path.Join [d, e.Name]) e s).state.trace := by
    rw [htr, newEvents_append]; exact hP
  obtain ⟨h1, h2, -, -⟩ := (processFile_transferFile_mem w task regex _ e s P).1 hmem
  refine ⟨d, es, e, regex, ?_, he, hd, h1, hc, h2⟩
  rw [htr]
  exact mem_newEvents_append _ _ _ _ hl

/-- A traversal enters `transferFile` only for listed files whose base name the pattern
matches somewhere. -/
theorem matchedRel_processDirectory (w : World) (task : Task) (fuel : Nat) (relPath : String)
    (s : St) : matchedRel w task s.trace s (processDirectory w task fuel relPath s).state :=
  processDirectory_rel w task s.trace (matchedRel w task s.trace) (matchedRel_refl _ _ _)
    (matchedRel_trans _ _ _) (matchedRel_ext _ _ _)
    (fun _ _ _ => ⟨[_], rfl, by simp⟩)
    (fun regex hc t d es e hl he hd => matchedRel_processFile w task _ regex hc d es e t hl he hd)
    fuel relPath s (Nat.le_refl _)

theorem MatchString_iff (re : Regexp) (name : String) :
    re.MatchString name = true ↔
      ∃ i j, i ≤ j ∧ j ≤ name.data.length ∧ re.matchAt name.data i j = true := by
  unfold Regexp.MatchString
  simp only [List.any_eq_true, List.mem_range, Bool.and_eq_true, decide_eq_true_eq]
  constructor
  · rintro ⟨i, -, j, hj, hij, hm⟩
    exact ⟨i, j, hij, by omega, hm⟩
  · rintro ⟨i, j, hij, hj, hm⟩
    exact ⟨i, by omega, j, by omega, hij, hm⟩

/-! ## Retention cleanup -/

/-- The events of the loop of `cleanup`: only `Stat` and `Remove` on the target; a `Remove` of
a path is issued exactly when the `Stat` of that path succeeded; a `Stat` is issued for a
path exactly when the snapshot holds an entry of that path older than the cutoff. -/
theorem cleanupLoop_events (w : World) (cutoff : Time) (records : List (String × Time)) :
    ∀ s, ∃ evs, (cleanupLoop w cutoff records s).trace = s.trace ++ evs ∧
      (∀ ev ∈ evs, ∃ p ok, ev = Event.Stat .dst p ok ∨ ev = Event.Remove .dst p ok) ∧
      (∀ P ok, Event.Remove .dst P ok ∈ evs → Event.Stat .dst P true ∈ evs) ∧
      (∀ P, Event.Stat .dst P true ∈ evs → ∃ ok, Event.Remove .dst P ok ∈ evs) ∧
      (∀ P ok, Event.Stat .dst P ok ∈ evs → ∃ t, (P, t) ∈ records ∧ t < cutoff) ∧
      (∀ P t, (P, t) ∈ records → t < cutoff → ∃ ok, Event.Stat .dst P ok ∈ evs) := by
  induction records with
  | nil => intro s; exact ⟨[], by simp [cleanupLoop], by simp⟩
  | cons hd tl ih =>
    intro s
    obtain ⟨p, t⟩ := hd
    unfold cleanupLoop
    split_ifs with hlt
    · cases hs : w.dst.Stat s.trace p with
      | error err =>
        obtain ⟨evs, htr, hk, ha, hb, hc, hd⟩ := ih (s.log (.Stat .dst p false))
        refine ⟨Event.Stat .dst p false :: evs, by simp [htr], ?_, ?_, ?_, ?_, ?_⟩
        · intro ev hev
          rcases List.mem_cons.1 hev with h | h
          · exact ⟨p, false, Or.inl h⟩
          · exact hk ev h
        · intro P ok h
          simp only [List.mem_cons, reduceCtorEq, false_or] at h
          exact List.mem_cons_of_mem _ (ha P ok h)
        · intro P h
          simp only [List.mem_cons, Event.Stat.injEq, Bool.true_eq_false, and_false,
            false_or] at h
          obtain ⟨ok, hok⟩ := hb P h
          exact ⟨ok, List.mem_cons_of_mem _ hok⟩
        · intro P ok h
          rcases List.mem_cons.1 h with h | h
          · simp only [Event.Stat.injEq, true_and] at h
            exact ⟨t, by simp [h.1], hlt⟩
          · obtain ⟨t1, h1, h2⟩ := hc P ok h
            exact ⟨t1, List.mem_cons_of_mem _ h1, h2⟩
        · intro P t1 h hlt1
          rcases List.mem_cons.1 h with h | h
          · simp only [Prod.mk.injEq] at h
            exact ⟨false, by simp [h.1]⟩
          · obtain ⟨ok, hok⟩ := hd P t1 h hlt1
            exact ⟨ok, List.mem_cons_of_mem _ hok⟩
      | ok fe =>
        simp only []
        obtain ⟨evs, htr, hk, ha, hb, hc, hd⟩ := ih ((s.log (.Stat .dst p true)).log
          (.Remove .dst p (w.dst.Remove (s.log (.Stat .dst p true)).trace p).isNone))
        refine ⟨Event.Stat .dst p true :: Event.Remove .dst p
          (w.dst.Remove (s.log (.Stat .dst p true)).trace p).isNone :: evs,
          by rw [htr]; simp, ?_, ?_, ?_, ?_, ?_⟩
        · intro ev hev
          simp only [List.mem_cons] at hev
          rcases hev with h | h | h
          · exact ⟨p, true, Or.inl h⟩
          · exact ⟨p, _, Or.inr h⟩
          · exact hk ev h
        · intro P ok h
          simp only [List.mem_cons, reduceCtorEq, false_or, Event.Remove.injEq, true_and] at h
          rcases h with h | h
          · simp [h.1]
          · exact List.mem_cons_of_mem _ (List.mem_cons_of_mem _ (ha P ok h))
        · intro P h
          simp only [List.mem_cons, Event.Stat.injEq, true_and, and_true, reduceCtorEq,
            false_or] at h
          rcases h with h | h
          · refine ⟨(w.dst.Remove (s.log (.Stat .dst p true)).trace p).isNone, ?_⟩
            rw [h]
            exact List.mem_cons_of_mem _ (List.mem_cons_self _ _)
          · obtain ⟨ok, hok⟩ := hb P h
            exact ⟨ok, List.mem_cons_of_mem _ (List.mem_cons_of_mem _ hok)⟩
        · intro P ok h
          simp only [List.mem_cons, Event.Stat.injEq, true_and, reduceCtorEq, false_or] at h
          rcases h with h | h
          · exact ⟨t, by simp [h.1], hlt⟩
          · obtain ⟨t1, h1, h2⟩ := hc P ok h
            exact ⟨t1, List.mem_cons_of_mem _ h1, h2⟩
        · intro P t1 h hlt1
          rcases List.mem_cons.1 h with h | h
          · simp only [Prod.mk.injEq] at h
            exact ⟨true, by simp [h.1]⟩
          · obtain ⟨ok, hok⟩ := hd P t1 h hlt1
            exact ⟨ok, List.mem_cons_of_mem _ (List.mem_cons_of_mem _ hok)⟩
    · obtain ⟨evs, htr, hk, ha, hb, hc, hd⟩ := ih s
      refine ⟨evs, htr, hk, ha, hb, ?_, ?_⟩
      · intro P ok h
        obtain ⟨t1, h1, h2⟩ := hc P ok h
        exact ⟨t1, List.mem_cons_of_mem _ h1, h2⟩
      · intro P t1 h hlt1
        rcases List.mem_cons.1 h with h | h
        · simp only [Prod.mk.injEq] at h
          exact absurd (h.2 ▸ hlt1) hlt
        · exact hd P t1 h hlt1

/-- The events of `cleanup` when the history is not a nil pointer: one reading `now` of the
clock, then the events of the loop over the records of the history with the cutoff
`now` minus `retention_days` days. -/
theorem cleanup_events (w : World) (task : Task) (s : St) (hh : s.history ≠ none) :
    ∃ u s2 evs, cleanup w task s = .ret u s2 ∧
      s2.trace = s.trace ++ Event.Now (w.Now s.trace) :: evs ∧
      (∀ ev ∈ evs, ∃ p ok, ev = Event.Stat .dst p ok ∨ ev = Event.Remove .dst p ok) ∧
      (∀ P ok, Event.Remove .dst P ok ∈ evs → Event.Stat .dst P true ∈ evs) ∧
      (∀ P, Event.Stat .dst P true ∈ evs → ∃ ok, Event.Remove .dst P ok ∈ evs) ∧
      (∀ P ok, Event.Stat .dst P ok ∈ evs → ∃ t, (P, t) ∈ recordsOf s.history ∧
        t < w.AddDate (w.Now s.trace) 0 0 (-task.RetentionDays)) ∧
      (∀ P t, (P, t) ∈ recordsOf s.history →
        t < w.AddDate (w.Now s.trace) 0 0 (-task.RetentionDays) →
        ∃ ok, Event.Stat .dst P ok ∈ evs) := by
  unfold cleanup
  simp only []
  cases hs : s.history with
  | none => exact absurd hs hh
  | some h =>
    have hrec : recordsOf (some h) = (match h.Records with
        | none => []
        | some r => r) := by
      obtain ⟨recs⟩ := h
      cases recs <;> rfl
    obtain ⟨evs, htr, hk, ha, hb, hc, hd⟩ := cleanupLoop_events w
      (w.AddDate (w.Now s.trace) 0 0 (-task.RetentionDays))
      (w.rangeOrder (s.log (Event.Now (w.Now s.trace))).trace (recordsOf (some h)))
      (s.log (.Now (w.Now s.trace)))
    have hperm := w.rangeOrder_perm (s.log (Event.Now (w.Now s.trace))).trace
      (recordsOf (some h))
    simp only [St.log_history, hs]
    rw [← hrec]
    refine ⟨(), _, evs, rfl, by rw [htr]; simp, hk, ha, hb, ?_, ?_⟩
    · intro P ok h1
      obtain ⟨t, h2, h3⟩ := hc P ok h1
      exact ⟨t, hperm.mem_iff.1 h2, h3⟩
    · intro P t h1 h2
      exact hd P t (hperm.mem_iff.2 h1) h2

/-- A traversal adds only traversal events: no `Stat`, no `Remove`, no call that frames a
run. -/
theorem processDirectory_isTraversal (w : World) (task : Task) (fuel : Nat) (relPath : String)
    (s : St) : onlyNew Event.isTraversal s.trace
      (processDirectory w task fuel relPath s).state.trace := by
  refine processDirectory_rel w task [] (fun a b => onlyNew Event.isTraversal a.trace b.trace)
    (fun a => onlyNew_refl _ _) (fun a b c => onlyNew_trans _ _ _ _)
    (fun a b h => by obtain ⟨evs, h1, -⟩ := h; exact ⟨evs, h1⟩)
    (fun a d r => onlyNew_append _ _ _ (by simp [Event.isTraversal])) ?_ fuel relPath s
    (Nat.zero_le _)
  intro regex _ t d es e _ _ _
  obtain ⟨evs, htr, hcase⟩ := processFile_spec w task regex (path.Join [d, e.Name]) e t
  refine ⟨evs, htr, ?_⟩
  rcases hcase with ⟨hnow, -, -⟩ | ⟨-, -, -, pre, tevs, post, hevs, hpre, hpost, hstep, -⟩
  · intro ev hev
    obtain ⟨t1, rfl⟩ := hnow ev hev
    trivial
  · intro ev hev
    rw [hevs] at hev
    simp only [List.mem_append, List.mem_cons] at hev
    rcases hev with (h | h | h) | h
    · obtain ⟨t1, rfl⟩ := hpre ev h
      trivial
    · rw [h]; trivial
    · exact isTransferStep_isTraversal _ _ (hstep ev h)
    · obtain ⟨t1, rfl⟩ := hpost ev h
      trivial

/-- The `Stat` and `Remove` calls of a run whose filesystems initialised and whose history was
obtained are those made between the end of the traversal and the end of `cleanup`. -/
theorem RunTask_stat_remove (w : World) (fuel : Nat) (task : Task) (rs : RunState)
    (history : Option TaskHistory) (hm1 : HistoryManager)
    (hsrc : (createFileSystem w .src task.SourceType task.SourcePath task.SourceAuth
      rs.trace).1 = none)
    (hdst : (createFileSystem w .dst task.TargetType task.TargetPath task.TargetAuth
      (rs.trace ++ [Event.Init .src true])).1 = none)
    (hget : rs.hm.GetTaskHistory task.Name = some (history, hm1)) :
    ∃ s1 s2 mid, s1 = (processDirectory w task fuel "" (traversalStart rs history)).state ∧
      s2.trace = s1.trace ++ mid ∧
      (((¬ (∃ a, processDirectory w task fuel "" (traversalStart rs history) = .ret a s1) ∨
          ¬ task.RetentionDays > 0) ∧ s2 = s1) ∨
        ((∃ a, processDirectory w task fuel "" (traversalStart rs history) = .ret a s1) ∧
          task.RetentionDays > 0 ∧ s2 = (cleanup w task s1).state)) ∧
      (∀ ev, (∃ p ok, ev = Event.Stat .dst p ok ∨ ev = Event.Remove .dst p ok) →
        (ev ∈ runEvents w fuel task rs ↔ ev ∈ mid)) ∧
      (RunTask w fuel task rs).state.hm = hm1.store task.Name s2.history := by
  rcases RunTask_shape w fuel task rs with
    ⟨h | h | h, -, -⟩ | ⟨history1, hm2, s1, s2, hg, -, -, hs1, hs2, hhm, htail⟩
  · exact absurd hsrc h
  · exact absurd hdst h
  · rw [hget] at h; simp at h
  · rw [hget] at hg
    simp only [Option.some.injEq, Prod.mk.injEq] at hg
    obtain ⟨hh, hh2⟩ := hg
    subst hh hh2
    obtain ⟨pdevs, hpd, hpdk⟩ := processDirectory_isTraversal w task fuel ""
      (traversalStart rs history)
    have hmid : ∃ mid, s2.trace = s1.trace ++ mid := by
      rcases hs2 with ⟨-, h⟩ | ⟨-, -, h⟩
      · exact ⟨[], by rw [h]; simp⟩
      · obtain ⟨evs, hevs, -⟩ := (cleanup_spec w task s1).2
        exact ⟨evs, by rw [h, hevs]⟩
    obtain ⟨mid, hmid⟩ := hmid
    obtain ⟨tail, htl, htlk⟩ := htail
    refine ⟨s1, s2, mid, hs1, hmid, hs2, ?_, hhm⟩
    have htrace : (RunTask w fuel task rs).state.trace =
        rs.trace ++ ([Event.Init .src true, Event.Init .dst true] ++ pdevs ++ mid ++ tail) := by
      rw [htl, hmid, hs1, hpd]
      simp only [traversalStart, List.append_assoc]
    rintro ev ⟨p, ok, hev⟩
    unfold runEvents
    rw [htrace, newEvents_append]
    simp only [List.mem_append, List.mem_cons, List.mem_singleton, List.not_mem_nil, or_false]
    constructor
    · rintro ((((h | h) | h) | h) | h)
      · rw [h] at hev; simp at hev
      · rw [h] at hev; simp at hev
      · have := hpdk ev h
        rcases hev with h1 | h1 <;> simp [h1, Event.isTraversal] at this
      · exact h
      · have := htlk ev h
        rcases hev with h1 | h1 <;> simp [h1, Event.isFrame] at this
    · intro h
      exact Or.inl (Or.inr h)

/-- A `Remove` issued by a run is for a path that the history held, with a time before the
cutoff, when the traversal returned; the ledger at the end of the run holds that history. -/
theorem RunTask_remove_origin (w : World) (fuel : Nat) (task : Task) (rs : RunState)
    (P : String) (ok : Bool) (h : Event.Remove .dst P ok ∈ runEvents w fuel task rs) :
    ∃ history hm1 a s1 t, rs.hm.GetTaskHistory task.Name = some (history, hm1) ∧
      processDirectory w task fuel "" (traversalStart rs history) = .ret a s1 ∧
      (P, t) ∈ recordsOf s1.history ∧ t < retentionCutoff w task s1 ∧
      task.RetentionDays > 0 ∧
      (RunTask w fuel task rs).state.hm = hm1.store task.Name s1.history := by
  rcases RunTask_shape w fuel task rs with
    ⟨-, -, hfr⟩ | ⟨history, hm1, -, -, hg, hsrc, hdst, -, -, -, -⟩
  · have := onlyNew_newEvents _ _ _ hfr _ h
    simp [Event.isFrame] at this
  · obtain ⟨s1, s2, mid, hs1, hmid, hcase, hloc, hhm⟩ :=
      RunTask_stat_remove w fuel task rs history hm1 hsrc hdst hg
    have hin : Event.Remove .dst P ok ∈ mid := (hloc _ ⟨P, ok, Or.inr rfl⟩).1 h
    rcases hcase with ⟨-, h21⟩ | ⟨⟨a, hret⟩, hpos, h2⟩
    · rw [h21] at hmid
      have : mid = [] := by simpa using hmid
      rw [this] at hin
      simp at hin
    · by_cases hh : s1.history = none
      · have : (cleanup w task s1).state.trace = s1.trace ++ [Event.Now (w.Now s1.trace)] := by
          unfold cleanup
          simp [hh]
        rw [h2, this] at hmid
        rw [← List.append_cancel_left hmid] at hin
        simp at hin
      · obtain ⟨u, s4, evs, hcl, htr, -, ha, -, hc, -⟩ := cleanup_events w task s1 hh
        have hmid1 : mid = Event.Now (w.Now s1.trace) :: evs := by
          rw [h2, hcl, Res.state_ret, htr] at hmid
          exact (List.append_cancel_left hmid).symm
        rw [hmid1] at hin
        simp only [List.mem_cons, reduceCtorEq, false_or] at hin
        obtain ⟨t, ht1, ht2⟩ := hc P true (ha P ok hin)
        refine ⟨history, hm1, a, s1, t, hg, hret, ht1, ht2, hpos, ?_⟩
        rw [hhm, h2, (cleanup_spec w task s1).1]

/-- A run that returns no error initialised both filesystems, obtained the history,
traversed to the end (state `s1`), cleaned up (state `s2`, same history) and saved. -/
theorem RunTask_returns (w : World) (fuel : Nat) (task : Task) (rs rs1 : RunState)
    (h : RunTask w fuel task rs = .ret none rs1) :
    ∃ (history : Option TaskHistory) (hm1 : HistoryManager) (a : Option String) (s1 s2 : St)
      (ok : Bool), rs.hm.GetTaskHistory task.Name = some (history, hm1) ∧
      processDirectory w task fuel "" (traversalStart rs history) = .ret a s1 ∧
      s2.history = s1.history ∧ (∃ mid, s2.trace = s1.trace ++ mid) ∧
      rs1 = ⟨s2.trace ++ [Event.Save ok, Event.Close .dst, Event.Close .src],
        hm1.store task.Name s2.history⟩ := by
  have hsrc := createFileSystem_spec w .src task.SourceType task.SourcePath task.SourceAuth
    rs.trace
  rcases hc1 : createFileSystem w .src task.SourceType task.SourcePath task.SourceAuth
    rs.trace with ⟨r1, tr1⟩
  rw [hc1] at hsrc
  cases r1 with
  | some err => simp [RunTask, hc1] at h
  | none =>
    obtain ⟨-, ht1⟩ := hsrc.1 rfl
    simp only at ht1
    subst ht1
    have hdst := createFileSystem_spec w .dst task.TargetType task.TargetPath task.TargetAuth
      (rs.trace ++ [Event.Init .src true])
    rcases hc2 : createFileSystem w .dst task.TargetType task.TargetPath task.TargetAuth
      (rs.trace ++ [Event.Init .src true]) with ⟨r2, tr2⟩
    rw [hc2] at hdst
    cases r2 with
    | some err => simp [RunTask, hc1, hc2] at h
    | none =>
      obtain ⟨-, ht2⟩ := hdst.1 rfl
      simp only at ht2
      subst ht2
      simp only [List.append_assoc, List.singleton_append] at hc2
      cases hg : rs.hm.GetTaskHistory task.Name with
      | none => simp [RunTask, hc1, hc2, hg] at h
      | some pr =>
        obtain ⟨history, hm1⟩ := pr
        cases hp : processDirectory w task fuel ""
            ⟨rs.trace ++ [Event.Init .src true, Event.Init .dst true], history⟩ with
        | diverge s1 => simp [RunTask, hc1, hc2, hg, hp] at h
        | panic s1 => simp [RunTask, hc1, hc2, hg, hp] at h
        | ret a s1 =>
          by_cases hr : task.RetentionDays > 0
          · cases hcl : cleanup w task s1 with
            | diverge s2 => simp [RunTask, hc1, hc2, hg, hp, hr, hcl] at h
            | panic s2 => simp [RunTask, hc1, hc2, hg, hp, hr, hcl] at h
            | ret u s2 =>
              simp only [RunTask, hc1, hc2, hg, hp, hr, if_true, hcl, HistoryManager.Save,
                RunRes.ret.injEq, true_and] at h
              have h1 := (cleanup_spec w task s1).1
              obtain ⟨mid, hmid, -⟩ := (cleanup_spec w task s1).2
              rw [hcl] at h1 hmid
              exact ⟨history, hm1, a, s1, s2,
                ((hm1.store task.Name s2.history).saveError w s2.trace).isNone, rfl, hp, h1,
                ⟨mid, hmid⟩, by rw [← h]; simp⟩
          · simp only [RunTask, hc1, hc2, hg, hp, hr, if_false, HistoryManager.Save,
              RunRes.ret.injEq, true_and] at h
            exact ⟨history, hm1, a, s1, s1,
              ((hm1.store task.Name s1.history).saveError w s1.trace).isNone, rfl, hp, rfl,
              ⟨[], by simp⟩, by rw [← h]; simp⟩

theorem timeOf_store_ne (hm : HistoryManager) (taskName other p : String)
    (th : Option TaskHistory) (h : taskName ≠ other) :
    (hm.store taskName th).timeOf other p = hm.timeOf other p := by
  unfold HistoryManager.store HistoryManager.timeOf
  cases ht : hm.Tasks with
  | none => simp [ht]
  | some tasks => simp [mapGet_mapSet, h]

theorem GetTaskHistory_store (hm : HistoryManager) (taskName : String)
    (th : Option TaskHistory) (h : hm.Tasks ≠ none) :
    (hm.store taskName th).GetTaskHistory taskName = some (th, hm.store taskName th) := by
  unfold HistoryManager.store HistoryManager.GetTaskHistory
  cases ht : hm.Tasks with
  | none => exact absurd ht h
  | some tasks => simp [mapGet_mapSet]

/-! ## Two runs in a row -/

theorem laterThan_refl (a : St) : laterThan a a := ⟨⟨[], by simp⟩, fun _ h => h⟩

theorem laterThan_trans (a b c : St) (h1 : laterThan a b) (h2 : laterThan b c) :
    laterThan a c := by
  obtain ⟨⟨e1, ht1⟩, hk1⟩ := h1
  obtain ⟨⟨e2, ht2⟩, hk2⟩ := h2
  exact ⟨⟨e1 ++ e2, by rw [ht2, ht1, List.append_assoc]⟩, fun P h => hk2 P (hk1 P h)⟩

theorem laterThan_of_dedupRel (a b : St) (h : ∀ P, dedupRel P a b) : laterThan a b := by
  refine ⟨dedupRel_ext "" a b (h ""), ?_⟩
  intro P hP
  obtain ⟨t, ht⟩ := Option.isSome_iff_exists.1 hP
  obtain ⟨evs, -, hk⟩ := h P
  rw [(hk t ht).1]
  rfl

theorem laterThan_processFile (w : World) (task : Task) (regex : Regexp) (p : String)
    (e : FileEntry) (s : St) : laterThan s (processFile w task regex p e s).state :=
  laterThan_of_dedupRel _ _ (fun P => dedupRel_processFile P w task regex p e s)

theorem laterThan_processDirectory (w : World) (task : Task) (fuel : Nat) (relPath : String)
    (s : St) : laterThan s (processDirectory w task fuel relPath s).state :=
  laterThan_of_dedupRel _ _ (fun P => dedupRel_processDirectory P w task fuel relPath s)

theorem laterThan_processEntry (w : World) (task : Task) (regex : Regexp) (fuel : Nat)
    (relPath : String) (e : FileEntry) (s : St) :
    laterThan s (processEntry w task regex (processDirectory w task fuel) relPath e s).state := by
  unfold processEntry
  by_cases hd : e.IsDir = true
  · have := laterThan_processDirectory w task fuel (path.Join [relPath, e.Name]) s
    simp only [hd, if_true]
    cases hr : processDirectory w task fuel (path.Join [relPath, e.Name]) s <;>
      simpa [hr] using this
  · simp only [hd]
    exact laterThan_processFile w task regex _ e s

theorem laterThan_processEntries (w : World) (task : Task) (regex : Regexp) (fuel : Nat)
    (relPath : String) (entries : List FileEntry) (s : St) :
    laterThan s (processEntries (processEntry w task regex (processDirectory w task fuel)
      relPath) entries s).state :=
  processEntries_rel laterThan laterThan_refl laterThan_trans (fun _ => True)
    (fun _ _ _ _ => trivial) _ entries
    (fun e _ t _ => laterThan_processEntry w task regex fuel relPath e t) s trivial

theorem quiet_refl (s : St) : quiet s s := ⟨⟨[], by simp, by simp⟩, rfl⟩

theorem quiet_trans (a b c : St) (h1 : quiet a b) (h2 : quiet b c) : quiet a c := by
  obtain ⟨⟨e1, ht1, hq1⟩, hh1⟩ := h1
  obtain ⟨⟨e2, ht2, hq2⟩, hh2⟩ := h2
  refine ⟨⟨e1 ++ e2, by rw [ht2, ht1, List.append_assoc], ?_⟩, by rw [hh2, hh1]⟩
  intro ev hev
  rcases List.mem_append.1 hev with h | h
  · exact hq1 ev h
  · exact hq2 ev h

theorem quiet_log (s : St) (ev : Event) (h : ∀ P, ev ≠ Event.TransferFile P) :
    quiet s (s.log ev) :=
  ⟨⟨[ev], rfl, by simpa using h⟩, rfl⟩

theorem quiet_afterClock (w : World) (task : Task) (s : St) : quiet s (afterClock w task s) := by
  unfold afterClock
  split_ifs
  · exact quiet_log s _ (by simp)
  · exact quiet_refl s

theorem laterThan_of_quiet (a b c : St) (h1 : laterThan a b) (h2 : quiet b c) :
    laterThan a c := by
  obtain ⟨⟨e2, ht2, -⟩, hh2⟩ := h2
  exact laterThan_trans a b c h1 ⟨⟨e2, ht2⟩, fun P h => by rw [hh2]; exact h⟩

/-- A file that does not match, or is stale, or is recorded, is skipped quietly. -/
theorem processFile_quiet (w : World) (task : Task) (regex : Regexp) (p : String)
    (e : FileEntry) (s : St)
    (h : regex.MatchString e.Name = false ∨ isStale w task e s ∨
      TaskHistory.Has s.history p = some true) :
    quiet s (processFile w task regex p e s).state ∧
      ∃ s1, processFile w task regex p e s = .ret () s1 := by
  rw [processFile_eq]
  split_ifs with hm hst
  · exact ⟨quiet_refl s, s, rfl⟩
  · exact ⟨quiet_afterClock w task s, _, rfl⟩
  · rcases h with h | h | h
    · exact absurd h hm
    · exact absurd h hst
    · rw [h]
      exact ⟨quiet_afterClock w task s, _, rfl⟩

/-- A file stays stale: if the clock and the day arithmetic do not go backwards, a file stale
in a state is stale in every later state. -/
theorem isStale_later (w : World) (task : Task) (e : FileEntry) (a b : St)
    (hclock : ∀ tr evs, w.Now tr ≤ w.Now (tr ++ evs))
    (hdays : ∀ t t1 d, t ≤ t1 → w.AddDate t 0 0 d ≤ w.AddDate t1 0 0 d)
    (hab : ∃ evs, b.trace = a.trace ++ evs) (h : isStale w task e a) : isStale w task e b := by
  obtain ⟨evs, hevs⟩ := hab
  refine ⟨h.1, lt_of_lt_of_le h.2 ?_⟩
  rw [hevs]
  exact hdays _ _ _ (hclock _ _)

/-- What the first run did with a file that it handled without a failed transfer makes the
second run skip it. -/
theorem idem_file (w : World) (task : Task) (regex : Regexp) (p : String) (e : FileEntry)
    (hclock : ∀ tr evs, w.Now tr ≤ w.Now (tr ++ evs))
    (hdays : ∀ t t1 d, t ≤ t1 → w.AddDate t 0 0 d ≤ w.AddDate t1 0 0 d)
    (sA sA1 sB : St) (a : Unit) (hret : processFile w task regex p e sA = .ret a sA1)
    (hok : ∀ ev ∈ newEvents sA.trace sA1.trace, ev.transferFailed = false)
    (hlater : laterThan sA1 sB) :
    quiet sB (processFile w task regex p e sB).state ∧
      ∃ s1, processFile w task regex p e sB = .ret () s1 := by
  apply processFile_quiet
  have hA : laterThan sA sA1 := by
    have := laterThan_processFile w task regex p e sA
    rw [hret] at this
    exact this
  have hAB := laterThan_trans _ _ _ hA hlater
  obtain ⟨evs, htr, hcase⟩ := processFile_spec w task regex p e sA
  rw [hret, Res.state_ret] at htr hcase
  have hrec : (ledgerTime sA1.history p).isSome = true →
      TaskHistory.Has sB.history p = some true := fun h =>
    (Has_eq_ledgerTime _ _).2 (hlater.2 p h)
  by_cases hm : regex.MatchString e.Name = false
  · exact Or.inl hm
  by_cases hst : isStale w task e sA
  · exact Or.inr (Or.inl (isStale_later w task e sA sB hclock hdays hAB.1 hst))
  right; right
  cases hH : TaskHistory.Has sA.history p with
  | none =>
    have := hret
    rw [processFile_eq] at this
    simp [hm, hst, hH] at this
  | some b =>
    cases b with
    | true => exact (Has_eq_ledgerTime _ _).2 (hAB.2 p ((Has_eq_ledgerTime _ _).1 hH))
    | false =>
      rcases hcase with ⟨-, -, hwhy⟩ | ⟨-, -, -, pre, tevs, post, hevs, -, -, -, hres⟩
      · rcases hwhy with h | h | h
        · exact absurd h hm
        · exact absurd h hst
        · exact absurd hH h
      · rcases hres with ⟨⟨ev, hev, hfail⟩, -⟩ | ⟨-, -, -, -, -, -, hadd⟩
        · have hmem : ev ∈ newEvents sA.trace sA1.trace := by
            rw [htr, newEvents_append, hevs]
            simp [hev]
          rw [hok ev hmem] at hfail
          simp at hfail
        · obtain ⟨t, ht, -⟩ := hadd a sA1 rfl
          exact hrec (by rw [ht]; rfl)

theorem newEvents_split (a b c : Trace) (e1 e2 : Trace) (hb : b = a ++ e1) (hc : c = b ++ e2) :
    newEvents a c = newEvents a b ++ newEvents b c := by
  subst hb hc
  rw [newEvents_append, newEvents_append, List.append_assoc, newEvents_append]

/-- The loop of the second run over entries that the first run handled without a failed
transfer is quiet, when each entry is. -/
theorem idem_entries (body1 body2 : FileEntry → St → Res Unit) (entries : List FileEntry)
    (hmono : ∀ e s, laterThan s (body1 e s).state)
    (hstep : ∀ e ∈ entries, ∀ sA sA1 a, body1 e sA = .ret a sA1 →
      (∀ ev ∈ newEvents sA.trace sA1.trace, ev.transferFailed = false) →
      ∀ sB, laterThan sA1 sB → quiet sB (body2 e sB).state) :
    ∀ sA sA1 a, processEntries body1 entries sA = .ret a sA1 →
      (∀ ev ∈ newEvents sA.trace sA1.trace, ev.transferFailed = false) →
      ∀ sB, laterThan sA1 sB → quiet sB (processEntries body2 entries sB).state := by
  induction entries with
  | nil => intro sA sA1 a _ _ sB _; exact quiet_refl sB
  | cons e rest ih =>
    intro sA sA1 a hret hok sB hlater
    unfold processEntries at hret
    cases hb : body1 e sA with
    | panic t => simp [hb] at hret
    | diverge t => simp [hb] at hret
    | ret a1 tA1 =>
      simp only [hb] at hret
      have hm1 : laterThan sA tA1 := by
        have := hmono e sA
        rw [hb] at this
        exact this
      have hm2 : laterThan tA1 sA1 := by
        have := processEntries_rel laterThan laterThan_refl laterThan_trans (fun _ => True)
          (fun _ _ _ _ => trivial) body1 rest (fun e1 _ t _ => hmono e1 t) tA1 trivial
        rw [hret] at this
        exact this
      obtain ⟨e1, he1⟩ := hm1.1
      obtain ⟨e2, he2⟩ := hm2.1
      have hsplit := newEvents_split sA.trace tA1.trace sA1.trace e1 e2 he1 he2
      have hq1 : quiet sB (body2 e sB).state :=
        hstep e (List.mem_cons_self _ _) sA tA1 a1 hb
          (fun ev hev => hok ev (by rw [hsplit]; exact List.mem_append_left _ hev)) sB
          (laterThan_trans _ _ _ hm2 hlater)
      unfold processEntries
      cases hb2 : body2 e sB with
      | panic t => rw [hb2] at hq1; exact hq1
      | diverge t => rw [hb2] at hq1; exact hq1
      | ret a2 tB1 =>
        rw [hb2] at hq1
        simp only []
        exact quiet_trans _ _ _ hq1 (ih
          (fun e1 he1 => hstep e1 (List.mem_cons_of_mem _ he1)) tA1 sA1 a hret
          (fun ev hev => hok ev (by rw [hsplit]; exact List.mem_append_right _ hev)) tB1
          (laterThan_of_quiet _ _ _ hlater hq1))

/-- A traversal of the second run over a directory that the first run traversed to the end
without a failed transfer is quiet: the source lists the same, the clock and the day
arithmetic do not go backwards, and the second run starts after the first with at least its
records. -/
theorem idem_dir (w : World) (task : Task)
    (hlist : ∀ tr tr1 p, w.src.List tr p = w.src.List tr1 p)
    (hclock : ∀ tr evs, w.Now tr ≤ w.Now (tr ++ evs))
    (hdays : ∀ t t1 d, t ≤ t1 → w.AddDate t 0 0 d ≤ w.AddDate t1 0 0 d) :
    ∀ fuel relPath sA sA1 a, processDirectory w task fuel relPath sA = .ret a sA1 →
      (∀ ev ∈ newEvents sA.trace sA1.trace, ev.transferFailed = false) →
      ∀ fuel2 sB, laterThan sA1 sB →
        quiet sB (processDirectory w task fuel2 relPath sB).state := by
  intro fuel
  induction fuel with
  | zero =>
    intro relPath sA sA1 a hret
    simp [processDirectory] at hret
  | succ fuel ih =>
    intro relPath sA sA1 a hret hok fuel2 sB hlater
    cases fuel2 with
    | zero => exact quiet_refl sB
    | succ fuel2 =>
      unfold processDirectory at hret ⊢
      rw [hlist sB.trace sA.trace relPath]
      cases hl : w.src.List sA.trace relPath with
      | error err => exact quiet_log sB _ (by simp)
      | ok es =>
        simp only [hl] at hret
        simp only []
        have hq0 : quiet sB (sB.log (.ListDir .src relPath (some es))) :=
          quiet_log sB _ (by simp)
        cases hc : w.Compile task.SourceRegex with
        | error err => exact hq0
        | ok regex =>
          simp only [hc] at hret
          simp only []
          cases hp : processEntries (processEntry w task regex (processDirectory w task fuel)
              relPath) es (sA.log (.ListDir .src relPath (some es))) with
          | panic t => simp [hp] at hret
          | diverge t => simp [hp] at hret
          | ret u tA1 =>
            simp only [hp, Res.ret.injEq] at hret
            obtain ⟨-, hs⟩ := hret
            subst hs
            obtain ⟨⟨e2, he2⟩, -⟩ := laterThan_processEntries w task regex fuel relPath es
              (sA.log (.ListDir .src relPath (some es)))
            rw [hp, Res.state_ret] at he2
            have hsplit := newEvents_split sA.trace
              (sA.log (.ListDir .src relPath (some es))).trace tA1.trace _ e2 rfl he2
            have hq := idem_entries
              (processEntry w task regex (processDirectory w task fuel) relPath)
              (processEntry w task regex (processDirectory w task fuel2) relPath) es
              (fun e t => laterThan_processEntry w task regex fuel relPath e t)
              (by
                intro e _ tA tA2 a1 hbody hok1 tB hl1
                unfold processEntry at hbody ⊢
                by_cases hd : e.IsDir = true
                · simp only [hd, if_true] at hbody ⊢
                  cases hr : processDirectory w task fuel (path.Join [relPath, e.Name]) tA with
                  | panic t => simp [hr] at hbody
                  | diverge t => simp [hr] at hbody
                  | ret a2 tA3 =>
                    simp only [hr, Res.ret.injEq, true_and] at hbody
                    subst hbody
                    have := ih (path.Join [relPath, e.Name]) tA tA3 a2 hr hok1 fuel2 tB hl1
                    cases hr2 : processDirectory w task fuel2 (path.Join [relPath, e.Name]) tB <;>
                      simpa [hr2] using this
                · simp only [hd] at hbody ⊢
                  exact (idem_file w task regex _ e hclock hdays tA tA2 tB a1 hbody hok1 hl1).1)
              (sA.log (.ListDir .src relPath (some es))) tA1 u hp
              (fun ev hev => hok ev (by rw [hsplit]; exact List.mem_append_right _ hev))
              (sB.log (.ListDir .src relPath (some es)))
              (laterThan_of_quiet _ _ _ hlater hq0)
            have hq1 := quiet_trans _ _ _ hq0 hq
            cases hp2 : processEntries (processEntry w task regex
                (processDirectory w task fuel2) relPath) es
                (sB.log (.ListDir .src relPath (some es))) <;>
              simpa [hp2] using hq1

theorem store_tasks_ne_none (hm : HistoryManager) (taskName : String)
    (th : Option TaskHistory) (h : hm.Tasks ≠ none) : (hm.store taskName th).Tasks ≠ none := by
  unfold HistoryManager.store
  cases ht : hm.Tasks with
  | none => exact absurd ht h
  | some tasks => simp

/-! ## A failing subdirectory -/

@[simp] theorem St.seen_history (D : String) (s : St) : (s.seen D).history = s.history := rfl

@[simp] theorem St.seen_trace (D : String) (s : St) :
    (s.seen D).trace = seenFailed D s.trace := rfl

theorem St.seen_log (D : String) (s : St) (ev : Event) :
    (s.log ev).seen D = (s.seen D).log (markFailed D ev) := by
  simp [St.seen, St.log, seenFailed]

theorem transferFile_seen (w : World) (D p : String) (s : St) :
    transferFile w p (s.seen D) =
      ((transferFile (w.withEmptyDir D) p s).1, (transferFile (w.withEmptyDir D) p s).2.seen D) := by
  by_cases hp : path.Dir p ≠ "." ∧ path.Dir p ≠ "/"
  · cases h1 : w.dst.MkdirAll (List.map (markFailed D) s.trace ++ [Event.TransferFile p])
        (path.Dir p) with
    | some err =>
      simp [transferFile, St.seen, St.log, seenFailed, markFailed, World.withEmptyDir,
        FileSystem.seeing, hp, h1]
    | none =>
      cases h2 : w.src.Open (List.map (markFailed D) s.trace ++ [Event.TransferFile p,
          Event.MkdirAll .dst (path.Dir p) true]) p with
      | some err =>
        simp [transferFile, St.seen, St.log, seenFailed, markFailed, World.withEmptyDir,
          FileSystem.seeing, hp, h1, h2]
      | none =>
        cases h3 : w.dst.Create (List.map (markFailed D) s.trace ++ [Event.TransferFile p,
            Event.MkdirAll .dst (path.Dir p) true, Event.OpenFile .src p true]) p with
        | some err =>
          simp [transferFile, St.seen, St.log, seenFailed, markFailed, World.withEmptyDir,
            FileSystem.seeing, hp, h1, h2, h3]
        | none =>
          simp [transferFile, St.seen, St.log, seenFailed, markFailed, World.withEmptyDir,
            FileSystem.seeing, hp, h1, h2, h3]
  · cases h2 : w.src.Open (List.map (markFailed D) s.trace ++ [Event.TransferFile p]) p with
    | some err =>
      simp [transferFile, St.seen, St.log, seenFailed, markFailed, World.withEmptyDir,
        FileSystem.seeing, hp, h2]
    | none =>
      cases h3 : w.dst.Create (List.map (markFailed D) s.trace ++ [Event.TransferFile p,
          Event.OpenFile .src p true]) p with
      | some err =>
        simp [transferFile, St.seen, St.log, seenFailed, markFailed, World.withEmptyDir,
          FileSystem.seeing, hp, h2, h3]
      | none =>
        simp [transferFile, St.seen, St.log, seenFailed, markFailed, World.withEmptyDir,
          FileSystem.seeing, hp, h2, h3]

theorem Add_seen (w : World) (D p : String) (s : St) :
    TaskHistory.Add w p (s.seen D) = (TaskHistory.Add (w.withEmptyDir D) p s).seen D := by
  unfold TaskHistory.Add
  cases hh : s.history with
  | none => simp [St.seen, Res.seen, hh]
  | some h =>
    cases hr : h.Records <;>
      simp [St.seen, St.log, Res.seen, hh, hr, seenFailed, markFailed, World.withEmptyDir]

theorem afterClock_seen (w : World) (D : String) (task : Task) (s : St) :
    afterClock w task (s.seen D) = (afterClock (w.withEmptyDir D) task s).seen D := by
  unfold afterClock
  split_ifs <;> simp [St.seen, St.log, seenFailed, markFailed, World.withEmptyDir]

theorem isStale_seen (w : World) (D : String) (task : Task) (e : FileEntry) (s : St) :
    isStale w task e (s.seen D) ↔ isStale (w.withEmptyDir D) task e s := Iff.rfl

theorem processFile_seen (w : World) (D : String) (task : Task) (regex : Regexp) (p : String)
    (e : FileEntry) (s : St) :
    processFile w task regex p e (s.seen D) =
      (processFile (w.withEmptyDir D) task regex p e s).seen D := by
  rw [processFile_eq, processFile_eq]
  by_cases hm : regex.MatchString e.Name = false
  · simp [hm, Res.seen]
  · by_cases hst : isStale (w.withEmptyDir D) task e s
    · have hst1 : isStale w task e (s.seen D) := (isStale_seen w D task e s).2 hst
      simp [hm, hst, hst1, Res.seen, afterClock_seen]
    · have hst1 : ¬ isStale w task e (s.seen D) := fun h => hst ((isStale_seen w D task e s).1 h)
      simp only [hm, hst, hst1, if_false, St.seen_history]
      cases hH : TaskHistory.Has s.history p with
      | none => simp [Res.seen, afterClock_seen]
      | some b =>
        cases b with
        | true => simp [Res.seen, afterClock_seen]
        | false =>
          simp only []
          rw [afterClock_seen, transferFile_seen]
          rcases htf : transferFile (w.withEmptyDir D) p (afterClock (w.withEmptyDir D) task s)
            with ⟨r, s2⟩
          cases r with
          | some err => simp [Res.seen]
          | none => simp [Add_seen]

theorem processEntries_seen (D : String) (body body1 : FileEntry → St → Res Unit)
    (entries : List FileEntry) (h : ∀ e ∈ entries, ∀ s, body e (s.seen D) = (body1 e s).seen D) :
    ∀ s, processEntries body entries (s.seen D) = (processEntries body1 entries s).seen D := by
  induction entries with
  | nil => intro s; rfl
  | cons e rest ih =>
    intro s
    unfold processEntries
    rw [h e (List.mem_cons_self _ _) s]
    cases hb : body1 e s with
    | ret a s1 =>
      simp only [Res.seen]
      exact ih (fun e1 he1 => h e1 (List.mem_cons_of_mem _ he1)) s1
    | panic s1 => rfl
    | diverge s1 => rfl

theorem forget_seen {α : Type} (D : String) (r : Res α) : (r.seen D).forget = r.forget.seen D := by
  cases r <;> rfl

/-- The run in the world where `D` always fails to list and the run in the world where `D`
lists as empty go through the same steps: at every directory the two results agree up to the
return value, and agree entirely at every directory other than `D`, once the trace of the
second is read with the listings of `D` failed. -/
theorem processDirectory_seen (w : World) (D : String) (task : Task)
    (hfail : ∀ tr, ∃ err, w.src.List tr D = .error err) :
    ∀ fuel relPath s,
      (processDirectory w task fuel relPath (s.seen D)).forget =
        ((processDirectory (w.withEmptyDir D) task fuel relPath s).seen D).forget ∧
      (relPath ≠ D → processDirectory w task fuel relPath (s.seen D) =
        (processDirectory (w.withEmptyDir D) task fuel relPath s).seen D) := by
  intro fuel
  induction fuel with
  | zero => intro relPath s; exact ⟨rfl, fun _ => rfl⟩
  | succ fuel ih =>
    intro relPath s
    by_cases hD : relPath = D
    · subst hD
      refine ⟨?_, fun h => absurd rfl h⟩
      obtain ⟨err, herr⟩ := hfail (seenFailed relPath s.trace)
      unfold processDirectory
      simp only [St.seen_trace, herr]
      have hl : (w.withEmptyDir relPath).src.List s.trace relPath = .ok [] := by
        simp [World.withEmptyDir]
      simp only [hl]
      have hlog : (s.log (Event.ListDir .src relPath (some []))).seen relPath =
          (s.seen relPath).log (Event.ListDir .src relPath none) := by
        rw [St.seen_log]
        simp [markFailed]
      cases hc : (w.withEmptyDir relPath).Compile task.SourceRegex with
      | error e1 => simp [Res.seen, Res.forget, hlog]
      | ok regex => simp [processEntries, Res.seen, Res.forget, hlog]
    · have hl : (w.withEmptyDir D).src.List s.trace relPath =
          w.src.List (seenFailed D s.trace) relPath := by
        simp [World.withEmptyDir, hD]
      have hfull : processDirectory w task (fuel + 1) relPath (s.seen D) =
          (processDirectory (w.withEmptyDir D) task (fuel + 1) relPath s).seen D := by
        unfold processDirectory
        simp only [St.seen_trace, hl]
        cases hls : w.src.List (seenFailed D s.trace) relPath with
        | error err =>
          simp only [Res.seen]
          rw [St.seen_log]
          simp [markFailed]
        | ok es =>
          have hlog : (s.log (Event.ListDir .src relPath (some es))).seen D =
              (s.seen D).log (Event.ListDir .src relPath (some es)) := by
            rw [St.seen_log]
            cases es <;> simp [markFailed, hD]
          have hcomp : (w.withEmptyDir D).Compile task.SourceRegex =
              w.Compile task.SourceRegex := rfl
          simp only [hcomp]
          cases hc : w.Compile task.SourceRegex with
          | error e1 => simp [Res.seen, hlog]
          | ok regex =>
            simp only []
            have hbody : ∀ e ∈ es, ∀ t,
                processEntry w task regex (processDirectory w task fuel) relPath e (t.seen D) =
                (processEntry (w.withEmptyDir D) task regex
                  (processDirectory (w.withEmptyDir D) task fuel) relPath e t).seen D := by
              intro e _ t
              unfold processEntry
              by_cases hd : e.IsDir = true
              · simp only [hd, if_true]
                have h1 := (ih (path.Join [relPath, e.Name]) t).1
                cases hr : processDirectory w task fuel (path.Join [relPath, e.Name])
                    (t.seen D) <;>
                  cases hr1 : processDirectory (w.withEmptyDir D) task fuel
                    (path.Join [relPath, e.Name]) t <;>
                  simp_all [Res.seen, Res.forget]
              · simp only [hd]
                exact processFile_seen w D task regex _ e t
            have := processEntries_seen D _ _ es hbody
              (s.log (Event.ListDir .src relPath (some es)))
            rw [hlog] at this
            rw [this]
            cases hp : processEntries (processEntry (w.withEmptyDir D) task regex
              (processDirectory (w.withEmptyDir D) task fuel) relPath) es
              (s.log (Event.ListDir .src relPath (some es))) <;> simp [Res.seen]
      exact ⟨by rw [hfull], fun _ => hfull⟩

theorem seenFailed_id (D : String) (tr : Trace)
    (h : ∀ ev ∈ tr, ev ≠ Event.ListDir .src D (some [])) : seenFailed D tr = tr := by
  unfold seenFailed
  induction tr with
  | nil => rfl
  | cons ev rest ih =>
    have h1 : markFailed D ev = ev := by
      unfold markFailed
      split
      · next d =>
        split_ifs with hd
        · subst hd
          exact absurd rfl (h _ (List.mem_cons_self _ _))
        · rfl
      · rfl
    rw [List.map_cons, h1, ih (fun e he => h e (List.mem_cons_of_mem _ he))]

/-! ## A pattern that does not compile -/

theorem processDirectory_invalid_regex (w : World) (task : Task) (fuel : Nat)
    (relPath : String) (s : St) (hcomp : ∃ err, w.Compile task.SourceRegex = .error err) :
    ∃ err r, processDirectory w task (fuel + 1) relPath s =
      .ret (some err) (s.log (.ListDir .src relPath r)) := by
  obtain ⟨err, herr⟩ := hcomp
  unfold processDirectory
  cases hl : w.src.List s.trace relPath with
  | error e1 => exact ⟨e1, none, rfl⟩
  | ok es => exact ⟨"invalid regex: " ++ err, some es, by simp [herr]⟩

theorem createFileSystem_eq (w : World) (side : Side) (fsType rootPath : String)
    (auth : Option Auth) (tr : Trace)
    (h : (createFileSystem w side fsType rootPath auth tr).1 = none) :
    createFileSystem w side fsType rootPath auth tr = (none, tr ++ [Event.Init side true]) :=
  Prod.ext h ((createFileSystem_spec w side fsType rootPath auth tr).1 h).2

/-- A run whose filesystems initialised, whose history was obtained and whose traversal
returned, with or without an error, returns no error itself: it cleans up when
`retention_days > 0`, saves, closes and returns nil, provided `cleanup` has a history to
read. -/
theorem RunTask_of_traversal (w : World) (fuel : Nat) (task : Task) (rs : RunState)
    (history : Option TaskHistory) (hm1 : HistoryManager) (a : Option String) (s1 : St)
    (hsrc : (createFileSystem w .src task.SourceType task.SourcePath task.SourceAuth
      rs.trace).1 = none)
    (hdst : (createFileSystem w .dst task.TargetType task.TargetPath task.TargetAuth
      (rs.trace ++ [Event.Init .src true])).1 = none)
    (hget : rs.hm.GetTaskHistory task.Name = some (history, hm1))
    (hpd : processDirectory w task fuel "" (traversalStart rs history) = .ret a s1)
    (hhist : s1.history ≠ none ∨ task.RetentionDays ≤ 0) :
    ∃ s2 ok, s2 = (if task.RetentionDays > 0 then (cleanup w task s1).state else s1) ∧
      s2.history = s1.history ∧
      RunTask w fuel task rs = .ret none
        ⟨s2.trace ++ [Event.Save ok, Event.Close .dst, Event.Close .src],
          hm1.store task.Name s1.history⟩ := by
  have hc1 := createFileSystem_eq w .src _ _ _ _ hsrc
  have hc2 := createFileSystem_eq w .dst _ _ _ _ hdst
  simp only [List.append_assoc, List.singleton_append] at hc2
  unfold traversalStart at hpd
  by_cases hr : task.RetentionDays > 0
  · have hh : s1.history ≠ none := by
      rcases hhist with h | h
      · exact h
      · exact absurd hr (not_lt.2 h)
    obtain ⟨u, s2, evs, hcl, -⟩ := cleanup_events w task s1 hh
    have h1 := (cleanup_spec w task s1).1
    rw [hcl, Res.state_ret] at h1
    refine ⟨s2, ((hm1.store task.Name s2.history).saveError w s2.trace).isNone, ?_, h1, ?_⟩
    · simp [hr, hcl]
    · simp only [RunTask, hc1, hc2, hget, hpd, hr, if_true, hcl, HistoryManager.Save, h1,
        List.append_assoc, List.singleton_append]
  · refine ⟨s1, ((hm1.store task.Name s1.history).saveError w s1.trace).isNone, ?_, rfl, ?_⟩
    · simp [hr]
    · simp only [RunTask, hc1, hc2, hget, hpd, hr, if_false, HistoryManager.Save,
        List.append_assoc, List.singleton_append]

theorem GetTaskHistory_timeOf_ne (hm hm1 : HistoryManager) (taskName other p : String)
    (history : Option TaskHistory) (h : hm.GetTaskHistory taskName = some (history, hm1))
    (hne : taskName ≠ other) : hm1.timeOf other p = hm.timeOf other p := by
  unfold HistoryManager.GetTaskHistory at h
  unfold HistoryManager.timeOf
  cases ht : hm.Tasks with
  | none => simp [ht] at h
  | some tasks =>
    cases hg : mapGet tasks taskName with
    | none =>
      simp [ht, hg] at h
      obtain ⟨-, h2⟩ := h
      subst h2
      simp [mapGet_mapSet, hne]
    | some th =>
      simp [ht, hg] at h
      obtain ⟨-, h2⟩ := h
      subst h2
      simp [ht]

/-- The ledger after a run whose traversal and cleanup left the history of the task as
`GetTaskHistory` returned it holds the same times as before the run. -/
theorem timeOf_store_same (hm hm1 : HistoryManager) (taskName : String)
    (history : Option TaskHistory) (h : hm.GetTaskHistory taskName = some (history, hm1))
    (name p : String) : (hm1.store taskName history).timeOf name p = hm.timeOf name p := by
  by_cases hn : taskName = name
  · subst hn
    rw [timeOf_store _ _ _ _ (GetTaskHistory_tasks _ _ _ _ h).1,
      (GetTaskHistory_tasks _ _ _ _ h).2 p]
  · rw [timeOf_store_ne _ _ _ _ _ hn, GetTaskHistory_timeOf_ne _ _ _ _ _ _ h hn]

/-! ## The parents of a path -/

namespace path
theorem splitSlash_ne_nil (cs : List Char) : splitSlash cs ≠ [] := by
  cases cs with
  | nil => simp [splitSlash]
  | cons c cs =>
    simp only [splitSlash]
    cases splitSlash cs with
    | nil => simp
    | cons x xs => by_cases h : c = '/' <;> simp [h]

theorem splitSlash_cons_slash (cs : List Char) : splitSlash ('/' :: cs) = [] :: splitSlash cs := by
  have h := splitSlash_ne_nil cs
  simp only [splitSlash]
  cases hs : splitSlash cs with
  | nil => exact absurd hs h
  | cons x xs => simp

theorem splitSlash_append_slash (cs : List Char) :
    splitSlash (cs ++ ['/']) = splitSlash cs ++ [[]] := by
  induction cs with
  | nil => simp [splitSlash]
  | cons c cs ih =>
    have h := splitSlash_ne_nil cs
    simp only [List.cons_append, splitSlash]
    have ih1 : splitSlash (cs.append ['/']) = splitSlash cs ++ [[]] := ih
    rw [ih1]
    cases hs : splitSlash cs with
    | nil => exact absurd hs h
    | cons x xs => by_cases hc : c = '/' <;> simp [hc]

theorem weight_splitSlash (cs : List Char) : weight (splitSlash cs) = cs.length + 1 := by
  induction cs with
  | nil => simp [splitSlash, weight]
  | cons c cs ih =>
    have h := splitSlash_ne_nil cs
    simp only [splitSlash]
    cases hs : splitSlash cs with
    | nil => exact absurd hs h
    | cons x xs =>
      rw [hs] at ih
      by_cases hc : c = '/'
      · simp [hc, weight] at ih ⊢; omega
      · simp [hc, weight] at ih ⊢; omega

theorem weight_cleanStep (r : Bool) (stack : List (List Char)) (e : List Char) :
    weight (cleanStep r stack e) ≤ weight stack + (e.length + 1) := by
  unfold cleanStep
  split
  · omega
  · split
    · cases stack with
      | nil => cases r <;> simp [weight]
      | cons top rest =>
        simp only []
        split
        · simp [weight]; omega
        · simp [weight]; omega
    · simp [weight]; omega

theorem weight_foldl (r : Bool) (xs stack : List (List Char)) :
    weight (xs.foldl (cleanStep r) stack) ≤ weight stack + weight xs := by
  induction xs generalizing stack with
  | nil => simp [weight]
  | cons x xs ih =>
    simp only [List.foldl_cons]
    have h1 := ih (cleanStep r stack x)
    have h2 := weight_cleanStep r stack x
    have h3 : weight (x :: xs) = (x.length + 1) + weight xs := by simp [weight]
    omega

theorem weight_reverse (xs : List (List Char)) : weight xs.reverse = weight xs := by
  simp [weight, List.sum_reverse]

theorem length_joinSlash (xs : List (List Char)) (h : xs ≠ []) :
    (joinSlash xs).length + 1 = weight xs := by
  induction xs with
  | nil => exact absurd rfl h
  | cons x xs ih =>
    cases xs with
    | nil => simp [joinSlash, weight]
    | cons y rest =>
      have := ih (by simp)
      simp [joinSlash, weight] at this ⊢
      omega

theorem dirPart_ne_nil (cs : List Char) (h : '/' ∈ cs) : dirPart cs ≠ [] := by
  cases cs with
  | nil => simp at h
  | cons c cs =>
    simp only [dirPart]
    have : '/' ∈ cs ∨ c = '/' := by
      rcases List.mem_cons.1 h with h | h
      · exact Or.inr h.symm
      · exact Or.inl h
    simp [this]

theorem dirPart_spec (p : List Char) :
    dirPart p = [] ∨ ∃ d, dirPart p = d ++ ['/'] ∧ d.length < p.length := by
  induction p with
  | nil => left; rfl
  | cons c cs ih =>
    simp only [dirPart]
    by_cases hc : '/' ∈ cs ∨ c = '/'
    · right
      simp only [hc, if_true]
      rcases ih with h | ⟨d, hd, hl⟩
      · have hcs : c = '/' := by
          rcases hc with hc | hc
          · exact absurd h (dirPart_ne_nil cs hc)
          · exact hc
        exact ⟨[], by simp [h, hcs], by simp⟩
      · exact ⟨c :: d, by simp [hd], by simp; omega⟩
    · left; simp [hc]

/-- Cleaning a path that ends in a slash gives `.`, `/` or a strictly shorter path. -/
theorem Clean_slash (d : List Char) :
    Clean (String.mk (d ++ ['/'])) = "." ∨ Clean (String.mk (d ++ ['/'])) = "/" ∨
      (Clean (String.mk (d ++ ['/']))).length ≤ d.length := by
  unfold Clean
  simp only [splitSlash_append_slash, List.foldl_append, List.foldl_cons, List.foldl_nil]
  have hstep : ∀ r st, cleanStep r st [] = st := fun r st => by simp [cleanStep]
  rw [hstep]
  cases d with
  | nil =>
    right; left
    simp [splitSlash, cleanStep, joinSlash]
  | cons c d1 =>
    by_cases hc : c = '/'
    · subst hc
      simp only [List.cons_append, List.head?_cons, decide_True, if_true,
        splitSlash_cons_slash, List.foldl_cons, hstep]
      by_cases hk : (splitSlash d1).foldl (cleanStep true) [] = []
      · right; left; rw [hk]; rfl
      · right; right
        have h1 := length_joinSlash ((splitSlash d1).foldl (cleanStep true) []).reverse
          (by simpa using hk)
        have h2 := weight_foldl true (splitSlash d1) []
        rw [weight_reverse] at h1
        rw [weight_splitSlash] at h2
        have h3 : weight [] = 0 := rfl
        simp [String.length]
        omega
    · have hr : (decide ((c :: d1 ++ ['/']).head? = some '/')) = false := by simp [hc]
      simp only [List.cons_append] at hr ⊢
      simp only [List.head?_cons, Option.some.injEq, hc, decide_False, Bool.false_eq_true,
        if_false]
      by_cases hk : (splitSlash (c :: d1)).foldl (cleanStep false) [] = []
      · left; rw [hk]; simp [joinSlash]
      · split
        · left; rfl
        · right; right
          have h1 := length_joinSlash
            ((splitSlash (c :: d1)).foldl (cleanStep false) []).reverse (by simpa using hk)
          have h2 := weight_foldl false (splitSlash (c :: d1)) []
          rw [weight_reverse] at h1
          rw [weight_splitSlash] at h2
          have h3 : weight [] = 0 := rfl
          have h4 : (c :: d1).length = d1.length + 1 := rfl
          simp [String.length]
          omega

/-- The parent of a path is `.`, `/`, or strictly shorter than the path. -/
theorem Dir_shorter (p : String) :
    Dir p = "." ∨ Dir p = "/" ∨ (Dir p).length < p.length := by
  unfold Dir
  rcases dirPart_spec p.data with h | ⟨d, hd, hl⟩
  · left; rw [h]; decide
  · rw [hd]
    rcases Clean_slash d with h | h | h
    · exact Or.inl h
    · exact Or.inr (Or.inl h)
    · right; right
      have : p.length = p.data.length := rfl
      omega

end path

theorem collect_spec (fuel : Nat) (curr : String) (dirs : List String)
    (h : FTPFileSystem.atTop curr ∧ 0 < fuel ∨ curr.length < fuel) :
    ∃ n, FTPFileSystem.atTop (path.Dir^[n] curr) ∧
      (∀ i, i < n → ¬ FTPFileSystem.atTop (path.Dir^[i] curr)) ∧
      (∀ i, i + 1 < n → (path.Dir^[i + 1] curr).length < (path.Dir^[i] curr).length) ∧
      FTPFileSystem.collect fuel curr dirs =
        some (dirs ++ (List.range n).map (fun i => path.Dir^[i] curr)) := by
  induction fuel generalizing curr dirs with
  | zero => omega
  | succ fuel ih =>
    by_cases htop : FTPFileSystem.atTop curr
    · refine ⟨0, htop, fun i hi => by omega, fun i hi => by omega, ?_⟩
      have : ¬ (curr ≠ "." ∧ curr ≠ "/" ∧ curr ≠ "") := by
        unfold FTPFileSystem.atTop at htop; tauto
      simp [FTPFileSystem.collect, this]
    · have hlen : curr.length < fuel + 1 := by
        rcases h with h | h
        · exact absurd h.1 htop
        · exact h
      have hne : curr ≠ "." ∧ curr ≠ "/" ∧ curr ≠ "" := by
        unfold FTPFileSystem.atTop at htop; tauto
      have hpos : 0 < curr.length := by
        rcases hc : curr with ⟨l⟩
        cases l with
        | nil => exact absurd hc hne.2.2
        | cons a l => simp [String.length]
      have hnext : FTPFileSystem.atTop (path.Dir curr) ∧ 0 < fuel ∨
          (path.Dir curr).length < fuel := by
        rcases path.Dir_shorter curr with hd | hd | hd
        · exact Or.inl ⟨Or.inl hd, by omega⟩
        · exact Or.inl ⟨Or.inr (Or.inl hd), by omega⟩
        · exact Or.inr (by omega)
      obtain ⟨n, h1, h2, h3, h4⟩ := ih (path.Dir curr) (dirs ++ [curr]) hnext
      refine ⟨n + 1, by simpa [Function.iterate_succ] using h1, ?_, ?_, ?_⟩
      · intro i hi
        cases i with
        | zero => simpa using htop
        | succ i => simpa [Function.iterate_succ] using h2 i (by omega)
      · intro i hi
        cases i with
        | zero =>
          have hnt : ¬ FTPFileSystem.atTop (path.Dir curr) := by
            simpa using h2 0 (by omega)
          rcases path.Dir_shorter curr with hd | hd | hd
          · exact absurd (Or.inl hd) hnt
          · exact absurd (Or.inr (Or.inl hd)) hnt
          · simpa using hd
        | succ i => simpa [Function.iterate_succ] using h3 i (by omega)
      · simp only [FTPFileSystem.collect, hne, ne_eq, not_false_eq_true, and_self, if_true]
        rw [h4, List.range_succ_eq_map]
        simp [Function.iterate_succ, Function.comp_def]

theorem makeDirs_spec (c : ServerConn) (dirs : List String) (calls : List (String × Bool)) :
    ∃ cs, FTPFileSystem.makeDirs (some c) dirs calls = .ret none (calls ++ cs) ∧
      cs.map Prod.fst = dirs ∧
      ∀ pre d ok post, cs = pre ++ (d, ok) :: post →
        ok = (c.MakeDir (calls ++ pre) d).isNone := by
  induction dirs generalizing calls with
  | nil => exact ⟨[], by simp [FTPFileSystem.makeDirs], rfl, by simp⟩
  | cons d rest ih =>
    obtain ⟨cs, h1, h2, h3⟩ := ih (calls ++ [(d, (c.MakeDir calls d).isNone)])
    refine ⟨(d, (c.MakeDir calls d).isNone) :: cs, ?_, by simp [h2], ?_⟩
    · simp only [FTPFileSystem.makeDirs, h1]; simp
    · intro pre d1 ok post heq
      cases pre with
      | nil =>
        simp only [List.nil_append, List.cons.injEq, Prod.mk.injEq] at heq
        obtain ⟨⟨hd, hok⟩, -⟩ := heq
        subst hd; simp [← hok]
      | cons x pre =>
        simp only [List.cons_append, List.cons.injEq] at heq
        obtain ⟨hx, hcs⟩ := heq
        have := h3 pre d1 ok post hcs
        rw [this, ← hx]; simp

theorem chain_nodup (f : Nat → String) (n : Nat)
    (h : ∀ i, i + 1 < n → (f (i + 1)).length < (f i).length) :
    ((List.range n).map f).Nodup := by
  have hlt : ∀ j i, i < j → j < n → (f j).length < (f i).length := by
    intro j
    induction j with
    | zero => intro i hi; omega
    | succ j ih =>
      intro i hi hj
      have h1 := h j hj
      by_cases hij : i = j
      · subst hij; exact h1
      · exact Nat.lt_trans h1 (ih i (by omega) (by omega))
  refine List.Nodup.map_on ?_ (List.nodup_range n)
  intro i hi j hj hf
  simp only [List.mem_range] at hi hj
  by_contra hne
  rcases Nat.lt_or_gt_of_ne hne with hlt1 | hlt1
  · have := hlt j i hlt1 hj; rw [hf] at this; omega
  · have := hlt i j hlt1 hi; rw [hf] at this; omega

/-! ## The ledger through `Save` and `Load` -/

theorem entry_store (hm : HistoryManager) (taskName other : String) (th : Option TaskHistory)
    (h : hm.Tasks ≠ none) :
    (hm.store taskName th).entry other =
      if taskName = other then some th else hm.entry other := by
  unfold HistoryManager.store HistoryManager.entry
  cases ht : hm.Tasks with
  | none => exact absurd ht h
  | some tasks => simp [mapGet_mapSet]

/-- What `GetTaskHistory` does on a ledger whose map of tasks is not nil:
`GetTaskHistory(name)` returns what is stored under the name and leaves the ledger as it is,
or, when the name is not a key, returns a new history with an
empty, non-nil record map and inserts it under the name. A second call returns the same
history and changes nothing. What is stored under every other name stays as it was. And
after an `Add` through the returned pointer, the ledger that `Save` writes holds the new
record under the name, the next `GetTaskHistory(name)` returns the history with that record,
and the other names are still untouched. -/
theorem GetTaskHistory_stable (hm : HistoryManager) (name : String)
    (hmap : hm.Tasks ≠ none) :
    ∃ th hm1, hm.GetTaskHistory name = some (th, hm1) ∧
      ((hm.entry name = some th ∧ hm1 = hm) ∨
        (hm.entry name = none ∧ th = some ⟨some []⟩)) ∧
      hm1.entry name = some th ∧
      hm1.GetTaskHistory name = some (th, hm1) ∧
      (∀ other, other ≠ name → hm1.entry other = hm.entry other) ∧
      ∀ (w : World) (p : String) (tr : Trace) (s1 : St),
        TaskHistory.Add w p ⟨tr, th⟩ = .ret () s1 →
          (hm1.store name s1.history).timeOf name p = some (w.Now tr) ∧
          (hm1.store name s1.history).GetTaskHistory name =
            some (s1.history, hm1.store name s1.history) ∧
          ledgerTime s1.history p = some (w.Now tr) ∧
          ∀ other, other ≠ name → (hm1.store name s1.history).entry other = hm.entry other := by
  cases ht : hm.Tasks with
  | none => exact absurd ht hmap
  | some tasks =>
    have key : ∀ (th : Option TaskHistory) (hm1 : HistoryManager),
        hm1.Tasks ≠ none → (∀ other, other ≠ name → hm1.entry other = hm.entry other) →
        ∀ (w : World) (p : String) (tr : Trace) (s1 : St),
          TaskHistory.Add w p ⟨tr, th⟩ = .ret () s1 →
            (hm1.store name s1.history).timeOf name p = some (w.Now tr) ∧
            (hm1.store name s1.history).GetTaskHistory name =
              some (s1.history, hm1.store name s1.history) ∧
            ledgerTime s1.history p = some (w.Now tr) ∧
            ∀ other, other ≠ name →
              (hm1.store name s1.history).entry other = hm.entry other := by
      intro th hm1 h1 hother w p tr s1 hadd
      have hl : ledgerTime s1.history p = some (w.Now tr) := (Add_ret w p _ s1 () hadd).1
      refine ⟨by rw [timeOf_store _ _ _ _ h1]; exact hl, GetTaskHistory_store _ _ _ h1, hl, ?_⟩
      intro other ho
      rw [entry_store _ _ _ _ h1, if_neg (fun h => ho h.symm)]
      exact hother other ho
    cases hg : mapGet tasks name with
    | some th =>
      have hget : hm.GetTaskHistory name = some (th, hm) := by
        simp [HistoryManager.GetTaskHistory, ht, hg]
      have hent : hm.entry name = some th := by simp [HistoryManager.entry, ht, hg]
      exact ⟨th, hm, hget, Or.inl ⟨hent, rfl⟩, hent, hget, fun _ _ => rfl,
        key th hm hmap (fun _ _ => rfl)⟩
    | none =>
      have hget : hm.GetTaskHistory name = some (some ⟨some []⟩,
          { hm with Tasks := some (mapSet tasks name (some ⟨some []⟩)) }) := by
        simp [HistoryManager.GetTaskHistory, ht, hg]
      have hent : hm.entry name = none := by simp [HistoryManager.entry, ht, hg]
      have hother : ∀ other, other ≠ name →
          ({ hm with Tasks := some (mapSet tasks name (some ⟨some []⟩)) } :
            HistoryManager).entry other = hm.entry other := by
        intro other ho
        have hne : ¬ name = other := fun h => ho h.symm
        simp [HistoryManager.entry, ht, mapGet_mapSet, hne]
      refine ⟨_, _, hget, Or.inr ⟨hent, rfl⟩, ?_, ?_, hother, key _ _ (by simp) hother⟩
      · simp [HistoryManager.entry, mapGet_mapSet]
      · simp [HistoryManager.GetTaskHistory, mapGet_mapSet]

theorem mapGet_none_of_not_mem {β : Type} (m : List (String × β)) (k : String)
    (h : k ∉ m.map Prod.fst) : mapGet m k = none := by
  cases hg : mapGet m k with
  | none => rfl
  | some v => exact absurd (List.mem_map.2 ⟨(k, v), mapGet_mem m k v hg, rfl⟩) h

theorem mapGet_perm {β : Type} (l l1 : List (String × β)) (h : l.Perm l1)
    (hn : (l.map Prod.fst).Nodup) (k : String) : mapGet l k = mapGet l1 k := by
  induction h with
  | nil => rfl
  | cons x _ ih =>
    obtain ⟨a, b⟩ := x
    simp only [List.map_cons, List.nodup_cons] at hn
    simp only [mapGet, ih hn.2]
  | swap x y l =>
    obtain ⟨a, b⟩ := x
    obtain ⟨c, d⟩ := y
    simp only [List.map_cons, List.nodup_cons, List.mem_cons] at hn
    have hne : ¬ c = a := fun h => hn.1 (Or.inl h)
    by_cases h1 : a = k
    · have h2 : ¬ c = k := fun h => hne (h.trans h1.symm)
      simp [mapGet, h1, h2]
    · simp [mapGet, h1]
  | trans h1 _ ih1 ih2 =>
    rw [ih1 hn, ih2 ((h1.map Prod.fst).nodup_iff.1 hn)]

theorem mapSet_keys_nodup {β : Type} (m : List (String × β)) (k : String) (v : β)
    (h : (m.map Prod.fst).Nodup) : ((mapSet m k v).map Prod.fst).Nodup := by
  unfold mapSet
  simp only [List.map_cons, List.nodup_cons]
  refine ⟨?_, ?_⟩
  · intro hmem
    obtain ⟨e, he, hk⟩ := List.mem_map.1 hmem
    simp [List.mem_filter] at he
    exact he.2 hk
  · exact (List.filter_sublist m).map Prod.fst |>.nodup h

theorem mem_of_mem_mapSet {β : Type} (m : List (String × β)) (k : String) (v : β)
    (e : String × β) (h : e ∈ mapSet m k v) : e = (k, v) ∨ e ∈ m := by
  unfold mapSet at h
  rcases List.mem_cons.1 h with h | h
  · exact Or.inl h
  · exact Or.inr (List.mem_of_mem_filter h)

theorem mapEntries_spec {β : Type} (m : List (String × β)) :
    ((json.mapEntries m).map Prod.fst).Nodup ∧
      (∀ k, mapGet (json.mapEntries m) k = mapGet m k) ∧
      ∀ e ∈ json.mapEntries m, e ∈ m := by
  have hfold : ((m.foldr (fun e acc => mapSet acc e.1 e.2) []).map Prod.fst).Nodup ∧
      (∀ k, mapGet (m.foldr (fun e acc => mapSet acc e.1 e.2) []) k = mapGet m k) ∧
      ∀ e ∈ m.foldr (fun e acc => mapSet acc e.1 e.2) [], e ∈ m := by
    induction m with
    | nil => simp
    | cons x rest ih =>
      obtain ⟨a, b⟩ := x
      simp only [List.foldr_cons]
      refine ⟨mapSet_keys_nodup _ _ _ ih.1, ?_, ?_⟩
      · intro k
        rw [mapGet_mapSet, ih.2.1]
        simp [mapGet]
      · intro e he
        rcases mem_of_mem_mapSet _ _ _ _ he with h | h
        · exact h ▸ List.mem_cons_self _ _
        · exact List.mem_cons_of_mem _ (ih.2.2 e h)
  have hperm := List.perm_insertionSort (fun a b : String × β => json.keyLe a.1.data b.1.data = true)
    (m.foldr (fun e acc => mapSet acc e.1 e.2) [])
  unfold json.mapEntries
  refine ⟨(hperm.map Prod.fst).nodup_iff.2 hfold.1, ?_, ?_⟩
  · intro k
    rw [← hfold.2.1 k]
    exact (mapGet_perm _ _ hperm.symm hfold.1 k).symm
  · intro e he
    exact hfold.2.2 e (hperm.mem_iff.1 he)

/-- What a lookup finds after the pairs of `l` were assigned, one after the other, to `acc`. -/
theorem mapGet_foldl_mapSet {β : Type} (l acc : List (String × β)) (k : String)
    (hn : (l.map Prod.fst).Nodup) :
    mapGet (l.foldl (fun m e => mapSet m e.1 e.2) acc) k =
      match mapGet l k with
      | some v => some v
      | none => mapGet acc k := by
  induction l generalizing acc with
  | nil => simp [mapGet]
  | cons x rest ih =>
    obtain ⟨a, b⟩ := x
    simp only [List.map_cons, List.nodup_cons] at hn
    simp only [List.foldl_cons]
    rw [ih _ hn.2, mapGet_mapSet]
    by_cases h : a = k
    · subst h
      simp [mapGet, mapGet_none_of_not_mem rest a hn.1]
    · simp [mapGet, h]

theorem unmarshal_marshalRecords (w : World) (l : List (String × Time))
    (members : List (String × Json)) (acc : List (String × Time))
    (hv : ∀ e ∈ l, json.coerce e.1 = e.1) (h : json.marshalRecords w l = .ok members) :
    json.unmarshalRecordsInto w members acc =
      .ok (l.foldl (fun m e => mapSet m e.1 e.2) acc) := by
  induction l generalizing members acc with
  | nil =>
    simp only [json.marshalRecords, Except.ok.injEq] at h
    subst h
    rfl
  | cons x rest ih =>
    obtain ⟨p, t⟩ := x
    simp only [json.marshalRecords] at h
    cases hf : w.FormatTime t with
    | none => simp [hf] at h
    | some stamp =>
      cases hr : json.marshalRecords w rest with
      | error e => simp [hf, hr] at h
      | ok ms =>
        simp only [hf, hr, Except.ok.injEq] at h
        subst h
        have hp : json.coerce p = p := hv (p, t) (List.mem_cons_self _ _)
        simp only [json.unmarshalRecordsInto, json.unmarshalTime, w.parse_format t stamp hf, hp,
          List.foldl_cons]
        exact ih ms _ (fun e he => hv e (List.mem_cons_of_mem _ he)) hr

theorem unmarshal_marshalTask (w : World) (th : Option TaskHistory) (v : Json)
    (hv : ∀ e ∈ recordsOf th, json.coerce e.1 = e.1) (h : json.marshalTask w th = .ok v) :
    ∃ th1, json.unmarshalTask w v = .ok th1 ∧ ∀ p, ledgerTime th1 p = ledgerTime th p := by
  cases th with
  | none =>
    simp only [json.marshalTask, Except.ok.injEq] at h
    subst h
    exact ⟨none, rfl, fun _ => rfl⟩
  | some t =>
    obtain ⟨recs⟩ := t
    cases recs with
    | none =>
      simp only [json.marshalTask, Except.ok.injEq] at h
      subst h
      have hf : json.isRecordsField "records" = true := by decide
      exact ⟨some ⟨none⟩,
        by simp [json.unmarshalTask, json.unmarshalFields, hf, json.unmarshalRecords],
        fun _ => rfl⟩
    | some r =>
      simp only [json.marshalTask] at h
      cases hr : json.marshalRecords w (json.mapEntries r) with
      | error e => simp [hr] at h
      | ok ms =>
        simp only [hr, Except.ok.injEq] at h
        subst h
        obtain ⟨hnodup, hget, hmem⟩ := mapEntries_spec r
        have hrt := unmarshal_marshalRecords w (json.mapEntries r) ms []
          (fun e he => hv e (hmem e he)) hr
        refine ⟨some ⟨some ((json.mapEntries r).foldl (fun m e => mapSet m e.1 e.2) [])⟩, ?_, ?_⟩
        · have hf : json.isRecordsField "records" = true := by decide
          simp [json.unmarshalTask, json.unmarshalFields, hf, json.unmarshalRecords, hrt]
        · intro p
          simp only [ledgerTime, recordsOf]
          rw [mapGet_foldl_mapSet _ _ _ hnodup, hget]
          cases mapGet r p <;> simp [mapGet]

theorem unmarshal_marshalTasks (w : World) (l : List (String × Option TaskHistory))
    (members : List (String × Json)) (acc : List (String × Option TaskHistory))
    (hv : ∀ e ∈ l, json.coerce e.1 = e.1 ∧ ∀ r ∈ recordsOf e.2, json.coerce r.1 = r.1)
    (h : json.marshalTasks w l = .ok members) :
    ∃ l1, json.unmarshalTasksInto w members acc =
        .ok (l1.foldl (fun m e => mapSet m e.1 e.2) acc) ∧
      l1.map Prod.fst = l.map Prod.fst ∧
      ∀ k, (mapGet l k = none ∧ mapGet l1 k = none) ∨
        ∃ th th1, mapGet l k = some th ∧ mapGet l1 k = some th1 ∧
          ∀ p, ledgerTime th1 p = ledgerTime th p := by
  induction l generalizing members acc with
  | nil =>
    simp only [json.marshalTasks, Except.ok.injEq] at h
    subst h
    exact ⟨[], rfl, rfl, fun _ => Or.inl ⟨rfl, rfl⟩⟩
  | cons x rest ih =>
    obtain ⟨name, th⟩ := x
    simp only [json.marshalTasks] at h
    cases ht : json.marshalTask w th with
    | error e => simp [ht] at h
    | ok v =>
      cases hr : json.marshalTasks w rest with
      | error e => simp [ht, hr] at h
      | ok ms =>
        simp only [ht, hr, Except.ok.injEq] at h
        subst h
        obtain ⟨hname, hrecs⟩ := hv (name, th) (List.mem_cons_self _ _)
        obtain ⟨th1, hth1, hsame⟩ := unmarshal_marshalTask w th v hrecs ht
        obtain ⟨l1, hl1, hkeys, hlook⟩ := ih ms (mapSet acc name th1)
          (fun e he => hv e (List.mem_cons_of_mem _ he)) hr
        refine ⟨(name, th1) :: l1, ?_, by simp [hkeys], ?_⟩
        · simp only [json.unmarshalTasksInto, hname, hth1, List.foldl_cons]
          exact hl1
        · intro k
          by_cases hk : name = k
          · exact Or.inr ⟨th, th1, by simp [mapGet, hk], by simp [mapGet, hk], hsame⟩
          · simpa [mapGet, hk] using hlook k

theorem validNames_spec (hm : HistoryManager) (tasks : List (String × Option TaskHistory))
    (ht : hm.Tasks = some tasks) (h : hm.validNames = true) :
    ∀ e ∈ tasks, json.coerce e.1 = e.1 ∧ ∀ r ∈ recordsOf e.2, json.coerce r.1 = r.1 := by
  intro e he
  simp only [HistoryManager.validNames, ht, List.all_eq_true, Bool.and_eq_true,
    decide_eq_true_eq] at h
  exact h e he

/-! ## The claims -/

/-- C1 (dedup correctness). A relative path `P` that has a ledger entry when `processDirectory`
starts, from any directory, is never handed to `transferFile` by that traversal, never opened
on the source and never created on the target, whatever the source lists for it; and the same
holds of a whole `RunTask` whose ledger has an entry for `P` under the task name. -/
theorem C1_dedup_never_retransfers (w : World) (task : Task) (fuel : Nat) (P relPath : String)
    (s : St) (rs : RunState) (hs : TaskHistory.Has s.history P = some true)
    (hrs : (rs.hm.timeOf task.Name P).isSome = true) :
    (∀ ev ∈ newEvents s.trace (processDirectory w task fuel relPath s).state.trace,
      ev ≠ Event.TransferFile P ∧ (∀ ok, ev ≠ Event.OpenFile .src P ok) ∧
        ∀ ok, ev ≠ Event.CreateFile .dst P ok) ∧
    (∀ ev ∈ newEvents rs.trace (RunTask w fuel task rs).state.trace,
      ev ≠ Event.TransferFile P ∧ (∀ ok, ev ≠ Event.OpenFile .src P ok) ∧
        ∀ ok, ev ≠ Event.CreateFile .dst P ok) := by
  constructor
  · intro ev hev
    exact (transferOf_ne_iff ev P).1 (onlyNew_newEvents _ _ _
      (dedup_onlyNew w task fuel P relPath s ((Has_eq_ledgerTime _ _).1 hs)) ev hev)
  · intro ev hev
    refine (transferOf_ne_iff ev P).1 (onlyNew_newEvents (fun ev => ev.transferOf ≠ some P) _ _
      (RunTask_onlyNew _ w fuel task rs
      ?_ (fun t => by simp [Event.transferOf]) (fun p ok => by simp [Event.transferOf])
      (fun p ok => by simp [Event.transferOf]) ?_) ev hev)
    · intro e he
      cases e <;> simp_all [Event.isFrame, Event.transferOf]
    · intro history hm1 hg
      have := (GetTaskHistory_tasks _ _ _ _ hg).2 P
      exact dedup_onlyNew w task fuel P "" (traversalStart rs history)
        (by show (ledgerTime history P).isSome = true; rw [← this]; exact hrs)

/-- Witness of C1: with `a.csv.bak` recorded, neither the traversal of the example source nor the whole run transfers it. -/
theorem C1_dedup_never_retransfers_witness :
    TaskHistory.Has demoSt.history "a.csv.bak" = some true ∧
    (demoRun.hm.timeOf demoTask.Name "a.csv.bak").isSome = true ∧
    ((∀ ev ∈ newEvents demoSt.trace (processDirectory demoWorld demoTask 5 "" demoSt).state.trace,
      ev ≠ Event.TransferFile "a.csv.bak" ∧ (∀ ok, ev ≠ Event.OpenFile .src "a.csv.bak" ok) ∧
        ∀ ok, ev ≠ Event.CreateFile .dst "a.csv.bak" ok) ∧
    (∀ ev ∈ newEvents demoRun.trace (RunTask demoWorld 5 demoTask demoRun).state.trace,
      ev ≠ Event.TransferFile "a.csv.bak" ∧ (∀ ok, ev ≠ Event.OpenFile .src "a.csv.bak" ok) ∧
        ∀ ok, ev ≠ Event.CreateFile .dst "a.csv.bak" ok)) :=
  ⟨by decide, by decide,
    C1_dedup_never_retransfers demoWorld demoTask 5 "a.csv.bak" "" demoSt demoRun
      (by decide) (by decide)⟩

/-- C2 (ledger entries are created only by completed file copies). In a run of
`processDirectory`, a path that has a record afterwards and had none before is the relative
path of an entry that the run listed, that is not a directory, and that the run transferred
with success: `transferFile` was entered for it, and `MkdirAll` of the parent (unless the root),
`Open`, `Create` and the copy all succeeded. And a path for which the run made no successful
copy has exactly the record it had before: a failed transfer adds nothing. -/
theorem C2_ledger_only_from_completed_copies (w : World) (task : Task) (fuel : Nat)
    (relPath : String) (s : St) (P : String) (hold : ledgerTime s.history P = none)
    (hnew : (ledgerTime (processDirectory w task fuel relPath s).state.history P).isSome = true) :
    (listedFile s.trace (processDirectory w task fuel relPath s).state.trace P ∧
      copiedIn (newEvents s.trace (processDirectory w task fuel relPath s).state.trace) P) ∧
    ∀ Q, Event.Copy Q true ∉
        newEvents s.trace (processDirectory w task fuel relPath s).state.trace →
      ledgerTime (processDirectory w task fuel relPath s).state.history Q =
        ledgerTime s.history Q := by
  obtain ⟨evs, htr, hk⟩ := grownRel_processDirectory w task fuel relPath s
  rw [htr, newEvents_append]
  constructor
  · rcases hk P with h | ⟨-, hl, hc⟩
    · rw [h, hold] at hnew
      simp at hnew
    · rw [htr] at hl
      exact ⟨hl, hc⟩
  · intro Q hQ
    rcases hk Q with h | ⟨-, -, hc⟩
    · exact h
    · exact absurd hc.2.2.2.1 hQ

/-- Witness of C2: in the example run `sub/x.csv` is new in the ledger, and the run holds its complete successful transfer. -/
theorem C2_ledger_only_from_completed_copies_witness :
    ledgerTime (St.mk [] (some ⟨some []⟩)).history "sub/x.csv" = none ∧
    (ledgerTime (processDirectory demoWorld demoTask 5 "" ⟨[], some ⟨some []⟩⟩).state.history
      "sub/x.csv").isSome = true ∧
    copiedIn (newEvents [] (processDirectory demoWorld demoTask 5 "" ⟨[], some ⟨some []⟩⟩).state.trace)
      "sub/x.csv" :=
  ⟨by decide, by decide,
    (C2_ledger_only_from_completed_copies demoWorld demoTask 5 "" ⟨[], some ⟨some []⟩⟩
      "sub/x.csv" (by decide) (by decide)).1.2⟩

/-- C3, as stated, fails: with the pattern `csv` the file `a.csv.bak` is let past the regex
filter and handed to `transferFile`, although the pattern does not match the entire base name
(the name merely contains a match). -/
theorem C3_counterexample :
    (match demoWorld.Compile demoTask.SourceRegex with
      | .ok re => !re.fullMatch "a.csv.bak"
      | .error _ => false) = true ∧
    Event.TransferFile "a.csv.bak" ∈
      (processDirectory demoWorld demoTask 5 "" ⟨[], some ⟨some []⟩⟩).state.trace := by
  decide

/-- C3, amended (the regex filter is an unanchored search on the base name). For a file entry
of any directory `relPath` and the compiled pattern `regex`: if `regex.MatchString entry.Name`
is false the loop body skips the file and nothing happens; if it is true the file is let past
the filter, so that `transferFile` is entered for it when it is not stale and not recorded;
the test is on `entry.Name` alone, whatever the directory; `MatchString` holds exactly when the
pattern matches some stretch of the name, in particular when it matches the entire name; and
over a whole traversal `transferFile` is entered only for listed files whose base name the
pattern matches somewhere. -/
theorem C3_regex_filter_unanchored (w : World) (task : Task) (regex : Regexp)
    (recurse : String → St → Res (Option String)) (relPath : String) (entry : FileEntry)
    (s : St) (hfile : entry.IsDir = false) :
    (regex.MatchString entry.Name = false →
      processEntry w task regex recurse relPath entry s = .ret () s) ∧
    (¬ isStale w task entry s →
      TaskHistory.Has s.history (path.Join [relPath, entry.Name]) = some false →
      (Event.TransferFile (path.Join [relPath, entry.Name]) ∈
          newEvents s.trace (processEntry w task regex recurse relPath entry s).state.trace ↔
        regex.MatchString entry.Name = true)) ∧
    (regex.MatchString entry.Name = true ↔
      ∃ i j, i ≤ j ∧ j ≤ entry.Name.data.length ∧ regex.matchAt entry.Name.data i j = true) ∧
    (regex.fullMatch entry.Name = true → regex.MatchString entry.Name = true) ∧
    (∀ fuel dir P, Event.TransferFile P ∈
        newEvents s.trace (processDirectory w task fuel dir s).state.trace →
      matchedFile w task s.trace (processDirectory w task fuel dir s).state.trace P) := by
  have hbody : processEntry w task regex recurse relPath entry s =
      processFile w task regex (path.Join [relPath, entry.Name]) entry s := by
    unfold processEntry
    simp [hfile]
  refine ⟨?_, ?_, MatchString_iff regex entry.Name, ?_, ?_⟩
  · intro hm
    rw [hbody, processFile_eq]
    simp [hm]
  · intro hst hH
    rw [hbody, processFile_transferFile_mem]
    constructor
    · exact fun h => h.2.1
    · exact fun h => ⟨rfl, h, hst, hH⟩
  · intro hfull
    exact (MatchString_iff regex entry.Name).2 ⟨0, entry.Name.data.length, Nat.zero_le _,
      Nat.le_refl _, hfull⟩
  · intro fuel dir P hP
    obtain ⟨evs, htr, hk⟩ := matchedRel_processDirectory w task fuel dir s
    rw [htr, newEvents_append] at hP
    exact hk P hP

/-- Witness of C3 amended: `a.csv.bak`, fresh and not recorded, is handed to `transferFile` exactly because `csv` matches inside its name. -/
theorem C3_regex_filter_unanchored_witness :
    (FileEntry.mk "a.csv.bak" 1 0 false "a.csv.bak").IsDir = false ∧
    (Event.TransferFile (path.Join ["", "a.csv.bak"]) ∈
        newEvents [] (processEntry demoWorld demoTask (literal ['c', 's', 'v'])
          (processDirectory demoWorld demoTask 4) ""
          ⟨"a.csv.bak", 1, 0, false, "a.csv.bak"⟩ ⟨[], some ⟨some []⟩⟩).state.trace ↔
      (literal ['c', 's', 'v']).MatchString "a.csv.bak" = true) :=
  ⟨rfl, (C3_regex_filter_unanchored demoWorld demoTask (literal ['c', 's', 'v'])
    (processDirectory demoWorld demoTask 4) "" ⟨"a.csv.bak", 1, 0, false, "a.csv.bak"⟩
    ⟨[], some ⟨some []⟩⟩ rfl).2.1 (by decide) (by decide)⟩

/-- C4 (retention cleanup removes exactly the aged, still-present entries). In a run of
`RunTask` whose filesystems initialised and whose history was obtained: `Remove(P)` is issued
on the target if and only if `retention_days > 0`, the traversal returned, the records at that
moment hold `P` with a time strictly before the cutoff (now minus `retention_days` days), and
`Stat(P)` on the target succeeded; with `retention_days <= 0` no `Stat` and no `Remove` is
issued at all; and every aged entry of the snapshot gets its `Stat`, whatever the `Stat` and
`Remove` of the other entries returned. -/
theorem C4_retention_cleanup (w : World) (fuel : Nat) (task : Task) (rs : RunState)
    (history : Option TaskHistory) (hm1 : HistoryManager)
    (hsrc : (createFileSystem w .src task.SourceType task.SourcePath task.SourceAuth
      rs.trace).1 = none)
    (hdst : (createFileSystem w .dst task.TargetType task.TargetPath task.TargetAuth
      (rs.trace ++ [Event.Init .src true])).1 = none)
    (hget : rs.hm.GetTaskHistory task.Name = some (history, hm1)) :
    (∀ P, (∃ ok, Event.Remove .dst P ok ∈ runEvents w fuel task rs) ↔
      (task.RetentionDays > 0 ∧
        ∃ a s1 t, processDirectory w task fuel "" (traversalStart rs history) = .ret a s1 ∧
          (P, t) ∈ recordsOf s1.history ∧ t < retentionCutoff w task s1 ∧
          Event.Stat .dst P true ∈ runEvents w fuel task rs)) ∧
    (task.RetentionDays ≤ 0 → ∀ P ok, Event.Stat .dst P ok ∉ runEvents w fuel task rs ∧
      Event.Remove .dst P ok ∉ runEvents w fuel task rs) ∧
    (task.RetentionDays > 0 →
      ∀ a s1, processDirectory w task fuel "" (traversalStart rs history) = .ret a s1 →
      ∀ P t, (P, t) ∈ recordsOf s1.history → t < retentionCutoff w task s1 →
        ∃ ok, Event.Stat .dst P ok ∈ runEvents w fuel task rs) := by
  obtain ⟨s1, s2, mid, hs1, hmid, hcase, hloc, -⟩ :=
    RunTask_stat_remove w fuel task rs history hm1 hsrc hdst hget
  have hst : ∀ P ok, (Event.Stat .dst P ok ∈ runEvents w fuel task rs ↔
      Event.Stat .dst P ok ∈ mid) := fun P ok => hloc _ ⟨P, ok, Or.inl rfl⟩
  have hrm : ∀ P ok, (Event.Remove .dst P ok ∈ runEvents w fuel task rs ↔
      Event.Remove .dst P ok ∈ mid) := fun P ok => hloc _ ⟨P, ok, Or.inr rfl⟩
  rcases hcase with ⟨hno, h21⟩ | ⟨⟨a, hret⟩, hpos, h2⟩
  · have hnil : mid = [] := by
      rw [h21] at hmid
      simpa using hmid
    refine ⟨?_, ?_, ?_⟩
    · intro P
      constructor
      · rintro ⟨ok, h⟩
        rw [hrm, hnil] at h
        simp at h
      · rintro ⟨-, -, -, -, -, -, -, h⟩
        rw [hst, hnil] at h
        simp at h
    · intro _ P ok
      rw [hst, hrm, hnil]
      simp
    · intro hpos a s3 hret
      rcases hno with h | h
      · have : s3 = s1 := by rw [hs1, hret]; rfl
        exact absurd ⟨a, this ▸ hret⟩ h
      · exact absurd hpos h
  · by_cases hh : s1.history = none
    · have hmid1 : mid = [Event.Now (w.Now s1.trace)] := by
        have : (cleanup w task s1).state.trace = s1.trace ++ [Event.Now (w.Now s1.trace)] := by
          unfold cleanup
          simp [hh]
        rw [h2, this] at hmid
        exact (List.append_cancel_left hmid).symm
      refine ⟨?_, ?_, ?_⟩
      · intro P
        constructor
        · rintro ⟨ok, h⟩
          rw [hrm, hmid1] at h
          simp at h
        · rintro ⟨-, -, -, -, -, -, -, h⟩
          rw [hst, hmid1] at h
          simp at h
      · intro hle
        exact absurd hpos (not_lt.2 hle)
      · intro _ a1 s3 hret1 P t hmem
        have : s3 = s1 := by rw [hs1, hret1]; rfl
        rw [this, hh] at hmem
        simp [recordsOf] at hmem
    · obtain ⟨u, s4, evs, hcl, htr, -, ha, hb, hc, hd⟩ := cleanup_events w task s1 hh
      have hmid1 : mid = Event.Now (w.Now s1.trace) :: evs := by
        rw [h2, hcl, Res.state_ret, htr] at hmid
        exact (List.append_cancel_left hmid).symm
      have hst1 : ∀ P ok, (Event.Stat .dst P ok ∈ runEvents w fuel task rs ↔
          Event.Stat .dst P ok ∈ evs) := by
        intro P ok
        rw [hst, hmid1]
        simp
      have hrm1 : ∀ P ok, (Event.Remove .dst P ok ∈ runEvents w fuel task rs ↔
          Event.Remove .dst P ok ∈ evs) := by
        intro P ok
        rw [hrm, hmid1]
        simp
      refine ⟨?_, ?_, ?_⟩
      · intro P
        constructor
        · rintro ⟨ok, h⟩
          rw [hrm1] at h
          have h1 := ha P ok h
          obtain ⟨t, ht1, ht2⟩ := hc P true h1
          exact ⟨hpos, a, s1, t, hret, ht1, ht2, (hst1 P true).2 h1⟩
        · rintro ⟨-, -, -, -, -, -, -, h⟩
          obtain ⟨ok, hok⟩ := hb P ((hst1 P true).1 h)
          exact ⟨ok, (hrm1 P ok).2 hok⟩
      · intro hle
        exact absurd hpos (not_lt.2 hle)
      · intro _ a1 s3 hret1 P t hmem hlt
        have : s3 = s1 := by rw [hs1, hret1]; rfl
        rw [this] at hmem hlt
        obtain ⟨ok, hok⟩ := hd P t hmem hlt
        exact ⟨ok, (hst1 P ok).2 hok⟩

/-- Witness of C4: with a retention of one day the aged file `old` is stat-ed and removed. -/
theorem C4_retention_cleanup_witness :
    (createFileSystem demoWorld .src retainTask.SourceType retainTask.SourcePath
      retainTask.SourceAuth oldRun.trace).1 = none ∧
    (createFileSystem demoWorld .dst retainTask.TargetType retainTask.TargetPath
      retainTask.TargetAuth (oldRun.trace ++ [Event.Init .src true])).1 = none ∧
    oldRun.hm.GetTaskHistory retainTask.Name = some (oldHistory, oldRun.hm) ∧
    ((∃ ok, Event.Remove .dst "old" ok ∈ runEvents demoWorld 5 retainTask oldRun) ↔
      (retainTask.RetentionDays > 0 ∧
        ∃ a s1 t, processDirectory demoWorld retainTask 5 "" (traversalStart oldRun oldHistory) =
            .ret a s1 ∧
          ("old", t) ∈ recordsOf s1.history ∧ t < retentionCutoff demoWorld retainTask s1 ∧
          Event.Stat .dst "old" true ∈ runEvents demoWorld 5 retainTask oldRun)) ∧
    Event.Remove .dst "old" true ∈ runEvents demoWorld 5 retainTask oldRun :=
  ⟨by decide, by decide, by decide,
    (C4_retention_cleanup demoWorld 5 retainTask oldRun oldHistory oldRun.hm (by decide)
      (by decide) (by decide)).1 "old", by decide⟩

/-- C5 (cleanup never touches the ledger). The history after `cleanup` is the history
before it, whatever `Stat` and `Remove` answered; hence a path whose copy a run removed
from the target still has its ledger entry at the end of that run, and a later run of the
task on that ledger, after any further events, transfers it no more. -/
theorem C5_cleanup_keeps_ledger (w : World) (fuel : Nat) (task : Task) (rs : RunState)
    (P : String) (ok : Bool) (hrem : Event.Remove .dst P ok ∈ runEvents w fuel task rs) :
    (∀ s, (cleanup w task s).state.history = s.history) ∧
    ((RunTask w fuel task rs).state.hm.timeOf task.Name P).isSome = true ∧
    (∀ fuel2 tr2, ∀ ev ∈ runEvents w fuel2 task ⟨tr2, (RunTask w fuel task rs).state.hm⟩,
      ev ≠ Event.TransferFile P ∧ (∀ ok2, ev ≠ Event.OpenFile .src P ok2) ∧
        ∀ ok2, ev ≠ Event.CreateFile .dst P ok2) := by
  obtain ⟨history, hm1, a, s1, t, hg, -, hmem, -, -, hhm⟩ :=
    RunTask_remove_origin w fuel task rs P ok hrem
  have hsome : ((RunTask w fuel task rs).state.hm.timeOf task.Name P).isSome = true := by
    rw [hhm, timeOf_store _ _ _ _ (GetTaskHistory_tasks _ _ _ _ hg).1]
    exact mapGet_isSome_of_mem _ _ _ hmem
  refine ⟨fun s => (cleanup_spec w task s).1, hsome, ?_⟩
  intro fuel2 tr2 ev hev
  refine (transferOf_ne_iff ev P).1 (onlyNew_newEvents (fun ev => ev.transferOf ≠ some P) _ _
    (RunTask_onlyNew _ w fuel2 task ⟨tr2, (RunTask w fuel task rs).state.hm⟩
    ?_ (fun t => by simp [Event.transferOf]) (fun p ok => by simp [Event.transferOf])
    (fun p ok => by simp [Event.transferOf]) ?_) ev hev)
  · intro e he
    cases e <;> simp_all [Event.isFrame, Event.transferOf]
  · intro history2 hm2 hg2
    have := (GetTaskHistory_tasks _ _ _ _ hg2).2 P
    exact dedup_onlyNew w task fuel2 P "" (traversalStart _ history2)
      (by show (ledgerTime history2 P).isSome = true; rw [← this]; exact hsome)

/-- Witness of C5: the run removes `old` from the target and its ledger entry is still there afterwards. -/
theorem C5_cleanup_keeps_ledger_witness :
    Event.Remove .dst "old" true ∈ runEvents demoWorld 5 retainTask oldRun ∧
    ((RunTask demoWorld 5 retainTask oldRun).state.hm.timeOf retainTask.Name "old").isSome =
      true :=
  ⟨by decide, (C5_cleanup_keeps_ledger demoWorld 5 retainTask oldRun "old" true
    (by decide)).2.1⟩

/-- C6 (staleness filter). For a file entry that passes the regex filter: if
`source_newer_days > 0` and the modification time is strictly before now minus that many
days, the loop body only reads the clock and skips the file; and for a file that is not
recorded, `transferFile` is not entered exactly in that case. So with
`source_newer_days <= 0` no file is skipped for its age, and a file modified exactly at the
cutoff is not skipped. -/
theorem C6_staleness_filter (w : World) (task : Task) (regex : Regexp)
    (recurse : String → St → Res (Option String)) (relPath : String) (entry : FileEntry)
    (s : St) (hfile : entry.IsDir = false) (hmatch : regex.MatchString entry.Name = true) :
    ((task.SourceNewerDays > 0 ∧
        entry.ModTime < w.AddDate (w.Now s.trace) 0 0 (-task.SourceNewerDays)) →
      processEntry w task regex recurse relPath entry s =
        .ret () (s.log (.Now (w.Now s.trace)))) ∧
    (TaskHistory.Has s.history (path.Join [relPath, entry.Name]) = some false →
      (Event.TransferFile (path.Join [relPath, entry.Name]) ∉
          newEvents s.trace (processEntry w task regex recurse relPath entry s).state.trace ↔
        (task.SourceNewerDays > 0 ∧
          entry.ModTime < w.AddDate (w.Now s.trace) 0 0 (-task.SourceNewerDays)))) ∧
    (task.SourceNewerDays ≤ 0 →
      TaskHistory.Has s.history (path.Join [relPath, entry.Name]) = some false →
      Event.TransferFile (path.Join [relPath, entry.Name]) ∈
        newEvents s.trace (processEntry w task regex recurse relPath entry s).state.trace) ∧
    (entry.ModTime = w.AddDate (w.Now s.trace) 0 0 (-task.SourceNewerDays) →
      TaskHistory.Has s.history (path.Join [relPath, entry.Name]) = some false →
      Event.TransferFile (path.Join [relPath, entry.Name]) ∈
        newEvents s.trace (processEntry w task regex recurse relPath entry s).state.trace) := by
  have hbody : processEntry w task regex recurse relPath entry s =
      processFile w task regex (path.Join [relPath, entry.Name]) entry s := by
    unfold processEntry
    simp [hfile]
  have hiff : ∀ (_ : TaskHistory.Has s.history (path.Join [relPath, entry.Name]) = some false),
      (Event.TransferFile (path.Join [relPath, entry.Name]) ∈
        newEvents s.trace (processEntry w task regex recurse relPath entry s).state.trace ↔
      ¬ isStale w task entry s) := by
    intro hH
    rw [hbody, processFile_transferFile_mem]
    exact ⟨fun h => h.2.2.1, fun h => ⟨rfl, hmatch, h, hH⟩⟩
  refine ⟨?_, ?_, ?_, ?_⟩
  · intro hst
    rw [hbody, processFile_eq]
    have h1 : isStale w task entry s := hst
    simp [hmatch, h1, afterClock, hst.1]
  · intro hH
    rw [hiff hH]
    exact not_not
  · intro hle hH
    rw [hiff hH]
    intro hst
    exact absurd hst.1 (not_lt.2 hle)
  · intro heq hH
    rw [hiff hH]
    intro hst
    have := hst.2
    rw [heq] at this
    exact lt_irrefl _ this

/-- Witness of C6: a file modified exactly at the cutoff is not skipped. -/
theorem C6_staleness_filter_witness :
    boundaryEntry.IsDir = false ∧
    (literal ['c', 's', 'v']).MatchString boundaryEntry.Name = true ∧
    boundaryEntry.ModTime = demoWorld.AddDate (demoWorld.Now []) 0 0 (-newerTask.SourceNewerDays) ∧
    Event.TransferFile (path.Join ["", boundaryEntry.Name]) ∈
      newEvents [] (processEntry demoWorld newerTask (literal ['c', 's', 'v'])
        (processDirectory demoWorld newerTask 4) "" boundaryEntry
        ⟨[], some ⟨some []⟩⟩).state.trace :=
  ⟨rfl, by decide, by decide,
    (C6_staleness_filter demoWorld newerTask (literal ['c', 's', 'v'])
      (processDirectory demoWorld newerTask 4) "" boundaryEntry ⟨[], some ⟨some []⟩⟩ rfl
      (by decide)).2.2.2 (by decide) (by decide)⟩

/-- The counterexample to C7 as it is written: a staleness cutoff that goes backwards under
a clock that does not. In `dstWorld` the clock only advances and the source always lists
the same file `a.csv`. The first run of `newerTask` finds the file older than now minus one
day, attempts no transfer and returns nil. The second run, on the ledger of the first,
computes its cutoff after the local clock was set back by an hour: the cutoff is earlier
than that of the first run, the file is not older than it, and the run enters `transferFile`
for `a.csv` and adds its ledger entry. -/
theorem C7_counterexample :
    (∀ tr evs, dstWorld.Now tr ≤ dstWorld.Now (tr ++ evs)) ∧
    (∀ tr tr1 p, dstWorld.src.List tr p = dstWorld.src.List tr1 p) ∧
    RunTask dstWorld 5 newerTask emptyRun = .ret none dstAfter ∧
    (∀ ev ∈ runEvents dstWorld 5 newerTask emptyRun, ev.transferFailed = false) ∧
    (∀ ev ∈ runEvents dstWorld 5 newerTask emptyRun, ev.transferOf = none) ∧
    Event.TransferFile "a.csv" ∈ runEvents dstWorld 5 newerTask dstAfter ∧
    dstAfter.hm.timeOf "t" "a.csv" = none ∧
    ((RunTask dstWorld 5 newerTask dstAfter).state.hm.timeOf "t" "a.csv").isSome = true :=
  ⟨fun tr evs => by
      show ((tr.length : Nat) : Int) ≤ ((tr ++ evs).length : Nat)
      rw [List.length_append]
      omega,
    fun _ _ _ => rfl, by decide, by decide, by decide, by decide, by decide, by decide⟩

/-- C7, amended (idempotence). Let a first run of `RunTask` return without error, every step of every
transfer it attempted having succeeded. Let the source list the same entries whenever it is
asked, and let neither the clock nor the cutoff computed from it (now minus a number of
days) go backwards. Then a second run of the task on the ledger left by the first run, after
any further events and with any recursion budget, never enters `transferFile`, and leaves
every ledger entry of every task as it was. -/
theorem C7_idempotence (w : World) (fuel fuel2 : Nat) (task : Task) (rs rs1 : RunState)
    (extra : Trace)
    (hlist : ∀ tr tr1 p, w.src.List tr p = w.src.List tr1 p)
    (hclock : ∀ tr evs, w.Now tr ≤ w.Now (tr ++ evs))
    (hdays : ∀ t t1 d, t ≤ t1 → w.AddDate t 0 0 d ≤ w.AddDate t1 0 0 d)
    (hrun1 : RunTask w fuel task rs = .ret none rs1)
    (hok : ∀ ev ∈ runEvents w fuel task rs, ev.transferFailed = false) :
    (∀ ev ∈ runEvents w fuel2 task ⟨rs1.trace ++ extra, rs1.hm⟩,
      ∀ P, ev ≠ Event.TransferFile P) ∧
    (∀ name p, (RunTask w fuel2 task ⟨rs1.trace ++ extra, rs1.hm⟩).state.hm.timeOf name p =
      rs1.hm.timeOf name p) := by
  obtain ⟨history, hm1, a, s1, s2, ok, hg, hpd, hh, ⟨mid, hmid⟩, hrs1⟩ :=
    RunTask_returns w fuel task rs rs1 hrun1
  have htasks := (GetTaskHistory_tasks _ _ _ _ hg).1
  obtain ⟨⟨pdevs, hpdevs⟩, -⟩ := laterThan_processDirectory w task fuel "" (traversalStart rs history)
  rw [hpd, Res.state_ret] at hpdevs
  have hhm : rs1.hm = hm1.store task.Name s1.history := by rw [hrs1, hh]
  have htr1 : rs1.trace = s1.trace ++ (mid ++ [Event.Save ok, Event.Close .dst,
      Event.Close .src]) := by
    rw [hrs1, hmid]
    simp
  have hok1 : ∀ ev ∈ newEvents (traversalStart rs history).trace s1.trace,
      ev.transferFailed = false := by
    intro ev hev
    apply hok
    unfold runEvents
    rw [hrun1]
    simp only [RunRes.state]
    rw [htr1, hpdevs] at *
    rw [newEvents_append] at hev
    simp only [traversalStart, List.append_assoc, newEvents_append]
    simp [hev]
  have hget2 : (RunState.mk (rs1.trace ++ extra) rs1.hm).hm.GetTaskHistory task.Name =
      some (s1.history, rs1.hm) := by
    simp only
    rw [hhm]
    exact GetTaskHistory_store hm1 task.Name s1.history htasks
  have hquiet : quiet (traversalStart ⟨rs1.trace ++ extra, rs1.hm⟩ s1.history)
      (processDirectory w task fuel2 ""
        (traversalStart ⟨rs1.trace ++ extra, rs1.hm⟩ s1.history)).state := by
    refine idem_dir w task hlist hclock hdays fuel "" (traversalStart rs history) s1 a hpd hok1
      fuel2 _ ⟨⟨mid ++ [Event.Save ok, Event.Close .dst, Event.Close .src] ++ extra ++
        [Event.Init .src true, Event.Init .dst true], ?_⟩, fun P h => h⟩
    simp only [traversalStart, htr1, List.append_assoc]
  constructor
  · refine onlyNew_newEvents (fun ev => ∀ P, ev ≠ Event.TransferFile P) _ _
      (RunTask_onlyNew _ w fuel2 task ⟨rs1.trace ++ extra, rs1.hm⟩ ?_ (fun t => by simp)
      (fun p ok => by simp) (fun p ok => by simp) ?_)
    · intro e he
      cases e <;> simp_all [Event.isFrame]
    · intro history2 hm2 hg2
      rw [hget2] at hg2
      simp only [Option.some.injEq, Prod.mk.injEq] at hg2
      rw [← hg2.1]
      exact hquiet.1
  · intro name p
    rcases RunTask_shape w fuel2 task ⟨rs1.trace ++ extra, rs1.hm⟩ with
      ⟨-, h, -⟩ | ⟨history2, hm2, t1, t2, hg2, -, -, ht1, ht2, hfin, -⟩
    · rw [h]
    · rw [hget2] at hg2
      simp only [Option.some.injEq, Prod.mk.injEq] at hg2
      obtain ⟨hh2, hm2eq⟩ := hg2
      subst hh2 hm2eq
      have ht2h : t2.history = s1.history := by
        have h1 : t1.history = s1.history := by rw [ht1]; exact hquiet.2
        rcases ht2 with ⟨-, h⟩ | ⟨-, -, h⟩
        · rw [h, h1]
        · rw [h, (cleanup_spec w task t1).1, h1]
      rw [hfin, ht2h]
      by_cases hn : task.Name = name
      · subst hn
        rw [timeOf_store _ _ _ _ (by rw [hhm]; exact store_tasks_ne_none _ _ _ htasks), hhm,
          timeOf_store _ _ _ _ htasks]
      · rw [timeOf_store_ne _ _ _ _ _ hn]

/-- Witness of C7: the first run of the example transfers its files without failure and returns nil; the second run enters `transferFile` for none. -/
theorem C7_idempotence_witness :
    RunTask demoWorld 5 demoTask emptyRun = .ret none afterFirstRun ∧
    (∀ ev ∈ runEvents demoWorld 5 demoTask emptyRun, ev.transferFailed = false) ∧
    (∀ ev ∈ runEvents demoWorld 5 demoTask ⟨afterFirstRun.trace ++ [], afterFirstRun.hm⟩,
      ∀ P, ev ≠ Event.TransferFile P) :=
  ⟨by decide, by decide,
    (C7_idempotence demoWorld 5 5 demoTask emptyRun afterFirstRun [] (fun _ _ _ => rfl)
      (fun tr evs => by
        show ((tr.length : Nat) : Int) ≤ ((tr ++ evs).length : Nat)
        rw [List.length_append]
        omega)
      (fun t t1 d h => by
        show t + d * 86400000000000 ≤ t1 + d * 86400000000000
        exact add_le_add_right h _)
      (by decide) (by decide)).1⟩

/-- C8 (partial-failure containment). Let `List` fail for the directory `D`. Then the loop
body for a subdirectory entry whose relative path is `D` returns normally, having only made
the failed listing, so the loop goes on with the next entry. The whole traversal of any other
directory in this world is, step for step, the traversal in the world where `D` lists as
empty: same calls with the same results, same records, same kind of ending and same return
value, the only difference being that the listing of `D` reads failed instead of empty. And
a traversal of a directory that lists and whose regex compiles returns no error. -/
theorem C8_partial_failure_containment (w : World) (D : String) (task : Task)
    (hfail : ∀ tr, ∃ err, w.src.List tr D = .error err) :
    (∀ fuel regex relPath (sub : FileEntry) s, sub.IsDir = true →
      path.Join [relPath, sub.Name] = D →
      processEntry w task regex (processDirectory w task (fuel + 1)) relPath sub s =
        .ret () (s.log (.ListDir .src D none))) ∧
    (∀ fuel relPath s, relPath ≠ D →
      processDirectory w task fuel relPath (s.seen D) =
        (processDirectory (w.withEmptyDir D) task fuel relPath s).seen D) ∧
    (∀ fuel relPath s, relPath ≠ D → (∀ ev ∈ s.trace, ev ≠ Event.ListDir .src D (some [])) →
      processDirectory w task fuel relPath s =
        (processDirectory (w.withEmptyDir D) task fuel relPath s).seen D) ∧
    (∀ fuel relPath s es regex a s1, w.src.List s.trace relPath = .ok es →
      w.Compile task.SourceRegex = .ok regex →
      processDirectory w task fuel relPath s = .ret a s1 → a = none) := by
  refine ⟨?_, ?_, ?_, ?_⟩
  · intro fuel regex relPath sub s hd hj
    obtain ⟨err, herr⟩ := hfail s.trace
    unfold processEntry
    simp only [hd, if_true, hj]
    unfold processDirectory
    simp [herr]
  · intro fuel relPath s hne
    exact (processDirectory_seen w D task hfail fuel relPath s).2 hne
  · intro fuel relPath s hne hs
    have h := (processDirectory_seen w D task hfail fuel relPath s).2 hne
    have hid : s.seen D = s := by
      unfold St.seen
      rw [seenFailed_id D s.trace hs]
    rw [hid] at h
    exact h
  · intro fuel relPath s es regex a s1 hl hc hret
    cases fuel with
    | zero => simp [processDirectory] at hret
    | succ fuel =>
      unfold processDirectory at hret
      simp only [hl, hc] at hret
      cases hp : processEntries (processEntry w task regex (processDirectory w task fuel)
          relPath) es (s.log (.ListDir .src relPath (some es))) with
      | ret u s2 =>
        simp only [hp, Res.ret.injEq] at hret
        exact hret.1.symm
      | panic s2 => simp [hp] at hret
      | diverge s2 => simp [hp] at hret

/-- Witness of C8: `bad` cannot be listed, the traversal of the root is the one of the world where `bad` is empty, and `z.csv`, listed after `bad`, is transferred. -/
theorem C8_partial_failure_containment_witness :
    (∀ tr, ∃ err, failWorld.src.List tr "bad" = .error err) ∧
    processDirectory failWorld demoTask 3 "" ⟨[], some ⟨some []⟩⟩ =
      (processDirectory (failWorld.withEmptyDir "bad") demoTask 3 ""
        ⟨[], some ⟨some []⟩⟩).seen "bad" ∧
    Event.TransferFile "z.csv" ∈
      (processDirectory failWorld demoTask 3 "" ⟨[], some ⟨some []⟩⟩).state.trace :=
  ⟨fun _ => ⟨"permission denied", rfl⟩,
    (C8_partial_failure_containment failWorld "bad" demoTask
      (fun _ => ⟨"permission denied", rfl⟩)).2.2.1 3 "" ⟨[], some ⟨some []⟩⟩ (by decide)
      (by simp),
    by decide⟩

/-- C9, as stated, fails: the pattern of the task does not compile, both filesystems
initialise, and `RunTask` returns nil. -/
theorem C9_counterexample :
    (match demoWorld.Compile badTask.SourceRegex with
      | .ok _ => false
      | .error _ => true) = true ∧
    (createFileSystem demoWorld .src badTask.SourceType badTask.SourcePath badTask.SourceAuth
      emptyRun.trace).1 = none ∧
    (createFileSystem demoWorld .dst badTask.TargetType badTask.TargetPath badTask.TargetAuth
      (emptyRun.trace ++ [Event.Init .src true])).1 = none ∧
    RunTask demoWorld 5 badTask emptyRun =
      .ret none (RunTask demoWorld 5 badTask emptyRun).state := by
  decide

/-- C9, amended (an invalid filter regex is logged, not returned). For a task whose pattern
does not compile, whose filesystems initialise and whose history is obtained, the traversal
of the root returns an error, and `RunTask`, which only logs that error, goes on to cleanup
and `Save` and returns nil (cleanup needing a history that is not a nil pointer when
`retention_days > 0`). -/
theorem C9_invalid_regex_returns_nil (w : World) (fuel : Nat) (task : Task) (rs : RunState)
    (history : Option TaskHistory) (hm1 : HistoryManager)
    (hcomp : ∃ err, w.Compile task.SourceRegex = .error err)
    (hsrc : (createFileSystem w .src task.SourceType task.SourcePath task.SourceAuth
      rs.trace).1 = none)
    (hdst : (createFileSystem w .dst task.TargetType task.TargetPath task.TargetAuth
      (rs.trace ++ [Event.Init .src true])).1 = none)
    (hget : rs.hm.GetTaskHistory task.Name = some (history, hm1))
    (hhist : history ≠ none ∨ task.RetentionDays ≤ 0) :
    (∃ err s1, processDirectory w task (fuel + 1) "" (traversalStart rs history) =
      .ret (some err) s1) ∧
    ∃ st, RunTask w (fuel + 1) task rs = .ret none st := by
  obtain ⟨err, r, hpd⟩ := processDirectory_invalid_regex w task fuel ""
    (traversalStart rs history) hcomp
  refine ⟨⟨err, _, hpd⟩, ?_⟩
  obtain ⟨s2, ok, -, -, hrun⟩ := RunTask_of_traversal w (fuel + 1) task rs history hm1 _ _
    hsrc hdst hget hpd hhist
  exact ⟨_, hrun⟩

/-- Witness of C9 amended: the pattern `(` does not compile and the run returns nil. -/
theorem C9_invalid_regex_returns_nil_witness :
    (∃ err, demoWorld.Compile badTask.SourceRegex = .error err) ∧
    ∃ st, RunTask demoWorld (4 + 1) badTask emptyRun = .ret none st :=
  ⟨⟨"error parsing regexp", rfl⟩,
    (C9_invalid_regex_returns_nil demoWorld 4 badTask emptyRun (some ⟨some []⟩)
      ⟨some [("t", some ⟨some []⟩)], "history.json"⟩ ⟨"error parsing regexp", rfl⟩
      (by decide) (by decide) (by decide) (Or.inl (by decide))).2⟩

/-- C10, as stated, fails: the pattern of the task does not compile, and yet `RunTask` lists
the source root, and, the retention being one day, stats and removes an aged file of the
target. -/
theorem C10_counterexample :
    (match demoWorld.Compile badRetainTask.SourceRegex with
      | .ok _ => false
      | .error _ => true) = true ∧
    (∃ r, Event.ListDir .src "" r ∈ runEvents demoWorld 5 badRetainTask oldRun) ∧
    Event.Stat .dst "old" true ∈ runEvents demoWorld 5 badRetainTask oldRun ∧
    Event.Remove .dst "old" true ∈ runEvents demoWorld 5 badRetainTask oldRun :=
  ⟨by decide, ⟨some [⟨"a.csv.bak", 1, 0, false, "a.csv.bak"⟩, ⟨"sub", 0, 0, true, "sub"⟩],
    by decide⟩, by decide, by decide⟩

/-- C10, amended (an invalid filter regex stops the traversal after the listing of the
root). For a task whose pattern does not compile, every call that `RunTask` makes is an
`Init`, a `Close`, the `Save`, the listing of the source root, or a clock reading, `Stat` or
`Remove` of cleanup: no `Open`, `Create`, `MkdirAll` or copy, and no listing below the root;
no ledger entry changes. When the filesystems initialise and the history is obtained, the
calls are exactly: the two `Init`, one listing of the source root (made before the pattern is
compiled), the calls of `cleanup` if `retention_days > 0`, the `Save` and the two `Close`. -/
theorem C10_invalid_regex_io (w : World) (fuel : Nat) (task : Task) (rs : RunState)
    (hcomp : ∃ err, w.Compile task.SourceRegex = .error err) :
    (∀ ev ∈ runEvents w fuel task rs, ev.isFrame ∨ (∃ t, ev = Event.Now t) ∨
      (∃ p ok, ev = Event.Stat .dst p ok ∨ ev = Event.Remove .dst p ok) ∨
      ∃ r, ev = Event.ListDir .src "" r) ∧
    (∀ name p, (RunTask w fuel task rs).state.hm.timeOf name p = rs.hm.timeOf name p) ∧
    (∀ history hm1,
      (createFileSystem w .src task.SourceType task.SourcePath task.SourceAuth
        rs.trace).1 = none →
      (createFileSystem w .dst task.TargetType task.TargetPath task.TargetAuth
        (rs.trace ++ [Event.Init .src true])).1 = none →
      rs.hm.GetTaskHistory task.Name = some (history, hm1) →
      (history ≠ none ∨ task.RetentionDays ≤ 0) →
      ∃ r ok, runEvents w (fuel + 1) task rs =
        [Event.Init .src true, Event.Init .dst true, Event.ListDir .src "" r] ++
        (if task.RetentionDays > 0 then
          newEvents ((traversalStart rs history).log (.ListDir .src "" r)).trace
            (cleanup w task ((traversalStart rs history).log (.ListDir .src "" r))).state.trace
          else []) ++
        [Event.Save ok, Event.Close .dst, Event.Close .src]) := by
  have hpd0 : ∀ fuel1 s, onlyNew (fun ev => ∃ r, ev = Event.ListDir .src "" r) s.trace
      (processDirectory w task fuel1 "" s).state.trace ∧
      (processDirectory w task fuel1 "" s).state.history = s.history := by
    intro fuel1 s
    cases fuel1 with
    | zero => exact ⟨onlyNew_refl _ _, rfl⟩
    | succ fuel1 =>
      obtain ⟨err, r, hpd⟩ := processDirectory_invalid_regex w task fuel1 "" s hcomp
      rw [hpd]
      exact ⟨onlyNew_append _ _ [_] (by simp), rfl⟩
  refine ⟨?_, ?_, ?_⟩
  · refine onlyNew_newEvents _ _ _ (RunTask_onlyNew _ w fuel task rs (fun ev h => Or.inl h)
      (fun t => Or.inr (Or.inl ⟨t, rfl⟩)) (fun p ok => Or.inr (Or.inr (Or.inl ⟨p, ok, Or.inl rfl⟩)))
      (fun p ok => Or.inr (Or.inr (Or.inl ⟨p, ok, Or.inr rfl⟩))) ?_)
    intro history hm1 _
    exact onlyNew_mono _ _ _ _ (fun ev h => Or.inr (Or.inr (Or.inr h)))
      (hpd0 fuel (traversalStart rs history)).1
  · intro name p
    rcases RunTask_shape w fuel task rs with
      ⟨-, h, -⟩ | ⟨history, hm1, s1, s2, hg, -, -, hs1, hs2, hfin, -⟩
    · rw [h]
    · have h1 : s1.history = history := by
        rw [hs1]
        exact (hpd0 fuel (traversalStart rs history)).2
      have h2 : s2.history = history := by
        rcases hs2 with ⟨-, h⟩ | ⟨-, -, h⟩
        · rw [h, h1]
        · rw [h, (cleanup_spec w task s1).1, h1]
      rw [hfin, h2]
      exact timeOf_store_same _ _ _ _ hg name p
  · intro history hm1 hsrc hdst hget hhist
    obtain ⟨err, r, hpd⟩ := processDirectory_invalid_regex w task fuel ""
      (traversalStart rs history) hcomp
    obtain ⟨s2, ok, hs2, -, hrun⟩ := RunTask_of_traversal w (fuel + 1) task rs history hm1 _ _
      hsrc hdst hget hpd hhist
    refine ⟨r, ok, ?_⟩
    unfold runEvents
    rw [hrun]
    simp only [RunRes.state]
    by_cases hr : task.RetentionDays > 0
    · simp only [hr, if_true] at hs2 ⊢
      obtain ⟨cevs, hcevs, -⟩ := (cleanup_spec w task
        ((traversalStart rs history).log (.ListDir .src "" r))).2
      rw [hs2, hcevs, newEvents_append]
      simp only [traversalStart, St.log_trace, List.append_assoc, newEvents_append]
      simp
    · simp only [hr, if_false] at hs2 ⊢
      rw [hs2]
      simp only [traversalStart, St.log_trace, List.append_assoc, newEvents_append]
      simp

/-- Witness of C10 amended: with the pattern `(` the run makes only framing calls, the listing of the root and the calls of cleanup. -/
theorem C10_invalid_regex_io_witness :
    (∃ err, demoWorld.Compile badRetainTask.SourceRegex = .error err) ∧
    ∀ ev ∈ runEvents demoWorld 5 badRetainTask oldRun, ev.isFrame ∨ (∃ t, ev = Event.Now t) ∨
      (∃ p ok, ev = Event.Stat .dst p ok ∨ ev = Event.Remove .dst p ok) ∨
      ∃ r, ev = Event.ListDir .src "" r :=
  ⟨⟨"error parsing regexp", rfl⟩,
    (C10_invalid_regex_io demoWorld 5 badRetainTask oldRun ⟨"error parsing regexp", rfl⟩).1⟩

/-- The counterexample to C11 as it is written: a path with a byte that belongs to no UTF-8
encoding. The ledger `binaryLedger` is reached by `GetTaskHistory` and `Add` from a new
manager and records the path `\xff.csv`; `Save` succeeds on it; `Load` on a new manager reads
what `Save` wrote without error; and the loaded ledger has no entry for that path (it has
one for the path that starts with U+FFFD instead). -/
theorem C11_counterexample :
    binaryLedger = ⟨some [("t", some ⟨some [("\xff.csv", 0)]⟩)], "history.json"⟩ ∧
    (binaryLedger.Save demoWorld []).1 = none ∧
    binaryLedger.timeOf "t" "\xff.csv" = some 0 ∧
    ∃ doc hm1, json.MarshalIndent demoWorld binaryLedger.Tasks = .ok doc ∧
      (NewHistoryManager binaryLedger.Path).Load demoWorld (.data (some doc)) = .ok hm1 ∧
      hm1.timeOf "t" "\xff.csv" = none ∧
      hm1.timeOf "t" "\xef\xbf\xbd.csv" = some 0 :=
  ⟨by decide, by decide, by decide, _, _, rfl, rfl, by decide, by decide⟩

/-- C11, amended (round trip of the ledger through `Save` and `Load`). For every ledger whose
task names and paths are valid UTF-8 and on which `Save` succeeds: `MarshalIndent` gave a
text, and `Load` on a new manager with the same path, reading that text, succeeds with a
ledger that has the same task names, and under each task name the same paths with the
same instants. -/
theorem C11_round_trip_valid_names (w : World) (hm : HistoryManager) (tr : Trace)
    (hvalid : hm.validNames = true) (hsave : (hm.Save w tr).1 = none) :
    ∃ doc hm1, json.MarshalIndent w hm.Tasks = .ok doc ∧
      (NewHistoryManager hm.Path).Load w (.data (some doc)) = .ok hm1 ∧
      hm1.Path = hm.Path ∧
      (∀ name, (hm1.entry name).isSome = (hm.entry name).isSome) ∧
      ∀ name p, hm1.timeOf name p = hm.timeOf name p := by
  cases ht : hm.Tasks with
  | none =>
    refine ⟨.null, ⟨none, hm.Path⟩, rfl, rfl, rfl, ?_, ?_⟩
    · intro name; simp [HistoryManager.entry, ht]
    · intro name p; simp [HistoryManager.timeOf, ht]
  | some tasks =>
    obtain ⟨hnodup, hget, hmem⟩ := mapEntries_spec tasks
    cases hm' : json.marshalTasks w (json.mapEntries tasks) with
    | error e =>
      simp [HistoryManager.Save, HistoryManager.saveError, json.MarshalIndent, ht, hm'] at hsave
    | ok ms =>
      obtain ⟨l1, hl1, hkeys, hlook⟩ := unmarshal_marshalTasks w (json.mapEntries tasks) ms []
        (fun e he => validNames_spec hm tasks ht hvalid e (hmem e he)) hm'
      have hfind : ∀ k, mapGet (l1.foldl (fun m e => mapSet m e.1 e.2) []) k = mapGet l1 k := by
        intro k
        rw [mapGet_foldl_mapSet _ _ _ (by rw [hkeys]; exact hnodup)]
        cases mapGet l1 k <;> simp [mapGet]
      refine ⟨.object ms, ⟨some (l1.foldl (fun m e => mapSet m e.1 e.2) []), hm.Path⟩, ?_, ?_,
        rfl, ?_, ?_⟩
      · simp [json.MarshalIndent, hm']
      · simp [HistoryManager.Load, NewHistoryManager, json.Unmarshal, hl1]
      · intro name
        simp only [HistoryManager.entry, ht, hfind]
        rcases hlook name with ⟨h1, h2⟩ | ⟨th, th1, h1, h2, -⟩
        · rw [h2, ← hget, h1]
        · rw [h2, ← hget, h1]; rfl
      · intro name p
        simp only [HistoryManager.timeOf, ht, hfind]
        rcases hlook name with ⟨h1, h2⟩ | ⟨th, th1, h1, h2, h3⟩
        · rw [h2, ← hget, h1]
        · rw [h2, ← hget, h1]; exact h3 p

/-- Witness of C11: the ledger after the first run of the example is written and read back with the entry of `sub/x.csv` at the same instant. -/
theorem C11_round_trip_valid_names_witness :
    afterFirstRun.hm.validNames = true ∧
    (afterFirstRun.hm.Save demoWorld afterFirstRun.trace).1 = none ∧
    (afterFirstRun.hm.timeOf "t" "sub/x.csv").isSome = true ∧
    ∃ doc hm1, json.MarshalIndent demoWorld afterFirstRun.hm.Tasks = .ok doc ∧
      (NewHistoryManager afterFirstRun.hm.Path).Load demoWorld (.data (some doc)) = .ok hm1 ∧
      ∀ name p, hm1.timeOf name p = afterFirstRun.hm.timeOf name p :=
  ⟨by decide, by decide, by decide,
    (C11_round_trip_valid_names demoWorld afterFirstRun.hm afterFirstRun.trace (by decide)
      (by decide)).imp fun _ h => h.imp fun _ h => ⟨h.1, h.2.1, h.2.2.2.2⟩⟩

/-- C12, evaluated on the ledger that `Load` leaves after reading a file whose content is
`null`: `Load` returns nil, no history is stored under the name `t`, and `GetTaskHistory`
neither inserts nor returns a new history: its insertion writes to the nil map of tasks and
panics. -/
theorem C12_nil_map_panics :
    ∃ hm, (NewHistoryManager "history.json").Load demoWorld nullFile = .ok hm ∧
      hm.entry "t" = none ∧
      hm.GetTaskHistory "t" = none :=
  ⟨⟨none, "history.json"⟩, rfl, by decide, by decide⟩

/-- C13 (FTP `MkdirAll` synthesises create-parents). On an initialised FTP filesystem, with
`full = path.Join(RootPath, relPath)`, `MkdirAll` returns, and returns nil, whatever the
`MakeDir` calls answer. Its calls are `full`, the parent of `full`, the parent of that, and so
on, for all of the `n` levels below the first of `.`, `/` and the empty path, made in the
reverse order (the shallowest first, `full` last); each level is strictly shorter than the
one below it, so no directory is created twice. -/
theorem C13_ftp_mkdirall_chain (RootPath relPath : String) (c : ServerConn) (fuel : Nat)
    (hfuel : (path.Join [RootPath, relPath]).length < fuel) :
    ∃ n calls,
      (⟨RootPath, some c⟩ : FTPFileSystem).MkdirAll fuel relPath = .ret none calls ∧
      calls.map Prod.fst =
        ((List.range n).map (fun i => path.Dir^[i] (path.Join [RootPath, relPath]))).reverse ∧
      FTPFileSystem.atTop (path.Dir^[n] (path.Join [RootPath, relPath])) ∧
      (∀ i, i < n → ¬ FTPFileSystem.atTop (path.Dir^[i] (path.Join [RootPath, relPath]))) ∧
      (∀ i, i + 1 < n → (path.Dir^[i + 1] (path.Join [RootPath, relPath])).length <
        (path.Dir^[i] (path.Join [RootPath, relPath])).length) ∧
      (calls.map Prod.fst).Nodup ∧
      ∀ pre d ok post, calls = pre ++ (d, ok) :: post → ok = (c.MakeDir pre d).isNone := by
  obtain ⟨n, h1, h2, h3, h4⟩ :=
    collect_spec fuel (path.Join [RootPath, relPath]) [] (Or.inr hfuel)
  obtain ⟨cs, h5, h6, h7⟩ := makeDirs_spec c
    ((List.range n).map (fun i => path.Dir^[i] (path.Join [RootPath, relPath]))).reverse []
  refine ⟨n, cs, ?_, h6, h1, h2, h3, ?_, ?_⟩
  · simp only [FTPFileSystem.MkdirAll, h4, List.nil_append, h5]
  · rw [h6, List.nodup_reverse]
    exact chain_nodup _ n h3
  · intro pre d ok post heq
    simpa using h7 pre d ok post heq

/-- Witness of C13: under the root `/data`, the path `a/b` costs three calls, from `/data` down to `/data/a/b`, and nil is returned although each call fails. -/
theorem C13_ftp_mkdirall_chain_witness :
    (path.Join ["/data", "a/b"]).length < 20 ∧
    (⟨"/data", some refusingConn⟩ : FTPFileSystem).MkdirAll 20 "a/b" =
      .ret none [("/data", false), ("/data/a", false), ("/data/a/b", false)] ∧
    ∃ n calls,
      (⟨"/data", some refusingConn⟩ : FTPFileSystem).MkdirAll 20 "a/b" = .ret none calls ∧
      calls.map Prod.fst =
        ((List.range n).map (fun i => path.Dir^[i] (path.Join ["/data", "a/b"]))).reverse :=
  ⟨by decide, by decide,
    (C13_ftp_mkdirall_chain "/data" "a/b" refusingConn 20 (by decide)).imp
      fun _ h => h.imp fun _ h => ⟨h.1, h.2.1⟩⟩

/-- C14 (a run never rewrites or drops a ledger entry). Whatever the environment answers and
however the run ends (return, panic, or a traversal that never returns), a path that had a
ledger entry under some task name before the run has an entry under that name afterwards,
with the identical timestamp: `Add` is only reached for paths without an entry, `cleanup`
leaves the history alone, and the entries of other tasks are not touched. -/
theorem C14_run_keeps_ledger_entries (w : World) (fuel : Nat) (task : Task) (rs : RunState)
    (name P : String) (t : Time) (h : rs.hm.timeOf name P = some t) :
    (RunTask w fuel task rs).state.hm.timeOf name P = some t := by
  rcases RunTask_shape w fuel task rs with ⟨-, hhm, -⟩ | ⟨history, hm1, s1, s2, hg, -, -, hs1,
    hs2, hhm, -⟩
  · rw [hhm]; exact h
  · have hhist : s2.history = s1.history := by
      rcases hs2 with ⟨-, h2⟩ | ⟨-, -, h2⟩
      · rw [h2]
      · rw [h2]; exact (cleanup_spec w task s1).1
    rw [hhm, hhist]
    by_cases hn : task.Name = name
    · subst hn
      rw [timeOf_store _ _ _ _ (GetTaskHistory_tasks _ _ _ _ hg).1]
      have h0 : ledgerTime history P = some t := by
        rw [← (GetTaskHistory_tasks _ _ _ _ hg).2 P]; exact h
      obtain ⟨evs, -, hgrown⟩ := grownRel_processDirectory w task fuel ""
        (traversalStart rs history)
      rw [hs1]
      rcases hgrown P with h1 | ⟨h1, -⟩
      · rw [h1]; exact h0
      · have h1' : ledgerTime history P = none := h1
        rw [h0] at h1'; cases h1'
    · rw [timeOf_store_ne _ _ _ _ _ hn, GetTaskHistory_timeOf_ne _ _ _ _ _ _ hg hn]
      exact h

/-- Witness of C14: the entry of `a.csv.bak` is still there, with its time, after a run that adds an entry for `sub/x.csv`. -/
theorem C14_run_keeps_ledger_entries_witness :
    demoRun.hm.timeOf "t" "a.csv.bak" = some 5 ∧
    (RunTask demoWorld 5 demoTask demoRun).state.hm.timeOf "t" "a.csv.bak" = some 5 ∧
    ((RunTask demoWorld 5 demoTask demoRun).state.hm.timeOf "t" "sub/x.csv").isSome = true :=
  ⟨by decide, C14_run_keeps_ledger_entries demoWorld 5 demoTask demoRun "t" "a.csv.bak" 5
    (by decide), by decide⟩

/-- C15, evaluated on three ledger files that `Load` accepts. With `null` under the task
`t`, `GetTaskHistory("t")` returns the nil pointer, on which `Has` and `Add` panic. With an
object without `records` under `t`, the history has a nil `Records` map: `Has` answers
false and `Add` panics. With the content `null`, the map of tasks is nil and
`GetTaskHistory` itself panics. Each time the run of the task `t` panics. -/
theorem C15_load_leaves_unusable_histories :
    (∃ hm, (NewHistoryManager "history.json").Load demoWorld nullTaskFile = .ok hm ∧
      hm.GetTaskHistory "t" = some (none, hm) ∧
      TaskHistory.Has none "a.csv.bak" = none ∧
      TaskHistory.Add demoWorld "a.csv.bak" ⟨[], none⟩ = .panic ⟨[], none⟩ ∧
      ∃ rs, RunTask demoWorld 5 demoTask ⟨[], hm⟩ = .panic rs) ∧
    (∃ hm, (NewHistoryManager "history.json").Load demoWorld bareTaskFile = .ok hm ∧
      hm.GetTaskHistory "t" = some (some ⟨none⟩, hm) ∧
      TaskHistory.Has (some ⟨none⟩) "a.csv.bak" = some false ∧
      TaskHistory.Add demoWorld "a.csv.bak" ⟨[], some ⟨none⟩⟩ =
        .panic ⟨[Event.Now 0], some ⟨none⟩⟩ ∧
      ∃ rs, RunTask demoWorld 5 demoTask ⟨[], hm⟩ = .panic rs) ∧
    (∃ hm, (NewHistoryManager "history.json").Load demoWorld nullFile = .ok hm ∧
      hm.GetTaskHistory "t" = none ∧
      ∃ rs, RunTask demoWorld 5 demoTask ⟨[], hm⟩ = .panic rs) :=
  ⟨⟨⟨some [("t", none)], "history.json"⟩, rfl, by decide, by decide, rfl, _, rfl⟩,
    ⟨⟨some [("t", some ⟨none⟩)], "history.json"⟩, rfl, by decide, by decide, rfl, _, rfl⟩,
    ⟨⟨none, "history.json"⟩, rfl, by decide, _, rfl⟩⟩

end DataTransferHX
